import Mathlib

/-! # Google Maps skill (`src/skills/google-maps/skill.js`)

A shallow embedding of the field-extraction pipeline of the skill: the six
pattern extractors, the operations built on them, and the small part of the
JavaScript runtime they rely on (UTF-16 strings, backtracking regular
expressions, `trim`, `includes`, `parseFloat`, `encodeURIComponent`).

JavaScript strings are sequences of UTF-16 code units, so a string is a list
of naturals below `65536`.  An unpaired surrogate is a legal code unit of such
a string, which matters for `encodeURIComponent`.
-/

namespace GoogleMaps

/-! ## Strings -/

/-- A JavaScript string: its UTF-16 code units. -/
abbrev JsString := List Nat

/-- UTF-16 code units of one Unicode scalar value. -/
def utf16 (c : Char) : List Nat :=
  if c.toNat < 65536 then [c.toNat]
  else [55296 + (c.toNat - 65536) / 1024, 56320 + (c.toNat - 65536) % 1024]

/-- The JavaScript string written by a source literal. -/
def js (s : String) : JsString :=
  (s.toList.map utf16).flatten

/-- ECMAScript `WhiteSpace` and `LineTerminator` code units: what `\s` matches
and what `trim` strips. -/
def isWhiteSpace (c : Nat) : Bool :=
  c == 9 || c == 10 || c == 11 || c == 12 || c == 13 || c == 32 || c == 160 ||
  c == 5760 || (8192 ≤ c && c ≤ 8202) || c == 8232 || c == 8233 || c == 8239 ||
  c == 8287 || c == 12288 || c == 65279

/-- The class `\d`. -/
def isDigit (c : Nat) : Bool :=
  48 ≤ c && c ≤ 57

/-- Implements `String.prototype.trim`. -/
def trim (s : JsString) : JsString :=
  ((s.dropWhile isWhiteSpace).reverse.dropWhile isWhiteSpace).reverse

/-- Implements `String.prototype.includes`. -/
def includes : JsString → JsString → Bool
  | [], sub => sub.isPrefixOf []
  | c :: cs, sub => sub.isPrefixOf (c :: cs) || includes cs sub

/-! ## Regular expressions

Every quantifier in the patterns of the skill applies to a single character
class, and no capture group is itself quantified, so a pattern is a list of
alternatives, each a list of the nodes below.  The matcher is the
backtracking matcher of ECMAScript written with continuations: `pos` counts
the code units consumed since the start of the attempt and `marks` collects
the positions of the group parentheses passed on the way. -/

/-- Character classes that occur in the patterns. -/
inductive CharSet where
  | digit
  | space
  | any
  | noneOf (c : Nat)
  deriving DecidableEq, Repr

/-- Membership of a code unit in a class. -/
def CharSet.test : CharSet → Nat → Bool
  | .digit, c => isDigit c
  | .space, c => isWhiteSpace c
  | .any, _ => true
  | .noneOf d, c => c != d

/-- Pattern nodes. -/
inductive Node where
  | char (c : Nat)
  | opt (c : Nat)
  | star (s : CharSet)
  | plus (s : CharSet)
  | lazyStar (s : CharSet)
  | groupOpen
  | groupClose
  deriving DecidableEq, Repr

/-- A regular expression literal: its alternatives and its `i` flag. -/
structure Regex where
  alternatives : List (List Node)
  ignoreCase : Bool

/-- The nodes of a run of literal characters. -/
def lit (s : String) : List Node :=
  (js s).map Node.char

/-- Case canonicalisation of a pattern without the `u` flag.  ASCII letters go
to upper case.  A code unit outside ASCII never canonicalises to an ASCII one,
and every literal of an `i`-flagged pattern of the skill is ASCII, so leaving
the other code units alone gives the same comparisons. -/
def canonicalize (c : Nat) : Nat :=
  if 97 ≤ c ∧ c ≤ 122 then c - 32 else c

/-- Comparison of an input code unit with a literal of the pattern. -/
def eqChar (ic : Bool) (x c : Nat) : Bool :=
  if ic then canonicalize x == canonicalize c else x == c

/-- Result of a match attempt: the end position and the group marks. -/
abbrev MatchEnd := Nat × List Nat

/-- Greedy repetition of a class, at least `min` times, then the continuation;
the longest run is tried first. -/
def greedy (p : Nat → Bool) (k : Nat → List Nat → JsString → Option MatchEnd) :
    Nat → Nat → List Nat → JsString → Option MatchEnd
  | min, pos, marks, [] => if min = 0 then k pos marks [] else none
  | min, pos, marks, c :: cs =>
    if p c then
      match greedy p k (min - 1) (pos + 1) marks cs with
      | some r => some r
      | none => if min = 0 then k pos marks (c :: cs) else none
    else if min = 0 then k pos marks (c :: cs) else none

/-- Lazy repetition of a class: the continuation is tried first. -/
def lazy (p : Nat → Bool) (k : Nat → List Nat → JsString → Option MatchEnd) :
    Nat → List Nat → JsString → Option MatchEnd
  | pos, marks, [] => k pos marks []
  | pos, marks, c :: cs =>
    match k pos marks (c :: cs) with
    | some r => some r
    | none => if p c then lazy p k (pos + 1) marks cs else none

/-- Match a sequence of nodes at the head of the input. -/
def matchNodes (ic : Bool) : List Node → Nat → List Nat → JsString → Option MatchEnd
  | [], pos, marks, _ => some (pos, marks)
  | .char c :: rest, pos, marks, inp =>
    match inp with
    | [] => none
    | x :: xs => if eqChar ic x c then matchNodes ic rest (pos + 1) marks xs else none
  | .opt c :: rest, pos, marks, inp =>
    match inp with
    | [] => matchNodes ic rest pos marks []
    | x :: xs =>
      if eqChar ic x c then
        match matchNodes ic rest (pos + 1) marks xs with
        | some r => some r
        | none => matchNodes ic rest pos marks (x :: xs)
      else matchNodes ic rest pos marks (x :: xs)
  | .star s :: rest, pos, marks, inp => greedy s.test (matchNodes ic rest) 0 pos marks inp
  | .plus s :: rest, pos, marks, inp => greedy s.test (matchNodes ic rest) 1 pos marks inp
  | .lazyStar s :: rest, pos, marks, inp => lazy s.test (matchNodes ic rest) pos marks inp
  | .groupOpen :: rest, pos, marks, inp => matchNodes ic rest pos (marks ++ [pos]) inp
  | .groupClose :: rest, pos, marks, inp => matchNodes ic rest pos (marks ++ [pos]) inp

/-- Try the alternatives in order at the head of the input. -/
def matchAlternatives (ic : Bool) : List (List Node) → JsString → Option MatchEnd
  | [], _ => none
  | alt :: alts, inp =>
    match matchNodes ic alt 0 [] inp with
    | some r => some r
    | none => matchAlternatives ic alts inp

/-- A match array: `index`, the matched text `m[0]`, and the captures
`m[1]`, `m[2]`, ... -/
structure RegExpMatch where
  index : Nat
  whole : JsString
  groups : List JsString
  deriving DecidableEq, Repr

/-- Captured substrings cut out of the input by consecutive pairs of marks. -/
def captures (inp : JsString) : List Nat → List JsString
  | a :: b :: rest => (inp.drop a).take (b - a) :: captures inp rest
  | _ => []

/-- Scan for the leftmost position at which the pattern matches; `idx` is the
index of the head of `inp` in the whole subject. -/
def searchFrom (re : Regex) : Nat → JsString → Option RegExpMatch
  | idx, [] =>
    match matchAlternatives re.ignoreCase re.alternatives [] with
    | some (n, marks) => some ⟨idx, [].take n, captures [] marks⟩
    | none => none
  | idx, c :: cs =>
    match matchAlternatives re.ignoreCase re.alternatives (c :: cs) with
    | some (n, marks) => some ⟨idx, (c :: cs).take n, captures (c :: cs) marks⟩
    | none => searchFrom re (idx + 1) cs

/-- Implements `RegExp.prototype.exec` started at `lastIndex`: `null` when
`lastIndex` is past the end or nothing matches from there on. -/
def exec (re : Regex) (content : JsString) (lastIndex : Nat) : Option RegExpMatch :=
  if content.length < lastIndex then none
  else searchFrom re lastIndex (content.drop lastIndex)

/-- Implements `String.prototype.match` for a pattern without the `g` flag. -/
def stringMatch (content : JsString) (re : Regex) : Option RegExpMatch :=
  exec re content 0

/-- Implements `String.prototype.search`: the index of the first match or `-1`. -/
def stringSearch (content : JsString) (re : Regex) : Int :=
  match exec re content 0 with
  | some m => (m.index : Int)
  | none => -1

/-- The capture `m[i]` for `i ≥ 1`. -/
def RegExpMatch.group (m : RegExpMatch) (i : Nat) : JsString :=
  (m.groups.get? (i - 1)).getD []

/-! ## Numbers -/

/-- A Number value: `NaN`, an infinity, or the finite double
`± mantissa * 2 ^ exponent`, written with an odd mantissa; the zeros are
`finite false 0 0` and `finite true 0 0`. -/
inductive JsNumber where
  | nan
  | infinity (negative : Bool)
  | finite (negative : Bool) (mantissa : Nat) (exponent : Int)
  deriving DecidableEq, Repr

/-- Value of a run of decimal digits after the digits already read. -/
def digitsValue (acc : Nat) : JsString → Nat
  | [] => acc
  | c :: cs => digitsValue (acc * 10 + (c - 48)) cs

/-- Number of binary digits of `n`, counted in at most `fuel` halvings. -/
def bitLength : Nat → Nat → Nat
  | 0, _ => 0
  | fuel + 1, n => if n = 0 then 0 else bitLength fuel (n / 2) + 1

/-- Moves the factors two of a significand into the exponent, at most `fuel`
of them. -/
def oddMantissa : Nat → Nat → Int → Nat × Int
  | 0, m, e => (m, e)
  | fuel + 1, m, e => if m % 2 = 0 ∧ m ≠ 0 then oddMantissa fuel (m / 2) (e + 1) else (m, e)

/-- The double nearest to the positive value `num / den`, as significand and
exponent, a tie going to the even significand; `none` from `2 ^ 1024` on (IEEE
754 binary64, roundTiesToEven).  The significand is first taken with 53 bits,
or fewer at the least exponent `-1074`.  The rounding is exact for numerals of
any length, as in the engines; ECMAScript lets an implementation round a
numeral of more than 20 significant digits from its first 20. -/
def roundMagnitude (num den : Nat) : Option (Nat × Int) :=
  if num = 0 then some (0, 0)
  else
    let k₀ : Int := (bitLength num num : Int) - (bitLength den den : Int)
    let atLeast : Bool :=
      if 0 ≤ k₀ then den <<< k₀.toNat ≤ num else den ≤ num <<< (-k₀).toNat
    let k : Int := if atLeast then k₀ else k₀ - 1
    let e : Int := max (k - 52) (-1074)
    let a : Nat := if 0 ≤ e then num else num <<< (-e).toNat
    let b : Nat := if 0 ≤ e then den <<< e.toNat else den
    let q := a / b
    let r := a % b
    let significand := if b < 2 * r ∨ (2 * r = b ∧ q % 2 = 1) then q + 1 else q
    if significand = 0 then some (0, 0)
    else if 971 ≤ e ∧ 2 ^ 53 ≤ significand <<< (e - 971).toNat then none
    else some (oddMantissa 64 significand e)

/-- The Number value for the mathematical value `num / den` with the sign
given: the nearest double, or the infinity of that sign. -/
def roundToDouble (negative : Bool) (num den : Nat) : JsNumber :=
  match roundMagnitude num den with
  | some (m, e) => .finite negative m e
  | none => .infinity negative

/-- The value of the `ExponentPart` at the head of the text, `0` when the text
does not start with one. -/
def exponentPart (s : JsString) : Int :=
  match s with
  | c :: rest =>
    if c = 101 ∨ c = 69 then
      match rest with
      | 45 :: ds => -(digitsValue 0 (ds.takeWhile isDigit) : Int)
      | 43 :: ds => digitsValue 0 (ds.takeWhile isDigit)
      | ds => digitsValue 0 (ds.takeWhile isDigit)
    else 0
  | [] => 0

/-- The Number value of the longest prefix of the text that is a
`StrUnsignedDecimalLiteral` (`Infinity`, or digits with an optional dot,
fraction and exponent part), with the sign given; `NaN` when there is no such
prefix. -/
def strUnsignedDecimalLiteral (negative : Bool) (s : JsString) : JsNumber :=
  if (js "Infinity").isPrefixOf s then .infinity negative
  else
    let intPart := s.takeWhile isDigit
    let rest := s.dropWhile isDigit
    let fracPart :=
      match rest with
      | 46 :: more => more.takeWhile isDigit
      | _ => []
    let tail :=
      match rest with
      | 46 :: more => more.dropWhile isDigit
      | _ => rest
    if intPart.isEmpty && fracPart.isEmpty then .nan
    else
      let x : Int := exponentPart tail - fracPart.length
      if 0 ≤ x then roundToDouble negative (digitsValue 0 (intPart ++ fracPart) * 10 ^ x.toNat) 1
      else roundToDouble negative (digitsValue 0 (intPart ++ fracPart)) (10 ^ (-x).toNat)

/-- Implements `parseFloat`: white space in front is skipped, then the longest
prefix that is a `StrDecimalLiteral` is read and rounded to a double. -/
def parseFloat (s : JsString) : JsNumber :=
  match s.dropWhile isWhiteSpace with
  | 45 :: rest => strUnsignedDecimalLiteral true rest
  | 43 :: rest => strUnsignedDecimalLiteral false rest
  | trimmed => strUnsignedDecimalLiteral false trimmed

/-! ## Percent-encoding -/

/-- The message of the `URIError` that `encodeURIComponent` throws (as V8
words it). -/
def uriMalformed : JsString :=
  js "URI malformed"

/-- Upper-case hexadecimal digit. -/
def hexDigit (n : Nat) : Nat :=
  if n < 10 then 48 + n else 55 + n

/-- The escape `%XX` of one octet. -/
def percentOctet (b : Nat) : JsString :=
  [37, hexDigit (b / 16), hexDigit (b % 16)]

/-- UTF-8 octets of a code point. -/
def utf8 (cp : Nat) : List Nat :=
  if cp < 128 then [cp]
  else if cp < 2048 then [192 + cp / 64, 128 + cp % 64]
  else if cp < 65536 then [224 + cp / 4096, 128 + cp / 64 % 64, 128 + cp % 64]
  else [240 + cp / 262144, 128 + cp / 4096 % 64, 128 + cp / 64 % 64, 128 + cp % 64]

/-- The escape of a code point: each of its UTF-8 octets as `%XX`. -/
def percentEncode (cp : Nat) : JsString :=
  ((utf8 cp).map percentOctet).flatten

/-- Code units that `encodeURIComponent` leaves alone: ASCII letters, digits
and `- _ . ! ~ * ' ( )`. -/
def uriUnreserved (c : Nat) : Bool :=
  (65 ≤ c && c ≤ 90) || (97 ≤ c && c ≤ 122) || (48 ≤ c && c ≤ 57) ||
  c == 45 || c == 95 || c == 46 || c == 33 || c == 126 || c == 42 || c == 39 ||
  c == 40 || c == 41

/-- High (leading) surrogate. -/
def isHighSurrogate (c : Nat) : Bool :=
  55296 ≤ c && c ≤ 56319

/-- Low (trailing) surrogate. -/
def isLowSurrogate (c : Nat) : Bool :=
  56320 ≤ c && c ≤ 57343

/-- Implements `encodeURIComponent`: the error is the message of the
`URIError` thrown at an unpaired surrogate. -/
def encodeURIComponent : JsString → Except JsString JsString
  | [] => .ok []
  | [c] =>
    if uriUnreserved c then .ok [c]
    else if isLowSurrogate c || isHighSurrogate c then .error uriMalformed
    else .ok (percentEncode c)
  | c :: d :: ds =>
    if uriUnreserved c then
      match encodeURIComponent (d :: ds) with
      | .ok e => .ok (c :: e)
      | .error m => .error m
    else if isLowSurrogate c then .error uriMalformed
    else if isHighSurrogate c then
      if isLowSurrogate d then
        match encodeURIComponent ds with
        | .ok e => .ok (percentEncode ((c - 55296) * 1024 + (d - 56320) + 65536) ++ e)
        | .error m => .error m
      else .error uriMalformed
    else
      match encodeURIComponent (d :: ds) with
      | .ok e => .ok (percentEncode c ++ e)
      | .error m => .error m

/-- Implements `String.prototype.isWellFormed`: no unpaired surrogate. -/
def isWellFormed : JsString → Bool
  | [] => true
  | [c] => !(isLowSurrogate c || isHighSurrogate c)
  | c :: d :: ds =>
    if isLowSurrogate c then false
    else if isHighSurrogate c then isLowSurrogate d && isWellFormed ds
    else isWellFormed (d :: ds)

/-! ## Values, objects and completions -/

/-- One element of the `results` array: `{ name, rating, address }`. -/
structure SearchEntry where
  name : JsString
  rating : Option JsNumber
  address : Option JsString
  deriving DecidableEq, Repr

/-- The values that the objects returned by the skill hold. -/
inductive JsValue where
  | undefined
  | null
  | boolean (b : Bool)
  | number (n : JsNumber)
  | string (s : JsString)
  | array (entries : List SearchEntry)
  deriving DecidableEq, Repr

/-- The property names of the objects returned by the skill. -/
inductive Key where
  | error
  | url
  | name
  | rating
  | address
  | phone
  | hours
  | isOpen
  | directions
  | directionsUrl
  | query
  | results
  | searchUrl
  deriving DecidableEq, Repr

/-- An object literal: its properties in source order. -/
abbrev JsObject := List (Key × JsValue)

/-- Property read `obj.key`: `undefined` when the object has no such property. -/
def JsObject.get : JsObject → Key → JsValue
  | [], _ => .undefined
  | (k, v) :: rest, key => if k = key then v else JsObject.get rest key

/-- Whether the object has the property. -/
def JsObject.has (obj : JsObject) (key : Key) : Bool :=
  obj.any (fun kv => kv.1 == key)

/-- The abstract operation `ToBoolean`, as applied by `if (...)`. -/
def JsValue.truthy : JsValue → Bool
  | .undefined => false
  | .null => false
  | .boolean b => b
  | .number .nan => false
  | .number (.infinity _) => true
  | .number (.finite _ m _) => m != 0
  | .string s => !s.isEmpty
  | .array _ => true

/-- A string or `null`. -/
def JsValue.ofString : Option JsString → JsValue
  | some s => .string s
  | none => .null

/-- A number or `null`. -/
def JsValue.ofNumber : Option JsNumber → JsValue
  | some n => .number n
  | none => .null

/-- A boolean or `null`. -/
def JsValue.ofBoolean : Option Bool → JsValue
  | some b => .boolean b
  | none => .null

/-- How a call ends: it returns a value (the promise of an `async` function
is fulfilled), it throws an error with the given `message` (the promise is
rejected), or it does not end. -/
inductive Completion (α : Type) where
  | normal (value : α)
  | throw (message : JsString)
  | diverge
  deriving DecidableEq, Repr

/-- The collaborator `web_fetch({ url, extractMode: 'text' })`: the page text,
or the message of the error it fails with.  The module binds its import to
`webFetch` and calls `web_fetch`; where the host defines no such global the
call fails with a `ReferenceError`, which is one more failure message. -/
abbrev Fetch := JsString → Except JsString JsString

/-! ## The skill -/

/-- Pattern `/<h1[^>]*>([^<]+)<\/h1>/i`. -/
def nameRegex : Regex :=
  ⟨[lit "<h1" ++ [.star (.noneOf 62), .char 62, .groupOpen, .plus (.noneOf 60), .groupClose] ++
      lit "</h1>"], true⟩

/-- Pattern of `extractRating`: `(\d+\.?\d*)\s*` followed by the three
characters U+00E2 U+02DC U+2026 that the source file holds after `\s*`. -/
def ratingRegex : Regex :=
  ⟨[[.groupOpen, .plus .digit, .opt 46, .star .digit, .groupClose, .star .space] ++
      [.char 226, .char 732, .char 8230]], false⟩

/-- Pattern `/<button[^>]*data-value="Address"[^>]*>([^<]+)<\/button>/i`. -/
def addressRegex : Regex :=
  ⟨[lit "<button" ++ [.star (.noneOf 62)] ++ lit "data-value=\"Address\"" ++
      [.star (.noneOf 62), .char 62, .groupOpen, .plus (.noneOf 60), .groupClose] ++
      lit "</button>"], true⟩

/-- Pattern `/<a[^>]*href="tel:([^"]+)"[^>]*>([^<]+)<\/a>/i`. -/
def phoneRegex : Regex :=
  ⟨[lit "<a" ++ [.star (.noneOf 62)] ++ lit "href=\"tel:" ++
      [.groupOpen, .plus (.noneOf 34), .groupClose, .char 34, .star (.noneOf 62), .char 62,
        .groupOpen, .plus (.noneOf 60), .groupClose] ++
      lit "</a>"], true⟩

/-- Pattern `/<span[^>]*aria-label="Hours"[^>]*>([^<]+)<\/span>/i`. -/
def hoursRegex : Regex :=
  ⟨[lit "<span" ++ [.star (.noneOf 62)] ++ lit "aria-label=\"Hours\"" ++
      [.star (.noneOf 62), .char 62, .groupOpen, .plus (.noneOf 60), .groupClose] ++
      lit "</span>"], true⟩

/-- Pattern `/Closed|Open now/i`. -/
def openRegex : Regex :=
  ⟨[lit "Closed", lit "Open now"], true⟩

/-- Pattern `/<div[^>]*class="[^"]*result[^"]*"[^>]*>([\s\S]*?)<\/div>/gi`. -/
def resultRegex : Regex :=
  ⟨[lit "<div" ++ [.star (.noneOf 62)] ++ lit "class=\"" ++ [.star (.noneOf 34)] ++
      lit "result" ++
      [.star (.noneOf 34), .char 34, .star (.noneOf 62), .char 62,
        .groupOpen, .lazyStar .any, .groupClose] ++
      lit "</div>"], true⟩

/-- Source: `extractName`. -/
def extractName (content : JsString) : Option JsString :=
  match stringMatch content nameRegex with
  | some nameMatch => some (trim (nameMatch.group 1))
  | none => none

/-- Source: `extractRating`. -/
def extractRating (content : JsString) : Option JsNumber :=
  match stringMatch content ratingRegex with
  | some ratingMatch => some (parseFloat (ratingMatch.group 1))
  | none => none

/-- Source: `extractAddress`. -/
def extractAddress (content : JsString) : Option JsString :=
  let addressMatch :=
    if stringSearch content addressRegex ≥ 0 then stringMatch content addressRegex else none
  match addressMatch with
  | some m => some (trim (m.group 1))
  | none => none

/-- Source: `extractPhone`. -/
def extractPhone (content : JsString) : Option JsString :=
  match stringMatch content phoneRegex with
  | some phoneMatch => some (trim (phoneMatch.group 2))
  | none => none

/-- Source: `extractHours`. -/
def extractHours (content : JsString) : Option JsString :=
  match stringMatch content hoursRegex with
  | some hoursSection => some (trim (hoursSection.group 1))
  | none => none

/-- Source: `checkIfOpen`. -/
def checkIfOpen (content : JsString) : Option Bool :=
  match stringMatch content openRegex with
  | some openMatch => some (decide (openMatch.whole = js "Open now"))
  | none => none

/-- The text before the encoded URL in the directions link. -/
def directionsBase : JsString :=
  js "https://www.google.com/maps/dir/?api=1&destination="

/-- Source: `extractDirectionsUrl`; it throws what `encodeURIComponent` throws. -/
def extractDirectionsUrl (url : JsString) : Except JsString JsString :=
  match encodeURIComponent url with
  | .ok e => .ok (directionsBase ++ e)
  | .error message => .error message

/-- Source: `extractFromUrl`.  The `try` block covers the fetch and the
construction of `info`; `catch` turns what is thrown into `{ error }`. -/
def extractFromUrl (web_fetch : Fetch) (url : JsString) : Completion JsObject :=
  if !includes url (js "google.com/maps") then
    .normal [(.error, .string (js "Invalid Google Maps URL"))]
  else
    match web_fetch url with
    | .error message => .normal [(.error, .string message)]
    | .ok content =>
      match extractDirectionsUrl url with
      | .error message => .normal [(.error, .string message)]
      | .ok directions =>
        .normal [(.url, .string url),
          (.name, .ofString (extractName content)),
          (.rating, .ofNumber (extractRating content)),
          (.address, .ofString (extractAddress content)),
          (.phone, .ofString (extractPhone content)),
          (.hours, .ofString (extractHours content)),
          (.isOpen, .ofBoolean (checkIfOpen content)),
          (.directions, .string directions)]

/-- The `while` loop of `parseSearchResults`, run for at most `fuel`
iterations from `lastIndex`; `none` when the fuel runs out before `exec`
returns `null`. -/
def parseLoop (content : JsString) : Nat → Nat → List SearchEntry → Option (List SearchEntry)
  | 0, _, _ => none
  | fuel + 1, lastIndex, results =>
    match exec resultRegex content lastIndex with
    | none => some results
    | some m =>
      let resultHtml := m.group 1
      let name := extractName resultHtml
      let rating := extractRating resultHtml
      let address := extractAddress resultHtml
      let results :=
        match name with
        | some n => if (JsValue.string n).truthy then results ++ [⟨n, rating, address⟩] else results
        | none => results
      parseLoop content fuel (m.index + m.whole.length) results

/-- Source: `parseSearchResults`: the loop with one iteration per code unit
and one more, which is enough for it to end (every match is non-empty);
`none` stands for a loop that does not end. -/
def parseSearchResults (content : JsString) : Option (List SearchEntry) :=
  parseLoop content (content.length + 1) 0 []

/-- Source: `searchPlaces`.  The search URL is built before the `try` block. -/
def searchPlaces (web_fetch : Fetch) (query : JsString) : Completion JsObject :=
  match encodeURIComponent query with
  | .error message => .throw message
  | .ok e =>
    let searchUrl := js "https://www.google.com/maps/search/" ++ e
    match web_fetch searchUrl with
    | .error message => .normal [(.error, .string message)]
    | .ok content =>
      match parseSearchResults content with
      | none => .diverge
      | some results =>
        .normal [(.query, .string query), (.results, .array results), (.searchUrl, .string searchUrl)]

/-- Source: `getHours`. -/
def getHours (web_fetch : Fetch) (url : JsString) : Completion JsObject :=
  match extractFromUrl web_fetch url with
  | .normal info =>
    if (info.get .error).truthy then .normal info
    else .normal [(.name, info.get .name), (.hours, info.get .hours), (.url, .string url)]
  | .throw message => .throw message
  | .diverge => .diverge

/-- Source: `checkOpenStatus`. -/
def checkOpenStatus (web_fetch : Fetch) (url : JsString) : Completion JsObject :=
  match extractFromUrl web_fetch url with
  | .normal info =>
    if (info.get .error).truthy then .normal info
    else
      .normal [(.name, info.get .name), (.isOpen, info.get .isOpen), (.hours, info.get .hours),
        (.url, .string url)]
  | .throw message => .throw message
  | .diverge => .diverge

/-- Source: `getPhone`. -/
def getPhone (web_fetch : Fetch) (url : JsString) : Completion JsObject :=
  match extractFromUrl web_fetch url with
  | .normal info =>
    if (info.get .error).truthy then .normal info
    else .normal [(.name, info.get .name), (.phone, info.get .phone), (.url, .string url)]
  | .throw message => .throw message
  | .diverge => .diverge

/-- Source: `getDirections`.  The link is computed again, outside any `try`. -/
def getDirections (web_fetch : Fetch) (url : JsString) : Completion JsObject :=
  match extractFromUrl web_fetch url with
  | .normal info =>
    if (info.get .error).truthy then .normal info
    else
      match extractDirectionsUrl url with
      | .error message => .throw message
      | .ok directions =>
        .normal [(.name, info.get .name), (.address, info.get .address),
          (.directionsUrl, .string directions), (.url, .string url)]
  | .throw message => .throw message
  | .diverge => .diverge

/-- Source: `getPlaceDetails`. -/
def getPlaceDetails (web_fetch : Fetch) (url : JsString) : Completion JsObject :=
  extractFromUrl web_fetch url

/-! ## Vocabulary of the properties -/

/-- Lower case of an ASCII letter; other code units are left alone. -/
def asciiLower (c : Nat) : Nat :=
  if 65 ≤ c ∧ c ≤ 90 then c + 32 else c

/-- Whether the text holds an "open now" or a "closed" marker in some letter
case: the lower-cased text includes one of the two lower-case words. -/
def hasOpenMarker (content : JsString) : Bool :=
  includes (content.map asciiLower) (js "open now") ||
    includes (content.map asciiLower) (js "closed")

/-- The star glyph U+2605. -/
def starGlyph : JsString :=
  js "★"

/-- The three code units U+00E2 U+02DC U+2026 that stand in the rating pattern
of the source file: the UTF-8 octets of U+2605 read as Windows-1252. -/
def sourceGlyph : JsString :=
  [226, 732, 8230]

/-- A property of match attempts that survives consuming one more code unit
in front of the attempt. -/
def StepClosed (Q : Nat → JsString → MatchEnd → Prop) : Prop :=
  ∀ pos c cs r, Q (pos + 1) cs r → Q pos (c :: cs) r

/-- What every entry pushed by `parseSearchResults` satisfies: its name is
non-empty and was extracted, with its rating and address, from one segment. -/
def NamedEntry (entry : SearchEntry) : Prop :=
  entry.name ≠ [] ∧
    ∃ resultHtml, extractName resultHtml = some entry.name ∧
      entry.rating = extractRating resultHtml ∧ entry.address = extractAddress resultHtml

/-- The words a sequence of nodes can match, with the marks it leaves: `Run ic
nodes pos w added` says that `nodes` can consume exactly `w` starting at
position `pos`, passing its group parentheses at the positions `added`.  This
is the language of the pattern; it says nothing about which match the
backtracking order prefers. -/
def Run (ic : Bool) : List Node → Nat → JsString → List Nat → Prop
  | [], _, w, added => w = [] ∧ added = []
  | .char c :: rest, pos, w, added =>
    ∃ x w', w = x :: w' ∧ eqChar ic x c = true ∧ Run ic rest (pos + 1) w' added
  | .opt c :: rest, pos, w, added =>
    Run ic rest pos w added ∨
      ∃ x w', w = x :: w' ∧ eqChar ic x c = true ∧ Run ic rest (pos + 1) w' added
  | .star s :: rest, pos, w, added =>
    ∃ a w', w = a ++ w' ∧ (∀ x ∈ a, s.test x = true) ∧ Run ic rest (pos + a.length) w' added
  | .plus s :: rest, pos, w, added =>
    ∃ a w', w = a ++ w' ∧ a ≠ [] ∧ (∀ x ∈ a, s.test x = true) ∧
      Run ic rest (pos + a.length) w' added
  | .lazyStar s :: rest, pos, w, added =>
    ∃ a w', w = a ++ w' ∧ (∀ x ∈ a, s.test x = true) ∧ Run ic rest (pos + a.length) w' added
  | .groupOpen :: rest, pos, w, added => ∃ added', added = pos :: added' ∧ Run ic rest pos w added'
  | .groupClose :: rest, pos, w, added => ∃ added', added = pos :: added' ∧ Run ic rest pos w added'

/-- The nodes that end the four field patterns: `[^>]*>([^<]+)` and the closing
tag. -/
def fieldTail (close : JsString) : List Node :=
  [.star (.noneOf 62), .char 62, .groupOpen, .plus (.noneOf 60), .groupClose] ++
    close.map Node.char

/-- The rational value of a finite number; `none` for `NaN` and the
infinities. -/
def JsNumber.value : JsNumber → Option ℚ
  | .nan => none
  | .infinity _ => none
  | .finite negative m e =>
    let magnitude : ℚ := if 0 ≤ e then (m : ℚ) * 2 ^ e.toNat else (m : ℚ) / 2 ^ (-e).toNat
    some (if negative then -magnitude else magnitude)

/-- A span the name pattern recognises: `<h1`, attribute text up to the first
`>`, a non-empty `body` free of `<`, and `</h1>`; tag names in any letter
case. -/
def NameSpan (w body : JsString) : Prop :=
  ∃ o a c, w = o ++ a ++ 62 :: body ++ c ∧ o.map asciiLower = js "<h1" ∧ 62 ∉ a ∧
    body ≠ [] ∧ 60 ∉ body ∧ c.map asciiLower = js "</h1>"

/-- An `<h1>` heading element with arbitrary content: `<h1`, attribute text up
to the first `>`, the content `inner` up to the first `</h1>`, and `</h1>`.
The content may be empty or hold markup. -/
def HeadingElement (w inner : JsString) : Prop :=
  ∃ o a c, w = o ++ a ++ 62 :: inner ++ c ∧ o.map asciiLower = js "<h1" ∧ 62 ∉ a ∧
    includes (inner.map asciiLower) (js "</h1>") = false ∧ c.map asciiLower = js "</h1>"

/-- The nodes of the opening tag in the result pattern:
`<div[^>]*class="[^"]*result[^"]*"[^>]*>`. -/
def resultOpen : List Node :=
  lit "<div" ++ [.star (.noneOf 62)] ++ lit "class=\"" ++ [.star (.noneOf 34)] ++ lit "result" ++
    [.star (.noneOf 34), .char 34, .star (.noneOf 62), .char 62]

/-- An opening tag the result pattern recognises: `<div`, attribute text free
of `>`, `class="`, a class value free of `"` that holds `result`, `"`,
attribute text free of `>`, and `>`; names in any letter case. -/
def ResultOpenTag (w : JsString) : Prop :=
  ∃ o a₁ cl c₁ r c₂ a₂, w = o ++ a₁ ++ cl ++ c₁ ++ r ++ c₂ ++ 34 :: a₂ ++ [62] ∧
    o.map asciiLower = js "<div" ∧ 62 ∉ a₁ ∧ cl.map asciiLower = js "class=\"" ∧ 34 ∉ c₁ ∧
    r.map asciiLower = js "result" ∧ 34 ∉ c₂ ∧ 62 ∉ a₂

/-- A span the result pattern recognises: an opening tag, any text `body`, and
`</div>` in any letter case. -/
def ResultSpan (w body : JsString) : Prop :=
  ∃ tag d, w = tag ++ body ++ d ∧ ResultOpenTag tag ∧ d.map asciiLower = js "</div>"

/-- A match of the result pattern in `content`: it starts at `m.index` with an
opening tag, its first capture `seg` is the text up to the first `</div>` after
the tag (no `</div>`, in any letter case, starts inside `seg`), and it ends
with that `</div>`. -/
def ResultMatch (content : JsString) (m : RegExpMatch) : Prop :=
  ∃ pre tag seg d rest, content = pre ++ tag ++ seg ++ d ++ rest ∧ m.index = pre.length ∧
    m.whole = tag ++ seg ++ d ∧ m.group 1 = seg ∧ ResultOpenTag tag ∧
    d.map asciiLower = js "</div>" ∧
    ∀ s₁ s₂, seg = s₁ ++ s₂ → s₂ ≠ [] → ¬ js "</div>" <+: (s₂ ++ d ++ rest).map asciiLower

/-- The entry that one iteration of the loop of `parseSearchResults` pushes for
the match `m`, if any: the body of the loop. -/
def entryOf (m : RegExpMatch) : Option SearchEntry :=
  let resultHtml := m.group 1
  match extractName resultHtml with
  | some n =>
    if (JsValue.string n).truthy then
      some ⟨n, extractRating resultHtml, extractAddress resultHtml⟩
    else none
  | none => none

/-- The matches that the successive calls of `exec` return in the loop of
`parseSearchResults`, run for at most `fuel` iterations from `lastIndex`. -/
def execLoop (content : JsString) : Nat → Nat → Option (List RegExpMatch)
  | 0, _ => none
  | fuel + 1, lastIndex =>
    match exec resultRegex content lastIndex with
    | none => some []
    | some m =>
      match execLoop content fuel (m.index + m.whole.length) with
      | some ms => some (m :: ms)
      | none => none

/-- The number of closing `</div>` tags of a text, in any letter case: the
positions at which the lower-cased text continues with `</div>`. -/
def countClosings : JsString → Nat
  | [] => 0
  | c :: cs =>
    (if (js "</div>").isPrefixOf ((c :: cs).map asciiLower) then 1 else 0) + countClosings cs

/-- The first `tel:` link of a text, as the phone pattern reads it: the text
is `pre`, `<a`, attribute text `a` free of `>`, `href="tel:`, a non-empty
`number` free of `"`, `"`, attribute text `b` free of `>`, `>`, a non-empty
`display` free of `<`, `</a>` and `post`; tag and attribute names in any
letter case.  No `href="tel:` starts before this one, and none lies between it
and the end `>` of the opening tag. -/
def FirstTelLink (content number display : JsString) : Prop :=
  ∃ pre o a h b c post,
    content = pre ++ o ++ a ++ h ++ number ++ 34 :: b ++ 62 :: display ++ c ++ post ∧
    o.map asciiLower = js "<a" ∧ 62 ∉ a ∧ h.map asciiLower = js "href=\"tel:" ∧
    number ≠ [] ∧ 34 ∉ number ∧ 62 ∉ b ∧ display ≠ [] ∧ 60 ∉ display ∧
    c.map asciiLower = js "</a>" ∧
    includes ((pre ++ o ++ a).map asciiLower) (js "href=\"tel:") = false ∧
    includes ((number ++ 34 :: b).map asciiLower) (js "href=\"tel:") = false

/-- One result container of a results page, with the text in front of it:
`before`, then `<div class="result">`, `lead`, `<h1>`, `heading`, `</h1>`,
`trail`, and `</div>`. -/
structure Container where
  before : JsString
  lead : JsString
  heading : JsString
  trail : JsString

/-- The text inside a container. -/
def Container.inner (c : Container) : JsString :=
  c.lead ++ js "<h1>" ++ c.heading ++ js "</h1>" ++ c.trail

/-- The text of a container. -/
def Container.text (c : Container) : JsString :=
  js "<div class=\"result\">" ++ c.inner ++ js "</div>"

/-- A results page: the containers in order, each after its `before` text, and
the text `last` after them. -/
def page : List Container → JsString → JsString
  | [], last => last
  | c :: cs, last => c.before ++ c.text ++ page cs last

/-- The conditions on a container: no `<div` in the text in front of it, no
`</div>` inside it, no `<h1` in front of its heading, and a heading free of `<`
that is not blank. -/
def Container.Plain (c : Container) : Prop :=
  includes (c.before.map asciiLower) (js "<div") = false ∧
    includes (c.inner.map asciiLower) (js "</div>") = false ∧
    includes (c.lead.map asciiLower) (js "<h1") = false ∧
    60 ∉ c.heading ∧ trim c.heading ≠ []

/-- The entry expected for a container. -/
def Container.entry (c : Container) : SearchEntry :=
  ⟨trim c.heading, extractRating c.inner, extractAddress c.inner⟩

/-! ## Lemmas about the runtime -/

/-- `includes` decides whether the second string occurs in the first. -/
theorem includes_iff (s sub : JsString) : includes s sub = true ↔ sub <:+: s := by
  induction s with
  | nil =>
    simp [includes, List.isPrefixOf_iff_prefix]
  | cons c cs ih =>
    simp only [includes, Bool.or_eq_true, ih, List.isPrefixOf_iff_prefix]
    exact (List.infix_cons_iff).symm

/-- Percent-encoding succeeds on well-formed strings, by length. -/
theorem encodeURIComponent_ok_aux (n : Nat) :
    ∀ s : JsString, s.length ≤ n → isWellFormed s = true → ∃ e, encodeURIComponent s = .ok e := by
  induction n with
  | zero =>
    intro s hs _
    have : s = [] := List.length_eq_zero.mp (Nat.le_zero.mp hs)
    subst this
    exact ⟨[], rfl⟩
  | succ n ih =>
    intro s hs hw
    match s, hs, hw with
    | [], _, _ => exact ⟨[], rfl⟩
    | [c], _, hw =>
      simp only [isWellFormed, Bool.not_eq_true', Bool.or_eq_false_iff] at hw
      simp only [encodeURIComponent, hw.1, hw.2]
      by_cases hu : uriUnreserved c = true <;> simp [hu]
    | c :: d :: ds, hs, hw =>
      simp only [List.length_cons] at hs
      simp only [isWellFormed] at hw
      simp only [encodeURIComponent]
      by_cases hl : isLowSurrogate c = true
      · simp [hl] at hw
      · simp only [hl, if_false, Bool.false_eq_true] at hw ⊢
        by_cases hh : isHighSurrogate c = true
        · simp only [hh, if_true, Bool.and_eq_true] at hw ⊢
          obtain ⟨e, he⟩ := ih ds (by omega) hw.2
          by_cases hu : uriUnreserved c = true
          · exfalso
            simp only [uriUnreserved, isHighSurrogate, Bool.or_eq_true, Bool.and_eq_true,
              decide_eq_true_eq, beq_iff_eq] at hu hh
            omega
          · simp [hu, hw.1, he]
        · simp only [hh, if_false, Bool.false_eq_true] at hw ⊢
          obtain ⟨e, he⟩ := ih (d :: ds) (by simp; omega) hw
          by_cases hu : uriUnreserved c = true <;> simp [hu, he]

/-- Under the `i` flag two code units match when their lower cases agree. -/
theorem eqChar_ignoreCase_iff (x c : Nat) :
    eqChar true x c = true ↔ asciiLower x = asciiLower c := by
  simp only [eqChar, if_true, canonicalize, asciiLower, beq_iff_eq]
  split_ifs <;> omega

/-- Without the `i` flag two code units match when they are equal. -/
theorem eqChar_exact_iff (x c : Nat) : eqChar false x c = true ↔ x = c := by
  simp [eqChar]

/-- A step-closed property of the continuation holds of a greedy repetition. -/
theorem greedy_sound {Q : Nat → JsString → MatchEnd → Prop} (hQ : StepClosed Q)
    {p : Nat → Bool} {k : Nat → List Nat → JsString → Option MatchEnd}
    (hk : ∀ pos marks inp r, k pos marks inp = some r → Q pos inp r) :
    ∀ inp min pos marks r, greedy p k min pos marks inp = some r → Q pos inp r := by
  intro inp
  induction inp with
  | nil =>
    intro min pos marks r h
    simp only [greedy] at h
    split_ifs at h
    exact hk _ _ _ _ h
  | cons c cs ih =>
    intro min pos marks r h
    simp only [greedy] at h
    split_ifs at h with hp hm hm
    · cases hg : greedy p k (min - 1) (pos + 1) marks cs with
      | some r' =>
        rw [hg] at h
        cases h
        exact hQ _ _ _ _ (ih _ _ _ _ hg)
      | none =>
        rw [hg] at h
        exact hk _ _ _ _ h
    · cases hg : greedy p k (min - 1) (pos + 1) marks cs with
      | some r' =>
        rw [hg] at h
        cases h
        exact hQ _ _ _ _ (ih _ _ _ _ hg)
      | none =>
        rw [hg] at h
        cases h
    · exact hk _ _ _ _ h

/-- A step-closed property of the continuation holds of a lazy repetition. -/
theorem lazy_sound {Q : Nat → JsString → MatchEnd → Prop} (hQ : StepClosed Q)
    {p : Nat → Bool} {k : Nat → List Nat → JsString → Option MatchEnd}
    (hk : ∀ pos marks inp r, k pos marks inp = some r → Q pos inp r) :
    ∀ inp pos marks r, lazy p k pos marks inp = some r → Q pos inp r := by
  intro inp
  induction inp with
  | nil =>
    intro pos marks r h
    simp only [lazy] at h
    exact hk _ _ _ _ h
  | cons c cs ih =>
    intro pos marks r h
    simp only [lazy] at h
    cases hk' : k pos marks (c :: cs) with
    | some r' =>
      rw [hk'] at h
      cases h
      exact hk _ _ _ _ hk'
    | none =>
      rw [hk'] at h
      split_ifs at h
      exact hQ _ _ _ _ (ih _ _ _ h)

/-- A step-closed property of the matches of `base` holds of the matches of
any sequence of nodes that ends with `base`. -/
theorem matchNodes_sound {Q : Nat → JsString → MatchEnd → Prop} (hQ : StepClosed Q)
    (ic : Bool) (base : List Node)
    (hbase : ∀ pos marks inp r, matchNodes ic base pos marks inp = some r → Q pos inp r) :
    ∀ nodes pos marks inp r, matchNodes ic (nodes ++ base) pos marks inp = some r → Q pos inp r := by
  intro nodes
  induction nodes with
  | nil => simpa using hbase
  | cons node rest ih =>
    intro pos marks inp r h
    cases node with
    | char c =>
      cases inp with
      | nil => simp [matchNodes] at h
      | cons x xs =>
        simp only [List.cons_append, matchNodes, List.append_eq] at h
        split_ifs at h
        exact hQ _ _ _ _ (ih _ _ _ _ h)
    | opt c =>
      cases inp with
      | nil =>
        simp only [List.cons_append, matchNodes, List.append_eq] at h
        exact ih _ _ _ _ h
      | cons x xs =>
        simp only [List.cons_append, matchNodes, List.append_eq] at h
        split_ifs at h
        · cases hm : matchNodes ic (rest ++ base) (pos + 1) marks xs with
          | some r' =>
            rw [hm] at h
            cases h
            exact hQ _ _ _ _ (ih _ _ _ _ hm)
          | none =>
            rw [hm] at h
            exact ih _ _ _ _ h
        · exact ih _ _ _ _ h
    | star s =>
      simp only [List.cons_append, matchNodes, List.append_eq] at h
      exact greedy_sound hQ (fun _ _ _ _ hk => ih _ _ _ _ hk) _ _ _ _ _ h
    | plus s =>
      simp only [List.cons_append, matchNodes, List.append_eq] at h
      exact greedy_sound hQ (fun _ _ _ _ hk => ih _ _ _ _ hk) _ _ _ _ _ h
    | lazyStar s =>
      simp only [List.cons_append, matchNodes, List.append_eq] at h
      exact lazy_sound hQ (fun _ _ _ _ hk => ih _ _ _ _ hk) _ _ _ _ h
    | groupOpen =>
      simp only [List.cons_append, matchNodes, List.append_eq] at h
      exact ih _ _ _ _ h
    | groupClose =>
      simp only [List.cons_append, matchNodes, List.append_eq] at h
      exact ih _ _ _ _ h

/-- A match attempt ends at or after its start and inside the input. -/
theorem matchNodes_bounds (ic : Bool) (nodes : List Node) (pos : Nat) (marks : List Nat)
    (inp : JsString) (r : MatchEnd) (h : matchNodes ic nodes pos marks inp = some r) :
    pos ≤ r.1 ∧ r.1 ≤ pos + inp.length := by
  have hQ : StepClosed (fun pos inp r => pos ≤ r.1 ∧ r.1 ≤ pos + inp.length) := by
    intro pos c cs r hr
    simp only [List.length_cons]
    omega
  have := matchNodes_sound hQ ic [] (by
    intro pos marks inp r h
    simp only [matchNodes, Option.some.injEq] at h
    subst h
    simp) nodes pos marks inp r (by simpa using h)
  exact this

/-- A sequence that starts with a literal consumes a matching code unit. -/
theorem matchNodes_char_head (ic : Bool) (c : Nat) (rest : List Node) (pos : Nat)
    (marks : List Nat) (inp : JsString) (r : MatchEnd)
    (h : matchNodes ic (.char c :: rest) pos marks inp = some r) :
    ∃ x xs, inp = x :: xs ∧ eqChar ic x c = true ∧ matchNodes ic rest (pos + 1) marks xs = some r := by
  cases inp with
  | nil => simp [matchNodes] at h
  | cons x xs =>
    simp only [matchNodes] at h
    split_ifs at h with hx
    exact ⟨x, xs, rfl, hx, h⟩

/-- A run of literals matches a prefix of the input, unit by unit. -/
theorem matchNodes_literal (ic : Bool) (l : JsString) :
    ∀ (pos : Nat) (marks : List Nat) (inp : JsString) (r : MatchEnd),
      matchNodes ic (l.map Node.char) pos marks inp = some r →
      ∃ w rest, inp = w ++ rest ∧ List.Forall₂ (fun x c => eqChar ic x c = true) w l := by
  induction l with
  | nil =>
    intro pos marks inp r _
    exact ⟨[], inp, rfl, List.Forall₂.nil⟩
  | cons c cs ih =>
    intro pos marks inp r h
    obtain ⟨x, xs, rfl, hx, hrest⟩ := matchNodes_char_head ic c _ pos marks inp r h
    obtain ⟨w, rest, rfl, hw⟩ := ih _ _ _ _ hrest
    exact ⟨x :: w, rest, rfl, List.Forall₂.cons hx hw⟩

/-- A match of a pattern is a match of one of its alternatives. -/
theorem matchAlternatives_some (ic : Bool) (alts : List (List Node)) (inp : JsString)
    (r : MatchEnd) (h : matchAlternatives ic alts inp = some r) :
    ∃ alt, alt ∈ alts ∧ matchNodes ic alt 0 [] inp = some r := by
  induction alts with
  | nil => simp [matchAlternatives] at h
  | cons alt alts ih =>
    simp only [matchAlternatives] at h
    cases hm : matchNodes ic alt 0 [] inp with
    | some r' =>
      rw [hm] at h
      cases h
      exact ⟨alt, List.mem_cons_self _ _, hm⟩
    | none =>
      rw [hm] at h
      obtain ⟨a, ha, hr⟩ := ih h
      exact ⟨a, List.mem_cons_of_mem _ ha, hr⟩

/-- A match found by the scan is a match attempt at some suffix of the input. -/
theorem searchFrom_some (re : Regex) :
    ∀ (inp : JsString) (idx : Nat) (m : RegExpMatch), searchFrom re idx inp = some m →
      ∃ pre t n marks, inp = pre ++ t ∧ m.index = idx + pre.length ∧
        matchAlternatives re.ignoreCase re.alternatives t = some (n, marks) ∧
        m.whole = t.take n ∧ m.groups = captures t marks := by
  intro inp
  induction inp with
  | nil =>
    intro idx m h
    simp only [searchFrom] at h
    cases hm : matchAlternatives re.ignoreCase re.alternatives [] with
    | none => rw [hm] at h; cases h
    | some r =>
      obtain ⟨n, marks⟩ := r
      rw [hm] at h
      cases h
      exact ⟨[], [], n, marks, rfl, rfl, hm, rfl, rfl⟩
  | cons c cs ih =>
    intro idx m h
    simp only [searchFrom] at h
    cases hm : matchAlternatives re.ignoreCase re.alternatives (c :: cs) with
    | some r =>
      obtain ⟨n, marks⟩ := r
      rw [hm] at h
      cases h
      exact ⟨[], c :: cs, n, marks, rfl, rfl, hm, rfl, rfl⟩
    | none =>
      rw [hm] at h
      obtain ⟨pre, t, n, marks, hpre, hidx, hmatch, hw, hg⟩ := ih _ _ h
      refine ⟨c :: pre, t, n, marks, by simp [hpre], ?_, hmatch, hw, hg⟩
      simp only [List.length_cons]
      omega

/-- The scan finds nothing when the pattern matches at no suffix. -/
theorem searchFrom_none (re : Regex) :
    ∀ (inp : JsString) (idx : Nat),
      (∀ pre t, inp = pre ++ t → matchAlternatives re.ignoreCase re.alternatives t = none) →
      searchFrom re idx inp = none := by
  intro inp
  induction inp with
  | nil =>
    intro idx h
    simp only [searchFrom, h [] [] rfl]
  | cons c cs ih =>
    intro idx h
    simp only [searchFrom, h [] (c :: cs) rfl]
    exact ih _ (fun pre t ht => h (c :: pre) t (by simp [ht]))

/-- Percent-encoding succeeds on every string without an unpaired surrogate. -/
theorem encodeURIComponent_ok (s : JsString) (h : isWellFormed s = true) :
    ∃ e, encodeURIComponent s = .ok e :=
  encodeURIComponent_ok_aux s.length s (Nat.le_refl _) h

/-- Code units equal up to letter case have the same lower case. -/
theorem map_asciiLower_of_forall₂ {w l : JsString}
    (h : List.Forall₂ (fun x c => eqChar true x c = true) w l) :
    w.map asciiLower = l.map asciiLower := by
  induction h with
  | nil => rfl
  | cons hx _ ih =>
    simp only [List.map_cons, ih, (eqChar_ignoreCase_iff _ _).mp hx]

/-- Code units equal to the literal ones are the literal. -/
theorem eq_of_forall₂ {w l : JsString}
    (h : List.Forall₂ (fun x c => eqChar false x c = true) w l) : w = l := by
  induction h with
  | nil => rfl
  | cons hx _ ih =>
    rw [ih, (eqChar_exact_iff _ _).mp hx]

/-- A pattern whose alternatives are literals, matched ignoring case, finds
nothing in a text whose lower case includes the lower case of none of them. -/
theorem stringMatch_literals_none (alts : List JsString) (content : JsString)
    (h : ∀ l ∈ alts, includes (content.map asciiLower) (l.map asciiLower) = false) :
    stringMatch content ⟨alts.map (fun l => l.map Node.char), true⟩ = none := by
  unfold stringMatch exec
  simp only [Nat.not_lt_zero, if_false, List.drop_zero]
  apply searchFrom_none
  intro pre t ht
  cases hm : matchAlternatives true (alts.map (fun l => l.map Node.char)) t with
  | none => rfl
  | some r =>
    exfalso
    obtain ⟨alt, halt, hr⟩ := matchAlternatives_some _ _ _ _ hm
    obtain ⟨l, hl, rfl⟩ := List.mem_map.mp halt
    obtain ⟨w, rest, rfl, hw⟩ := matchNodes_literal _ _ _ _ _ _ hr
    have hinc : includes (content.map asciiLower) (l.map asciiLower) = true := by
      rw [includes_iff, ht, ← map_asciiLower_of_forall₂ hw]
      exact ⟨pre.map asciiLower, rest.map asciiLower, by simp⟩
    rw [h l hl] at hinc
    cases hinc

/-- Without a marker the open/closed pattern finds nothing. -/
theorem checkIfOpen_null_of_no_marker (content : JsString)
    (hmark : hasOpenMarker content = false) : checkIfOpen content = none := by
  simp only [hasOpenMarker, Bool.or_eq_false_iff] at hmark
  have hnone := stringMatch_literals_none [js "Closed", js "Open now"] content (by
    intro l hl
    simp only [List.mem_cons, List.mem_singleton, List.not_mem_nil, or_false] at hl
    rcases hl with rfl | rfl
    · exact hmark.2
    · exact hmark.1)
  have hre : openRegex = ⟨[js "Closed", js "Open now"].map (fun l => l.map Node.char), true⟩ := rfl
  simp only [checkIfOpen, hre, hnone]

/-- The record built when the URL is accepted, the fetch succeeds and the URL
can be percent-encoded. -/
theorem extractFromUrl_record (web_fetch : Fetch) (url content e : JsString)
    (hinc : includes url (js "google.com/maps") = true) (hfetch : web_fetch url = .ok content)
    (he : encodeURIComponent url = .ok e) :
    extractFromUrl web_fetch url =
      .normal [(.url, .string url),
        (.name, .ofString (extractName content)),
        (.rating, .ofNumber (extractRating content)),
        (.address, .ofString (extractAddress content)),
        (.phone, .ofString (extractPhone content)),
        (.hours, .ofString (extractHours content)),
        (.isOpen, .ofBoolean (checkIfOpen content)),
        (.directions, .string (directionsBase ++ e))] := by
  simp only [extractFromUrl, hinc, hfetch, extractDirectionsUrl, he, Bool.not_true,
    Bool.false_eq_true, if_false]

/-! ## The claims -/

/-- C1: a URL that does not contain `google.com/maps` gets exactly
`{ error: 'Invalid Google Maps URL' }`, whatever the fetch collaborator would
have returned or thrown. -/
theorem extractFromUrl_invalid_url (web_fetch : Fetch) (url : JsString)
    (h : ¬ js "google.com/maps" <:+: url) :
    extractFromUrl web_fetch url = .normal [(.error, .string (js "Invalid Google Maps URL"))] := by
  have hinc : includes url (js "google.com/maps") = false := by
    cases hi : includes url (js "google.com/maps") with
    | false => rfl
    | true => exact absurd ((includes_iff _ _).mp hi) h
  simp [extractFromUrl, hinc]

/-- The URL `https://example.com/maps` is refused although the fetch would have
returned a page. -/
theorem extractFromUrl_invalid_url_witness :
    (¬ js "google.com/maps" <:+: js "https://example.com/maps") ∧
      extractFromUrl (fun _ => .ok (js "<h1>Cafe</h1>")) (js "https://example.com/maps") =
        .normal [(.error, .string (js "Invalid Google Maps URL"))] :=
  ⟨fun h => absurd ((includes_iff _ _).mpr h) (by decide),
    extractFromUrl_invalid_url _ _ (fun h => absurd ((includes_iff _ _).mpr h) (by decide))⟩

/-- C2: for a well-formed URL containing `google.com/maps` and any page text,
the record's `directions` is the string
`https://www.google.com/maps/dir/?api=1&destination=` followed by
`encodeURIComponent(url)`; two runs on the same URL with different fetches and
page texts give the same link. -/
theorem directions_link_of_url (web_fetch₁ web_fetch₂ : Fetch) (url content₁ content₂ : JsString)
    (hurl : js "google.com/maps" <:+: url) (hwf : isWellFormed url = true)
    (h₁ : web_fetch₁ url = .ok content₁) (h₂ : web_fetch₂ url = .ok content₂) :
    ∃ e info₁ info₂, encodeURIComponent url = .ok e ∧
      extractFromUrl web_fetch₁ url = .normal info₁ ∧
      extractFromUrl web_fetch₂ url = .normal info₂ ∧
      info₁.get .directions = .string (directionsBase ++ e) ∧
      info₁.get .directions ≠ .null ∧
      info₂.get .directions = info₁.get .directions := by
  obtain ⟨e, he⟩ := encodeURIComponent_ok url hwf
  have hinc : includes url (js "google.com/maps") = true := (includes_iff _ _).mpr hurl
  refine ⟨e, _, _, he, extractFromUrl_record _ _ _ _ hinc h₁ he,
    extractFromUrl_record _ _ _ _ hinc h₂ he, ?_, ?_, ?_⟩
  · simp [JsObject.get]
  · simp [JsObject.get]
  · simp [JsObject.get]

/-- Two fetches of one URL with a non-ASCII character: one link. -/
theorem directions_link_of_url_witness :
    ∃ e info₁ info₂, encodeURIComponent (js "https://www.google.com/maps/place/Café") = .ok e ∧
      extractFromUrl (fun _ => .ok (js "<h1>Cafe</h1>"))
        (js "https://www.google.com/maps/place/Café") = .normal info₁ ∧
      extractFromUrl (fun _ => .ok (js "Closed"))
        (js "https://www.google.com/maps/place/Café") = .normal info₂ ∧
      info₁.get .directions = .string (directionsBase ++ e) ∧
      info₁.get .directions ≠ .null ∧
      info₂.get .directions = info₁.get .directions :=
  directions_link_of_url _ _ (js "https://www.google.com/maps/place/Café") _ _
    ((includes_iff _ _).mp (by decide)) (by decide) rfl rfl

/-- C3: on the text `open now` the first marker is an "open now" marker, found
by the case-insensitive pattern, and `checkIfOpen` returns `false`, because the
comparison with `'Open now'` is case-sensitive; only the spelling `Open now`
gives `true`. -/
theorem checkIfOpen_lowercase_marker :
    hasOpenMarker (js "open now") = true ∧ includes (js "open now") (js "closed") = false ∧
      checkIfOpen (js "open now") = some false ∧ checkIfOpen (js "OPEN NOW") = some false ∧
      checkIfOpen (js "Open now") = some true := by
  decide

/-- C4: a text with neither an "open now" nor a "closed" marker in any letter
case makes `checkIfOpen` return `null`, and the record built from it has
`isOpen: null` while `hours` is whatever `extractHours` finds. -/
theorem checkIfOpen_null_without_marker (web_fetch : Fetch) (url content : JsString)
    (hmark : hasOpenMarker content = false)
    (hurl : js "google.com/maps" <:+: url) (hwf : isWellFormed url = true)
    (hfetch : web_fetch url = .ok content) :
    checkIfOpen content = none ∧
      ∃ info, extractFromUrl web_fetch url = .normal info ∧ info.get .isOpen = .null ∧
        info.get .hours = .ofString (extractHours content) := by
  have hopen : checkIfOpen content = none := checkIfOpen_null_of_no_marker content hmark
  obtain ⟨e, he⟩ := encodeURIComponent_ok url hwf
  have hinc : includes url (js "google.com/maps") = true := (includes_iff _ _).mpr hurl
  refine ⟨hopen, _, extractFromUrl_record _ _ _ _ hinc hfetch he, ?_, ?_⟩
  · simp [JsObject.get, hopen, JsValue.ofBoolean]
  · simp [JsObject.get]

/-- A page with an Hours label and no marker: `hours` is filled, `isOpen` is
`null`. -/
theorem checkIfOpen_null_without_marker_witness :
    extractHours (js "<span aria-label=\"Hours\">9 AM-5 PM</span>") = some (js "9 AM-5 PM") ∧
      checkIfOpen (js "<span aria-label=\"Hours\">9 AM-5 PM</span>") = none ∧
      ∃ info, extractFromUrl (fun _ => .ok (js "<span aria-label=\"Hours\">9 AM-5 PM</span>"))
          (js "https://www.google.com/maps/place/X") = .normal info ∧
        info.get .isOpen = .null ∧
        info.get .hours =
          .ofString (extractHours (js "<span aria-label=\"Hours\">9 AM-5 PM</span>")) :=
  ⟨by decide,
    checkIfOpen_null_without_marker (fun _ => .ok (js "<span aria-label=\"Hours\">9 AM-5 PM</span>"))
      (js "https://www.google.com/maps/place/X") _ (by decide)
      ((includes_iff _ _).mp (by decide)) (by decide) rfl⟩

/-- C5: the pattern of `extractRating` does not hold the star glyph U+2605 but
the three code units U+00E2 U+02DC U+2026, so `4.5★` gives `null` and the
record of the page `<h1>Blue Bottle Coffee</h1> ... 4.5★ ... Open now` has the
name and `isOpen: true` but `rating: null`; the rating is found only before
the three-unit sequence. -/
theorem extractRating_star_glyph :
    extractRating (js "4.5★") = none ∧
      extractRating (js "4.5â˜…") = some (.finite false 9 (-1)) ∧
      (∃ e, extractFromUrl
          (fun _ => .ok (js "<h1>Blue Bottle Coffee</h1> ... 4.5★ ... Open now"))
          (js "https://www.google.com/maps/place/X") =
        .normal [(.url, .string (js "https://www.google.com/maps/place/X")),
          (.name, .string (js "Blue Bottle Coffee")), (.rating, .null), (.address, .null),
          (.phone, .null), (.hours, .null), (.isOpen, .boolean true),
          (.directions, .string e)]) := by
  refine ⟨by decide, by decide,
    directionsBase ++ js "https%3A%2F%2Fwww.google.com%2Fmaps%2Fplace%2FX", ?_⟩
  decide

/-- A pattern whose alternatives all start with a literal character makes
`exec` move forward: a match ends after `lastIndex` and inside the text. -/
theorem exec_progress (re : Regex) (content : JsString) (i : Nat) (m : RegExpMatch)
    (hre : ∀ alt ∈ re.alternatives, ∃ c rest, alt = Node.char c :: rest)
    (h : exec re content i = some m) :
    i ≤ m.index ∧ m.index < m.index + m.whole.length ∧
      m.index + m.whole.length ≤ content.length := by
  unfold exec at h
  split_ifs at h with hlen
  obtain ⟨pre, t, n, marks, hsplit, hidx, hmatch, hwhole, -⟩ := searchFrom_some re _ _ _ h
  obtain ⟨alt, halt, hnodes⟩ := matchAlternatives_some _ _ _ _ hmatch
  obtain ⟨c, rest, rfl⟩ := hre alt halt
  obtain ⟨x, xs, rfl, -, hrest⟩ := matchNodes_char_head _ _ _ _ _ _ _ hnodes
  have hb := matchNodes_bounds _ _ _ _ _ _ hrest
  simp only [zero_add] at hb
  have hlen' : (content.drop i).length = pre.length + (xs.length + 1) := by
    rw [hsplit]; simp
  simp only [List.length_drop] at hlen'
  have hw : m.whole.length = n := by
    rw [hwhole, List.length_take, List.length_cons]
    omega
  omega

/-- The alternatives of the result pattern start with `<`. -/
theorem resultRegex_head :
    ∀ alt ∈ resultRegex.alternatives, ∃ c rest, alt = Node.char c :: rest := by
  intro alt halt
  simp only [resultRegex, List.mem_singleton] at halt
  subst halt
  exact ⟨60, _, rfl⟩

/-- The loop ends within the fuel it is given and pushes named entries only. -/
theorem parseLoop_named (content : JsString) :
    ∀ (fuel i : Nat) (acc : List SearchEntry), i ≤ content.length → content.length - i < fuel →
      (∀ entry ∈ acc, NamedEntry entry) →
      ∃ rs, parseLoop content fuel i acc = some rs ∧ ∀ entry ∈ rs, NamedEntry entry := by
  intro fuel
  induction fuel with
  | zero => intro i acc _ hf; omega
  | succ fuel ih =>
    intro i acc hi hf hacc
    simp only [parseLoop]
    cases hm : exec resultRegex content i with
    | none => exact ⟨acc, rfl, hacc⟩
    | some m =>
      obtain ⟨h1, h2, h3⟩ := exec_progress _ _ _ _ resultRegex_head hm
      simp only []
      apply ih _ _ h3 (by omega)
      cases hn : extractName (m.group 1) with
      | none => simpa using hacc
      | some n =>
        simp only []
        split_ifs with ht
        · intro entry hentry
          rcases List.mem_append.mp hentry with hin | hin
          · exact hacc entry hin
          · simp only [List.mem_singleton] at hin
            subst hin
            refine ⟨?_, m.group 1, hn, rfl, rfl⟩
            intro hempty
            simp only [] at hempty
            simp [JsValue.truthy, hempty] at ht
        · exact hacc

/-- C6: `parseSearchResults` returns, and so does `searchPlaces` on a fetched
text, and every entry of the results has a non-empty name that `extractName`
found in the segment the entry's rating and address come from. -/
theorem search_entries_named (content : JsString) :
    ∃ rs, parseSearchResults content = some rs ∧
      (∀ entry ∈ rs, entry.name ≠ [] ∧
        ∃ resultHtml, extractName resultHtml = some entry.name ∧
          entry.rating = extractRating resultHtml ∧ entry.address = extractAddress resultHtml) ∧
      ∀ (web_fetch : Fetch) (query e : JsString), encodeURIComponent query = .ok e →
        web_fetch (js "https://www.google.com/maps/search/" ++ e) = .ok content →
        searchPlaces web_fetch query =
          .normal [(.query, .string query), (.results, .array rs),
            (.searchUrl, .string (js "https://www.google.com/maps/search/" ++ e))] := by
  obtain ⟨rs, hrs, hnamed⟩ :=
    parseLoop_named content (content.length + 1) 0 [] (Nat.zero_le _) (by omega)
      (by intro entry h; cases h)
  refine ⟨rs, hrs, hnamed, ?_⟩
  intro web_fetch query e he hfetch
  have hrs' : parseSearchResults content = some rs := hrs
  simp only [searchPlaces, he, hfetch, hrs']

/-- Two result containers, the first with a blank heading and a rating: only
the second gives an entry. -/
theorem search_entries_named_witness :
    parseSearchResults (js "<div class=\"result\"><h1> </h1>4.8 â˜…</div><div class=\"result\"><h1>Cafe</h1></div>") =
        some [⟨js "Cafe", none, none⟩] ∧
      ∃ rs, parseSearchResults (js "<div class=\"result\"><h1> </h1>4.8 â˜…</div><div class=\"result\"><h1>Cafe</h1></div>") = some rs ∧
      (∀ entry ∈ rs, entry.name ≠ [] ∧
        ∃ resultHtml, extractName resultHtml = some entry.name ∧
          entry.rating = extractRating resultHtml ∧ entry.address = extractAddress resultHtml) ∧
      ∀ (web_fetch : Fetch) (query e : JsString), encodeURIComponent query = .ok e →
        web_fetch (js "https://www.google.com/maps/search/" ++ e) =
          .ok (js "<div class=\"result\"><h1> </h1>4.8 â˜…</div><div class=\"result\"><h1>Cafe</h1></div>") →
        searchPlaces web_fetch query =
          .normal [(.query, .string query), (.results, .array rs),
            (.searchUrl, .string (js "https://www.google.com/maps/search/" ++ e))] :=
  ⟨by decide, search_entries_named _⟩

/-- C7: when `extractFromUrl` yields `{ error: '' }`, the test `if (info.error)`
is false and the derived operations do not return that object: `getHours`,
`checkOpenStatus` and `getPhone` project `undefined` fields out of it, and
`getDirections` returns something else too. -/
theorem derived_operations_empty_message (web_fetch : Fetch) (url : JsString)
    (h : extractFromUrl web_fetch url = .normal [(.error, .string [])]) :
    getHours web_fetch url =
        .normal [(.name, .undefined), (.hours, .undefined), (.url, .string url)] ∧
      checkOpenStatus web_fetch url =
        .normal [(.name, .undefined), (.isOpen, .undefined), (.hours, .undefined),
          (.url, .string url)] ∧
      getPhone web_fetch url =
        .normal [(.name, .undefined), (.phone, .undefined), (.url, .string url)] ∧
      getDirections web_fetch url ≠ .normal [(.error, .string [])] := by
  refine ⟨?_, ?_, ?_, ?_⟩
  · simp [getHours, h, JsObject.get, JsValue.truthy]
  · simp [checkOpenStatus, h, JsObject.get, JsValue.truthy]
  · simp [getPhone, h, JsObject.get, JsValue.truthy]
  · simp only [getDirections, h, JsObject.get, JsValue.truthy]
    cases extractDirectionsUrl url <;> simp

/-- A fetch that fails with the empty message on an accepted URL. -/
theorem derived_operations_empty_message_witness :
    extractFromUrl (fun _ => .error []) (js "https://www.google.com/maps/place/X") =
        .normal [(.error, .string [])] ∧
      getHours (fun _ => .error []) (js "https://www.google.com/maps/place/X") =
        .normal [(.name, .undefined), (.hours, .undefined),
          (.url, .string (js "https://www.google.com/maps/place/X"))] :=
  ⟨by decide,
    (derived_operations_empty_message (fun _ => .error [])
      (js "https://www.google.com/maps/place/X") (by decide)).1⟩

/-- A failure object with a non-empty message passes through the four derived
operations unchanged. -/
theorem derived_operations_pass_error (web_fetch : Fetch) (url message : JsString)
    (hm : message ≠ [])
    (h : extractFromUrl web_fetch url = .normal [(.error, .string message)]) :
    getHours web_fetch url = .normal [(.error, .string message)] ∧
      checkOpenStatus web_fetch url = .normal [(.error, .string message)] ∧
      getPhone web_fetch url = .normal [(.error, .string message)] ∧
      getDirections web_fetch url = .normal [(.error, .string message)] := by
  have ht : (JsValue.string message).truthy = true := by
    cases message with
    | nil => exact absurd rfl hm
    | cons c cs => rfl
  refine ⟨?_, ?_, ?_, ?_⟩
  · simp [getHours, h, JsObject.get, ht]
  · simp [checkOpenStatus, h, JsObject.get, ht]
  · simp [getPhone, h, JsObject.get, ht]
  · simp [getDirections, h, JsObject.get, ht]

/-- C8: when the fetch fails with the empty message, `extractFromUrl`,
`getPlaceDetails` and `searchPlaces` return `{ error: '' }`, and the four
derived operations return records with `name`, `hours`, `isOpen`, `phone` or
`address` fields instead. -/
theorem fetch_failure_empty_message :
    extractFromUrl (fun _ => .error []) (js "https://www.google.com/maps/place/X") =
        .normal [(.error, .string [])] ∧
      getPlaceDetails (fun _ => .error []) (js "https://www.google.com/maps/place/X") =
        .normal [(.error, .string [])] ∧
      searchPlaces (fun _ => .error []) (js "coffee") = .normal [(.error, .string [])] ∧
      getHours (fun _ => .error []) (js "https://www.google.com/maps/place/X") =
        .normal [(.name, .undefined), (.hours, .undefined),
          (.url, .string (js "https://www.google.com/maps/place/X"))] ∧
      checkOpenStatus (fun _ => .error []) (js "https://www.google.com/maps/place/X") =
        .normal [(.name, .undefined), (.isOpen, .undefined), (.hours, .undefined),
          (.url, .string (js "https://www.google.com/maps/place/X"))] ∧
      getPhone (fun _ => .error []) (js "https://www.google.com/maps/place/X") =
        .normal [(.name, .undefined), (.phone, .undefined),
          (.url, .string (js "https://www.google.com/maps/place/X"))] ∧
      getDirections (fun _ => .error []) (js "https://www.google.com/maps/place/X") =
        .normal [(.name, .undefined), (.address, .undefined),
          (.directionsUrl, .string (directionsBase ++
            js "https%3A%2F%2Fwww.google.com%2Fmaps%2Fplace%2FX")),
          (.url, .string (js "https://www.google.com/maps/place/X"))] := by
  decide

/-- A fetch failure with a non-empty message `m` makes every operation return
exactly `{ error: m }`. -/
theorem fetch_failure_reported (web_fetch : Fetch) (url query m : JsString)
    (hurl : js "google.com/maps" <:+: url) (hq : isWellFormed query = true) (hm : m ≠ [])
    (hfetch : ∀ u, web_fetch u = .error m) :
    extractFromUrl web_fetch url = .normal [(.error, .string m)] ∧
      getPlaceDetails web_fetch url = .normal [(.error, .string m)] ∧
      searchPlaces web_fetch query = .normal [(.error, .string m)] ∧
      getHours web_fetch url = .normal [(.error, .string m)] ∧
      checkOpenStatus web_fetch url = .normal [(.error, .string m)] ∧
      getPhone web_fetch url = .normal [(.error, .string m)] ∧
      getDirections web_fetch url = .normal [(.error, .string m)] := by
  have hinc : includes url (js "google.com/maps") = true := (includes_iff _ _).mpr hurl
  have hx : extractFromUrl web_fetch url = .normal [(.error, .string m)] := by
    simp [extractFromUrl, hinc, hfetch]
  obtain ⟨e, he⟩ := encodeURIComponent_ok query hq
  obtain ⟨h1, h2, h3, h4⟩ := derived_operations_pass_error web_fetch url m hm hx
  refine ⟨hx, hx, ?_, h1, h2, h3, h4⟩
  simp [searchPlaces, he, hfetch]

/-- C9: on the query made of the single unpaired surrogate U+D800,
`encodeURIComponent` throws before the `try` block of `searchPlaces` is
entered, so the call throws `URIError` whatever the fetch does; in
`extractFromUrl` the same failure happens inside `try` and becomes
`{ error }`. -/
theorem searchPlaces_throws_on_lone_surrogate (web_fetch : Fetch) :
    searchPlaces web_fetch [55296] = .throw uriMalformed ∧
      extractFromUrl (fun _ => .ok []) (js "google.com/maps" ++ [55296]) =
        .normal [(.error, .string uriMalformed)] := by
  constructor
  · simp [searchPlaces, encodeURIComponent, uriUnreserved, isLowSurrogate, isHighSurrogate]
  · decide

/-- A pattern whose alternatives all start with the literal `c` finds nothing
in a text none of whose code units matches `c`. -/
theorem exec_none_of_absent_head (re : Regex) (c : Nat) (content : JsString)
    (hre : ∀ alt ∈ re.alternatives, ∃ rest, alt = Node.char c :: rest)
    (habs : ∀ x ∈ content, eqChar re.ignoreCase x c = false) :
    exec re content 0 = none := by
  unfold exec
  simp only [Nat.not_lt_zero, if_false, List.drop_zero]
  apply searchFrom_none
  intro pre t ht
  cases hm : matchAlternatives re.ignoreCase re.alternatives t with
  | none => rfl
  | some r =>
    exfalso
    obtain ⟨alt, halt, hr⟩ := matchAlternatives_some _ _ _ _ hm
    obtain ⟨rest, rfl⟩ := hre alt halt
    obtain ⟨x, xs, rfl, hx, -⟩ := matchNodes_char_head _ _ _ _ _ _ _ hr
    rw [habs x (by simp [ht])] at hx
    cases hx

/-- Only `<` itself matches the literal `<`, with or without the `i` flag. -/
theorem eqChar_lt_false (ic : Bool) (x : Nat) (hx : x ≠ 60) : eqChar ic x 60 = false := by
  cases ic with
  | false => simpa [eqChar] using hx
  | true =>
    cases h : eqChar true x 60 with
    | false => rfl
    | true =>
      exfalso
      have := (eqChar_ignoreCase_iff _ _).mp h
      simp only [asciiLower] at this
      split_ifs at this <;> omega

/-- A pattern starting with `<` finds nothing in a text without `<`. -/
theorem exec_none_of_no_lt (re : Regex) (content : JsString)
    (hre : ∀ alt ∈ re.alternatives, ∃ rest, alt = Node.char 60 :: rest)
    (hlt : 60 ∉ content) : exec re content 0 = none :=
  exec_none_of_absent_head re 60 content hre
    (fun x hx => eqChar_lt_false _ x (fun h => hlt (h ▸ hx)))

/-- The rating pattern matches only where the three code units of the source
pattern occur. -/
theorem extractRating_none_of_no_glyph (content : JsString) (h : ¬ sourceGlyph <:+: content) :
    extractRating content = none := by
  have hnone : exec ratingRegex content 0 = none := by
    unfold exec
    simp only [Nat.not_lt_zero, if_false, List.drop_zero]
    apply searchFrom_none
    intro pre t ht
    cases hm : matchAlternatives ratingRegex.ignoreCase ratingRegex.alternatives t with
    | none => rfl
    | some r =>
      exfalso
      obtain ⟨alt, halt, hr⟩ := matchAlternatives_some _ _ _ _ hm
      simp only [ratingRegex, List.mem_singleton] at halt
      subst halt
      have hQ : StepClosed (fun _ inp _ => sourceGlyph <:+: inp) := by
        intro pos c cs r hr
        exact List.infix_cons hr
      have hin : sourceGlyph <:+: t :=
        matchNodes_sound hQ false (sourceGlyph.map Node.char) (by
          intro pos marks inp r hb
          obtain ⟨w, rest, rfl, hw⟩ := matchNodes_literal _ _ _ _ _ _ hb
          rw [eq_of_forall₂ hw]
          exact ⟨[], rest, rfl⟩) _ _ _ _ _ hr
      apply h
      rw [ht]
      exact List.IsInfix.trans hin (List.infix_append' pre t [] |> fun h => by simpa using h)
  simp only [extractRating, stringMatch, hnone]

/-- C10 (as stated): the URL `google.com/maps` followed by the unpaired
surrogate U+D800 is accepted, the page text `plain text` holds no field
marker, and the result is `{ error: 'URI malformed' }`: no record with `null`
fields and a directions link is built. -/
theorem malformed_url_gives_no_record :
    js "google.com/maps" <:+: js "google.com/maps" ++ [55296] ∧
      60 ∉ js "plain text" ∧ ¬ starGlyph <:+: js "plain text" ∧
      ¬ sourceGlyph <:+: js "plain text" ∧ hasOpenMarker (js "plain text") = false ∧
      extractFromUrl (fun _ => .ok (js "plain text")) (js "google.com/maps" ++ [55296]) =
        .normal [(.error, .string uriMalformed)] ∧
      ¬ ∃ info, extractFromUrl (fun _ => .ok (js "plain text")) (js "google.com/maps" ++ [55296]) =
          .normal info ∧ info.get .name = .null := by
  have hres : extractFromUrl (fun _ => .ok (js "plain text")) (js "google.com/maps" ++ [55296]) =
      .normal [(.error, .string uriMalformed)] := by decide
  refine ⟨(includes_iff _ _).mp (by decide), by decide,
    fun h => absurd ((includes_iff _ _).mpr h) (by decide),
    fun h => absurd ((includes_iff _ _).mpr h) (by decide), by decide, hres, ?_⟩
  rintro ⟨info, hinfo, hname⟩
  rw [hres] at hinfo
  cases hinfo
  simp [JsObject.get] at hname

/-- C10 (amended): for a well-formed URL containing `google.com/maps` and a
page text with no `<`, no rating glyph (neither U+2605 nor the three code
units of the source pattern) and no "open now" or "closed" marker in any letter
case, `extractFromUrl` returns the record whose `name`, `rating`, `address`,
`phone`, `hours` and `isOpen` are `null` and whose `directions` is the link
base followed by `encodeURIComponent(url)`. -/
theorem plain_text_record (web_fetch : Fetch) (url content : JsString)
    (hurl : js "google.com/maps" <:+: url) (hwf : isWellFormed url = true)
    (hfetch : web_fetch url = .ok content) (hlt : 60 ∉ content)
    (_hstar : ¬ starGlyph <:+: content) (hglyph : ¬ sourceGlyph <:+: content)
    (hmark : hasOpenMarker content = false) :
    ∃ e, encodeURIComponent url = .ok e ∧
      extractFromUrl web_fetch url =
        .normal [(.url, .string url), (.name, .null), (.rating, .null), (.address, .null),
          (.phone, .null), (.hours, .null), (.isOpen, .null),
          (.directions, .string (directionsBase ++ e))] := by
  obtain ⟨e, he⟩ := encodeURIComponent_ok url hwf
  have hinc : includes url (js "google.com/maps") = true := (includes_iff _ _).mpr hurl
  have hname : extractName content = none := by
    have := exec_none_of_no_lt nameRegex content (by
      intro alt halt
      simp only [nameRegex, List.mem_singleton] at halt
      subst halt
      exact ⟨_, rfl⟩) hlt
    simp only [extractName, stringMatch, this]
  have haddress : extractAddress content = none := by
    have := exec_none_of_no_lt addressRegex content (by
      intro alt halt
      simp only [addressRegex, List.mem_singleton] at halt
      subst halt
      exact ⟨_, rfl⟩) hlt
    simp [extractAddress, stringMatch, stringSearch, this]
  have hphone : extractPhone content = none := by
    have := exec_none_of_no_lt phoneRegex content (by
      intro alt halt
      simp only [phoneRegex, List.mem_singleton] at halt
      subst halt
      exact ⟨_, rfl⟩) hlt
    simp only [extractPhone, stringMatch, this]
  have hhours : extractHours content = none := by
    have := exec_none_of_no_lt hoursRegex content (by
      intro alt halt
      simp only [hoursRegex, List.mem_singleton] at halt
      subst halt
      exact ⟨_, rfl⟩) hlt
    simp only [extractHours, stringMatch, this]
  have hrating := extractRating_none_of_no_glyph content hglyph
  have hopen := (checkIfOpen_null_of_no_marker content hmark)
  refine ⟨e, he, ?_⟩
  rw [extractFromUrl_record web_fetch url content e hinc hfetch he, hname, haddress, hphone,
    hhours, hrating, hopen]
  rfl

/-- A page of plain text fetched for an accepted URL. -/
theorem plain_text_record_witness :
    ∃ e, encodeURIComponent (js "https://www.google.com/maps/place/X") = .ok e ∧
      extractFromUrl (fun _ => .ok (js "plain text, 4.5 stars, open daily"))
          (js "https://www.google.com/maps/place/X") =
        .normal [(.url, .string (js "https://www.google.com/maps/place/X")), (.name, .null),
          (.rating, .null), (.address, .null), (.phone, .null), (.hours, .null),
          (.isOpen, .null), (.directions, .string (directionsBase ++ e))] :=
  plain_text_record (fun _ => .ok (js "plain text, 4.5 stars, open daily"))
    (js "https://www.google.com/maps/place/X") _
    ((includes_iff _ _).mp (by decide)) (by decide) rfl (by decide)
    (fun h => absurd ((includes_iff _ _).mpr h) (by decide))
    (fun h => absurd ((includes_iff _ _).mpr h) (by decide)) (by decide)

/-- A greedy repetition that succeeds consumed a run of the class and then the
continuation succeeded. -/
theorem greedy_some {p : Nat → Bool} {k : Nat → List Nat → JsString → Option MatchEnd} :
    ∀ (inp : JsString) (min pos : Nat) (marks : List Nat) (r : MatchEnd),
      greedy p k min pos marks inp = some r →
      ∃ a inp', inp = a ++ inp' ∧ (∀ x ∈ a, p x = true) ∧ min ≤ a.length ∧
        k (pos + a.length) marks inp' = some r := by
  intro inp
  induction inp with
  | nil =>
    intro min pos marks r h
    simp only [greedy] at h
    split_ifs at h with hm
    exact ⟨[], [], rfl, by simp, by simp [hm], by simpa using h⟩
  | cons c cs ih =>
    intro min pos marks r h
    simp only [greedy] at h
    have stop : min = 0 → k pos marks (c :: cs) = some r →
        ∃ a inp', c :: cs = a ++ inp' ∧ (∀ x ∈ a, p x = true) ∧ min ≤ a.length ∧
          k (pos + a.length) marks inp' = some r := by
      intro hm hk
      exact ⟨[], c :: cs, rfl, by simp, by simp [hm], by simpa using hk⟩
    split_ifs at h with hp hm hm
    · cases hg : greedy p k (min - 1) (pos + 1) marks cs with
      | some r' =>
        rw [hg] at h
        cases h
        obtain ⟨a, inp', rfl, ha, hmin, hk⟩ := ih _ _ _ _ hg
        refine ⟨c :: a, inp', rfl, ?_, by simp [hm], ?_⟩
        · intro x hx
          rcases List.mem_cons.mp hx with rfl | hx
          · exact hp
          · exact ha x hx
        · simpa [Nat.add_assoc, Nat.add_comm 1] using hk
      | none =>
        rw [hg] at h
        exact stop hm h
    · cases hg : greedy p k (min - 1) (pos + 1) marks cs with
      | some r' =>
        rw [hg] at h
        cases h
        obtain ⟨a, inp', rfl, ha, hmin, hk⟩ := ih _ _ _ _ hg
        refine ⟨c :: a, inp', rfl, ?_, by simp only [List.length_cons]; omega, ?_⟩
        · intro x hx
          rcases List.mem_cons.mp hx with rfl | hx
          · exact hp
          · exact ha x hx
        · simpa [Nat.add_assoc, Nat.add_comm 1] using hk
      | none =>
        rw [hg] at h
        cases h
    · exact stop ‹_› h

/-- A lazy repetition that succeeds consumed a run of the class, the
continuation succeeded after it and failed after every shorter run. -/
theorem lazy_some {p : Nat → Bool} {k : Nat → List Nat → JsString → Option MatchEnd} :
    ∀ (inp : JsString) (pos : Nat) (marks : List Nat) (r : MatchEnd),
      lazy p k pos marks inp = some r →
      ∃ a inp', inp = a ++ inp' ∧ (∀ x ∈ a, p x = true) ∧
        k (pos + a.length) marks inp' = some r ∧
        ∀ a₁ a₂, a = a₁ ++ a₂ → a₂ ≠ [] → k (pos + a₁.length) marks (a₂ ++ inp') = none := by
  intro inp
  induction inp with
  | nil =>
    intro pos marks r h
    simp only [lazy] at h
    refine ⟨[], [], rfl, by simp, by simpa using h, ?_⟩
    intro a₁ a₂ h12 hne
    have := congrArg List.length h12
    simp only [List.length_nil, List.length_append] at this
    exact absurd (List.length_eq_zero.mp (by omega)) hne
  | cons c cs ih =>
    intro pos marks r h
    simp only [lazy] at h
    cases hk' : k pos marks (c :: cs) with
    | some r' =>
      rw [hk'] at h
      cases h
      refine ⟨[], c :: cs, rfl, by simp, by simpa using hk', ?_⟩
      intro a₁ a₂ h12 hne
      have := congrArg List.length h12
      simp only [List.length_nil, List.length_append] at this
      exact absurd (List.length_eq_zero.mp (by omega)) hne
    | none =>
      rw [hk'] at h
      split_ifs at h with hp
      obtain ⟨a, inp', rfl, ha, hk, hmin⟩ := ih _ _ _ h
      refine ⟨c :: a, inp', rfl, ?_, ?_, ?_⟩
      · intro x hx
        rcases List.mem_cons.mp hx with rfl | hx
        · exact hp
        · exact ha x hx
      · simpa [Nat.add_assoc, Nat.add_comm 1] using hk
      · intro a₁ a₂ h12 hne
        cases a₁ with
        | nil =>
          simp only [List.nil_append] at h12
          subst h12
          simpa using hk'
        | cons y ys =>
          simp only [List.cons_append, List.cons.injEq] at h12
          have := hmin ys a₂ h12.2 hne
          simpa [Nat.add_assoc, Nat.add_comm 1] using this

/-- Soundness of the matcher: a successful attempt consumed a word of the
language of the nodes and appended the marks of that word. -/
theorem matchNodes_run (ic : Bool) :
    ∀ (nodes : List Node) (pos : Nat) (marks : List Nat) (inp : JsString) (r : MatchEnd),
      matchNodes ic nodes pos marks inp = some r →
      ∃ w rest added, inp = w ++ rest ∧ r.1 = pos + w.length ∧ r.2 = marks ++ added ∧
        Run ic nodes pos w added := by
  intro nodes
  induction nodes with
  | nil =>
    intro pos marks inp r h
    simp only [matchNodes, Option.some.injEq] at h
    subst h
    exact ⟨[], inp, [], rfl, by simp, by simp, rfl, rfl⟩
  | cons node nodes ih =>
    intro pos marks inp r h
    cases node with
    | char c =>
      obtain ⟨x, xs, rfl, hx, hrest⟩ := matchNodes_char_head _ _ _ _ _ _ _ h
      obtain ⟨w, rest, added, rfl, h1, h2, hrun⟩ := ih _ _ _ _ hrest
      exact ⟨x :: w, rest, added, rfl, by simp only [List.length_cons]; omega, h2,
        x, w, rfl, hx, hrun⟩
    | opt c =>
      have skip : matchNodes ic nodes pos marks inp = some r →
          ∃ w rest added, inp = w ++ rest ∧ r.1 = pos + w.length ∧ r.2 = marks ++ added ∧
            Run ic (Node.opt c :: nodes) pos w added := by
        intro hs
        obtain ⟨w, rest, added, rfl, h1, h2, hrun⟩ := ih _ _ _ _ hs
        exact ⟨w, rest, added, rfl, h1, h2, Or.inl hrun⟩
      have take : ∀ x xs, inp = x :: xs → eqChar ic x c = true →
          matchNodes ic nodes (pos + 1) marks xs = some r →
          ∃ w rest added, inp = w ++ rest ∧ r.1 = pos + w.length ∧ r.2 = marks ++ added ∧
            Run ic (Node.opt c :: nodes) pos w added := by
        intro x xs hinp hx hs
        obtain ⟨w, rest, added, rfl, h1, h2, hrun⟩ := ih _ _ _ _ hs
        exact ⟨x :: w, rest, added, hinp, by simp only [List.length_cons]; omega, h2,
          Or.inr ⟨x, w, rfl, hx, hrun⟩⟩
      cases inp with
      | nil =>
        simp only [matchNodes] at h
        exact skip h
      | cons x xs =>
        simp only [matchNodes] at h
        split_ifs at h with hx
        · cases hm : matchNodes ic nodes (pos + 1) marks xs with
          | some r' =>
            rw [hm] at h
            cases h
            exact take x xs rfl hx hm
          | none =>
            rw [hm] at h
            exact skip h
        · exact skip h
    | star s =>
      simp only [matchNodes] at h
      obtain ⟨a, inp', rfl, ha, -, hk⟩ := greedy_some _ _ _ _ _ h
      obtain ⟨w, rest, added, rfl, h1, h2, hrun⟩ := ih _ _ _ _ hk
      exact ⟨a ++ w, rest, added, by simp, by simp only [List.length_append]; omega, h2,
        a, w, rfl, ha, hrun⟩
    | plus s =>
      simp only [matchNodes] at h
      obtain ⟨a, inp', rfl, ha, hmin, hk⟩ := greedy_some _ _ _ _ _ h
      obtain ⟨w, rest, added, rfl, h1, h2, hrun⟩ := ih _ _ _ _ hk
      refine ⟨a ++ w, rest, added, by simp, by simp only [List.length_append]; omega, h2,
        a, w, rfl, ?_, ha, hrun⟩
      intro hnil
      subst hnil
      simp at hmin
    | lazyStar s =>
      simp only [matchNodes] at h
      obtain ⟨a, inp', rfl, ha, hk, -⟩ := lazy_some _ _ _ _ h
      obtain ⟨w, rest, added, rfl, h1, h2, hrun⟩ := ih _ _ _ _ hk
      exact ⟨a ++ w, rest, added, by simp, by simp only [List.length_append]; omega, h2,
        a, w, rfl, ha, hrun⟩
    | groupOpen =>
      simp only [matchNodes] at h
      obtain ⟨w, rest, added, rfl, h1, h2, hrun⟩ := ih _ _ _ _ h
      exact ⟨w, rest, pos :: added, rfl, h1, by simp [h2], added, rfl, hrun⟩
    | groupClose =>
      simp only [matchNodes] at h
      obtain ⟨w, rest, added, rfl, h1, h2, hrun⟩ := ih _ _ _ _ h
      exact ⟨w, rest, pos :: added, rfl, h1, by simp [h2], added, rfl, hrun⟩

/-- A greedy repetition succeeds when the continuation succeeds after some run
of the class that is long enough. -/
theorem greedy_complete {p : Nat → Bool} {k : Nat → List Nat → JsString → Option MatchEnd} :
    ∀ (a inp' : JsString) (min pos : Nat) (marks : List Nat) (r₀ : MatchEnd),
      (∀ x ∈ a, p x = true) → min ≤ a.length → k (pos + a.length) marks inp' = some r₀ →
      ∃ r, greedy p k min pos marks (a ++ inp') = some r := by
  intro a
  induction a with
  | nil =>
    intro inp' min pos marks r₀ _ hmin hk
    have hm : min = 0 := by simpa using hmin
    subst hm
    simp only [List.length_nil, Nat.add_zero] at hk
    cases inp' with
    | nil => exact ⟨r₀, by simp [greedy, hk]⟩
    | cons c cs =>
      simp only [List.nil_append, greedy, if_true]
      split_ifs
      · cases greedy p k (0 - 1) (pos + 1) marks cs with
        | some r => exact ⟨r, rfl⟩
        | none => exact ⟨r₀, hk⟩
      · exact ⟨r₀, hk⟩
  | cons x a ih =>
    intro inp' min pos marks r₀ ha hmin hk
    have hx : p x = true := ha x (List.mem_cons_self _ _)
    obtain ⟨r, hr⟩ := ih inp' (min - 1) (pos + 1) marks r₀
      (fun y hy => ha y (List.mem_cons_of_mem _ hy))
      (by simp only [List.length_cons] at hmin; omega)
      (by simpa [Nat.add_assoc, Nat.add_comm 1] using hk)
    exact ⟨r, by simp [greedy, hx, hr]⟩

/-- A lazy repetition succeeds when the continuation succeeds after some run of
the class. -/
theorem lazy_complete {p : Nat → Bool} {k : Nat → List Nat → JsString → Option MatchEnd} :
    ∀ (a inp' : JsString) (pos : Nat) (marks : List Nat) (r₀ : MatchEnd),
      (∀ x ∈ a, p x = true) → k (pos + a.length) marks inp' = some r₀ →
      ∃ r, lazy p k pos marks (a ++ inp') = some r := by
  intro a
  induction a with
  | nil =>
    intro inp' pos marks r₀ _ hk
    simp only [List.length_nil, Nat.add_zero] at hk
    cases inp' with
    | nil => exact ⟨r₀, by simp [lazy, hk]⟩
    | cons c cs => exact ⟨r₀, by simp [lazy, hk]⟩
  | cons x a ih =>
    intro inp' pos marks r₀ ha hk
    have hx : p x = true := ha x (List.mem_cons_self _ _)
    obtain ⟨r, hr⟩ := ih inp' (pos + 1) marks r₀
      (fun y hy => ha y (List.mem_cons_of_mem _ hy))
      (by simpa [Nat.add_assoc, Nat.add_comm 1] using hk)
    simp only [List.cons_append, lazy]
    cases k pos marks (x :: (a ++ inp')) with
    | some r' => exact ⟨r', rfl⟩
    | none => exact ⟨r, by simp [hx, hr]⟩

/-- Completeness of the matcher: when some word of the language of the nodes
starts the input, the attempt succeeds (possibly on another word). -/
theorem matchNodes_complete (ic : Bool) :
    ∀ (nodes : List Node) (pos : Nat) (w : JsString) (added : List Nat),
      Run ic nodes pos w added → ∀ (marks : List Nat) (rest : JsString),
        ∃ r, matchNodes ic nodes pos marks (w ++ rest) = some r := by
  intro nodes
  induction nodes with
  | nil =>
    intro pos w added _ marks rest
    exact ⟨(pos, marks), rfl⟩
  | cons node nodes ih =>
    intro pos w added hrun marks rest
    cases node with
    | char c =>
      obtain ⟨x, w', rfl, hx, hrun'⟩ := hrun
      obtain ⟨r, hr⟩ := ih _ _ _ hrun' marks rest
      exact ⟨r, by simp [matchNodes, hx, hr]⟩
    | opt c =>
      rcases hrun with hrun' | ⟨x, w', rfl, hx, hrun'⟩
      · obtain ⟨r, hr⟩ := ih _ _ _ hrun' marks rest
        cases hw : w ++ rest with
        | nil =>
          rw [hw] at hr
          exact ⟨r, by simp [matchNodes, hr]⟩
        | cons y ys =>
          rw [hw] at hr
          simp only [matchNodes]
          split_ifs
          · cases matchNodes ic nodes (pos + 1) marks ys with
            | some r' => exact ⟨r', rfl⟩
            | none => exact ⟨r, hr⟩
          · exact ⟨r, hr⟩
      · obtain ⟨r, hr⟩ := ih _ _ _ hrun' marks rest
        exact ⟨r, by simp [matchNodes, hx, hr]⟩
    | star s =>
      obtain ⟨a, w', rfl, ha, hrun'⟩ := hrun
      obtain ⟨r, hr⟩ := ih _ _ _ hrun' marks rest
      simp only [matchNodes, List.append_assoc]
      exact greedy_complete a (w' ++ rest) 0 pos marks r ha (Nat.zero_le _) hr
    | plus s =>
      obtain ⟨a, w', rfl, hne, ha, hrun'⟩ := hrun
      obtain ⟨r, hr⟩ := ih _ _ _ hrun' marks rest
      simp only [matchNodes, List.append_assoc]
      exact greedy_complete a (w' ++ rest) 1 pos marks r ha
        (List.length_pos.mpr hne) hr
    | lazyStar s =>
      obtain ⟨a, w', rfl, ha, hrun'⟩ := hrun
      obtain ⟨r, hr⟩ := ih _ _ _ hrun' marks rest
      simp only [matchNodes, List.append_assoc]
      exact lazy_complete a (w' ++ rest) pos marks r ha hr
    | groupOpen =>
      obtain ⟨added', rfl, hrun'⟩ := hrun
      obtain ⟨r, hr⟩ := ih _ _ _ hrun' (marks ++ [pos]) rest
      exact ⟨r, by simp [matchNodes, hr]⟩
    | groupClose =>
      obtain ⟨added', rfl, hrun'⟩ := hrun
      obtain ⟨r, hr⟩ := ih _ _ _ hrun' (marks ++ [pos]) rest
      exact ⟨r, by simp [matchNodes, hr]⟩

/-- The language of a run of literals followed by more nodes. -/
theorem run_literal (ic : Bool) (rest : List Node) :
    ∀ (l : JsString) (pos : Nat) (w : JsString) (added : List Nat),
      Run ic (l.map Node.char ++ rest) pos w added ↔
        ∃ u w', w = u ++ w' ∧ List.Forall₂ (fun x c => eqChar ic x c = true) u l ∧
          Run ic rest (pos + l.length) w' added := by
  intro l
  induction l with
  | nil =>
    intro pos w added
    constructor
    · intro h
      exact ⟨[], w, rfl, List.Forall₂.nil, by simpa using h⟩
    · rintro ⟨u, w', rfl, hu, h⟩
      cases hu
      simpa using h
  | cons c cs ih =>
    intro pos w added
    simp only [List.map_cons, List.cons_append, Run, List.append_eq, ih]
    constructor
    · rintro ⟨x, w₁, rfl, hx, u, w', rfl, hu, h⟩
      exact ⟨x :: u, w', rfl, List.Forall₂.cons hx hu,
        by simpa [Nat.add_assoc, Nat.add_comm 1] using h⟩
    · rintro ⟨u, w', rfl, hu, h⟩
      cases hu with
      | cons hx hu' =>
        exact ⟨_, _, rfl, hx, _, w', rfl, hu',
          by simpa [Nat.add_assoc, Nat.add_comm 1] using h⟩

/-- One alternative that succeeds makes the pattern succeed. -/
theorem matchAlternatives_complete (ic : Bool) (alts : List (List Node)) (inp : JsString)
    (alt : List Node) (r₀ : MatchEnd) (halt : alt ∈ alts)
    (h : matchNodes ic alt 0 [] inp = some r₀) :
    ∃ r, matchAlternatives ic alts inp = some r := by
  induction alts with
  | nil => cases halt
  | cons a alts ih =>
    simp only [matchAlternatives]
    cases hm : matchNodes ic a 0 [] inp with
    | some r => exact ⟨r, rfl⟩
    | none =>
      rcases List.mem_cons.mp halt with rfl | hmem
      · rw [h] at hm
        cases hm
      · exact ih hmem

/-- The scan returns the leftmost position at which the pattern matches. -/
theorem searchFrom_leftmost (re : Regex) :
    ∀ (inp : JsString) (idx : Nat) (m : RegExpMatch), searchFrom re idx inp = some m →
      ∃ pre t n marks, inp = pre ++ t ∧ m.index = idx + pre.length ∧
        matchAlternatives re.ignoreCase re.alternatives t = some (n, marks) ∧
        m.whole = t.take n ∧ m.groups = captures t marks ∧
        ∀ pre₁ t₁, inp = pre₁ ++ t₁ → pre₁.length < pre.length →
          matchAlternatives re.ignoreCase re.alternatives t₁ = none := by
  intro inp
  induction inp with
  | nil =>
    intro idx m h
    simp only [searchFrom] at h
    cases hm : matchAlternatives re.ignoreCase re.alternatives [] with
    | none => rw [hm] at h; cases h
    | some r =>
      obtain ⟨n, marks⟩ := r
      rw [hm] at h
      cases h
      exact ⟨[], [], n, marks, rfl, rfl, hm, rfl, rfl, by intro _ _ _ hlt; simp at hlt⟩
  | cons c cs ih =>
    intro idx m h
    simp only [searchFrom] at h
    cases hm : matchAlternatives re.ignoreCase re.alternatives (c :: cs) with
    | some r =>
      obtain ⟨n, marks⟩ := r
      rw [hm] at h
      cases h
      exact ⟨[], c :: cs, n, marks, rfl, rfl, hm, rfl, rfl, by intro _ _ _ hlt; simp at hlt⟩
    | none =>
      rw [hm] at h
      obtain ⟨pre, t, n, marks, hpre, hidx, hmatch, hw, hg, hleft⟩ := ih _ _ h
      refine ⟨c :: pre, t, n, marks, by simp [hpre], ?_, hmatch, hw, hg, ?_⟩
      · simp only [List.length_cons]
        omega
      · intro pre₁ t₁ h1 hlt
        cases pre₁ with
        | nil =>
          simp only [List.nil_append] at h1
          rw [← h1]
          exact hm
        | cons y ys =>
          simp only [List.cons_append, List.cons.injEq] at h1
          exact hleft ys t₁ h1.2 (by simpa using hlt)

/-- The scan finds a match when the pattern matches at some position. -/
theorem searchFrom_complete (re : Regex) :
    ∀ (pre t : JsString) (idx : Nat) (r : MatchEnd),
      matchAlternatives re.ignoreCase re.alternatives t = some r →
      ∃ m, searchFrom re idx (pre ++ t) = some m := by
  intro pre
  induction pre with
  | nil =>
    intro t idx r h
    obtain ⟨n, marks⟩ := r
    cases t with
    | nil => exact ⟨⟨idx, [].take n, captures [] marks⟩, by simp only [List.nil_append, searchFrom, h]⟩
    | cons c cs =>
      exact ⟨⟨idx, (c :: cs).take n, captures (c :: cs) marks⟩,
        by simp only [List.nil_append, searchFrom, h]⟩
  | cons c pre ih =>
    intro t idx r h
    simp only [List.cons_append, searchFrom]
    cases hm : matchAlternatives re.ignoreCase re.alternatives (c :: (pre ++ t)) with
    | some r' =>
      obtain ⟨n, marks⟩ := r'
      exact ⟨_, rfl⟩
    | none => exact ih t (idx + 1) r h

/-- Matching ignoring case, unit by unit, is equality of the lower cases. -/
theorem forall₂_ignoreCase_iff (u l : JsString) :
    List.Forall₂ (fun x c => eqChar true x c = true) u l ↔
      u.map asciiLower = l.map asciiLower := by
  constructor
  · exact map_asciiLower_of_forall₂
  · intro h
    induction u generalizing l with
    | nil =>
      cases l with
      | nil => exact List.Forall₂.nil
      | cons c cs => simp at h
    | cons x xs ih =>
      cases l with
      | nil => simp at h
      | cons c cs =>
        simp only [List.map_cons, List.cons.injEq] at h
        exact List.Forall₂.cons ((eqChar_ignoreCase_iff _ _).mpr h.1) (ih cs h.2)

/-- A word that matches a literal has the length of the literal. -/
theorem length_of_lower_eq {u l : JsString} (h : u.map asciiLower = l.map asciiLower) :
    u.length = l.length := by
  have := congrArg List.length h
  simpa using this

/-- The capture cut out by two marks around a part of the input. -/
theorem captures_pair (x b y : JsString) (p q : Nat) (hp : p = x.length)
    (hq : q = x.length + b.length) : captures (x ++ b ++ y) [p, q] = [b] := by
  subst hp hq
  simp [captures]

/-- The language of the common end of the field patterns: attribute text free
of `>`, then `>`, a non-empty body free of `<` between the two marks, and the
closing tag in any letter case. -/
theorem run_fieldTail (close : JsString) (pos : Nat) (w : JsString) (added : List Nat) :
    Run true (fieldTail close) pos w added ↔
      ∃ a body c, w = a ++ 62 :: body ++ c ∧ 62 ∉ a ∧ body ≠ [] ∧ 60 ∉ body ∧
        c.map asciiLower = close.map asciiLower ∧
        added = [pos + a.length + 1, pos + a.length + 1 + body.length] := by
  have hlit : ∀ (p : Nat) (v : JsString) (ad : List Nat),
      Run true (close.map Node.char) p v ad ↔
        v.map asciiLower = close.map asciiLower ∧ ad = [] := by
    intro p v ad
    have := run_literal true [] close p v ad
    simp only [List.append_nil, Run, forall₂_ignoreCase_iff] at this
    rw [this]
    constructor
    · rintro ⟨u, w', rfl, hu, rfl, rfl⟩
      exact ⟨by simpa using hu, rfl⟩
    · rintro ⟨hv, rfl⟩
      exact ⟨v, [], by simp, hv, rfl, rfl⟩
  simp only [fieldTail, List.cons_append, List.nil_append, Run, List.append_eq, hlit, CharSet.test, bne_iff_ne,
    ne_eq, eqChar, if_true, canonicalize, beq_iff_eq]
  constructor
  · rintro ⟨a, w₁, rfl, ha, x, w₂, rfl, hx, ad₁, rfl, b, w₃, rfl, hb, hb', ad₂, rfl, hc, rfl⟩
    have hx62 : x = 62 := by
      split_ifs at hx <;> omega
    subst hx62
    refine ⟨a, b, w₃, by simp, fun h => ha 62 h rfl, hb, fun h => hb' 60 h rfl, hc, ?_⟩
    simp [Nat.add_assoc]
  · rintro ⟨a, body, c, rfl, ha, hb, hb', hc, rfl⟩
    refine ⟨a, 62 :: body ++ c, by simp, fun x hx h => ha (h ▸ hx), 62, body ++ c, by simp,
      by decide, _, rfl, body, c, rfl, hb, fun x hx h => hb' (h ▸ hx), _, ?_, hc, rfl⟩
    simp [Nat.add_assoc]

/-- A match of a pattern is a word of the language of one of its alternatives
at the head of the input. -/
theorem matchAlternatives_run (ic : Bool) (alts : List (List Node)) (t : JsString)
    (n : Nat) (marks : List Nat) (h : matchAlternatives ic alts t = some (n, marks)) :
    ∃ alt w rest, alt ∈ alts ∧ t = w ++ rest ∧ n = w.length ∧ Run ic alt 0 w marks := by
  obtain ⟨alt, halt, hm⟩ := matchAlternatives_some _ _ _ _ h
  obtain ⟨w, rest, added, rfl, h1, h2, hrun⟩ := matchNodes_run _ _ _ _ _ _ hm
  simp only [zero_add, List.nil_append] at h1 h2
  subst h1 h2
  exact ⟨alt, w, rest, halt, rfl, rfl, hrun⟩

/-- A pattern fails at the head of an input exactly when no word of the language
of an alternative starts the input. -/
theorem matchAlternatives_none_iff (ic : Bool) (alts : List (List Node)) (t : JsString) :
    matchAlternatives ic alts t = none ↔
      ∀ alt ∈ alts, ∀ w rest added, t = w ++ rest → ¬ Run ic alt 0 w added := by
  constructor
  · intro h alt halt w rest added ht hrun
    subst ht
    obtain ⟨r₀, hr₀⟩ := matchNodes_complete ic alt 0 w added hrun [] rest
    obtain ⟨r, hr⟩ := matchAlternatives_complete ic alts _ alt r₀ halt hr₀
    rw [h] at hr
    cases hr
  · intro h
    cases hm : matchAlternatives ic alts t with
    | none => rfl
    | some r =>
      obtain ⟨n, marks⟩ := r
      obtain ⟨alt, w, rest, halt, ht, -, hrun⟩ := matchAlternatives_run _ _ _ _ _ hm
      exact absurd hrun (h alt halt w rest marks ht)

/-- What `exec` returns: the leftmost word, from `lastIndex` on, of the language
of an alternative, with the captures its marks cut out. -/
theorem exec_some_run (re : Regex) (content : JsString) (i : Nat) (m : RegExpMatch)
    (h : exec re content i = some m) :
    i ≤ content.length ∧
      ∃ pre w rest alt added, content.drop i = pre ++ w ++ rest ∧ alt ∈ re.alternatives ∧
        Run re.ignoreCase alt 0 w added ∧ m.index = i + pre.length ∧ m.whole = w ∧
        m.groups = captures (w ++ rest) added ∧
        ∀ pre₁ t₁, content.drop i = pre₁ ++ t₁ → pre₁.length < pre.length →
          matchAlternatives re.ignoreCase re.alternatives t₁ = none := by
  unfold exec at h
  split_ifs at h with hlen
  obtain ⟨pre, t, n, marks, hsplit, hidx, hmatch, hwhole, hgroups, hleft⟩ :=
    searchFrom_leftmost re _ _ _ h
  obtain ⟨alt, w, rest, halt, rfl, rfl, hrun⟩ := matchAlternatives_run _ _ _ _ _ hmatch
  refine ⟨by omega, pre, w, rest, alt, marks, by simpa using hsplit, halt, hrun, hidx, ?_,
    hgroups, hleft⟩
  simpa using hwhole

/-- When `exec` returns `null` from the start: no word of the language of an
alternative occurs in the text. -/
theorem exec_none_iff (re : Regex) (content : JsString) :
    exec re content 0 = none ↔
      ∀ pre w rest, content = pre ++ w ++ rest →
        ∀ alt ∈ re.alternatives, ∀ added, ¬ Run re.ignoreCase alt 0 w added := by
  unfold exec
  simp only [Nat.not_lt_zero, if_false, List.drop_zero]
  constructor
  · intro h pre w rest hc alt halt added hrun
    obtain ⟨r₀, hr₀⟩ := matchNodes_complete re.ignoreCase alt 0 w added hrun [] rest
    obtain ⟨r, hr⟩ := matchAlternatives_complete _ re.alternatives _ alt r₀ halt hr₀
    obtain ⟨m, hm⟩ := searchFrom_complete re pre (w ++ rest) 0 r hr
    rw [hc, List.append_assoc, hm] at h
    cases h
  · intro h
    apply searchFrom_none
    intro pre t ht
    rw [matchAlternatives_none_iff]
    intro alt halt w rest added htw hrun
    exact h pre w rest (by rw [ht, htw, List.append_assoc]) alt halt added hrun

/-- The language of a concatenation of node sequences. -/
theorem run_append (ic : Bool) (n₂ : List Node) :
    ∀ (n₁ : List Node) (pos : Nat) (w : JsString) (added : List Nat),
      Run ic (n₁ ++ n₂) pos w added ↔
        ∃ w₁ w₂ ad₁ ad₂, w = w₁ ++ w₂ ∧ added = ad₁ ++ ad₂ ∧ Run ic n₁ pos w₁ ad₁ ∧
          Run ic n₂ (pos + w₁.length) w₂ ad₂ := by
  intro n₁
  induction n₁ with
  | nil =>
    intro pos w added
    constructor
    · intro h
      exact ⟨[], w, [], added, rfl, rfl, ⟨rfl, rfl⟩, by simpa using h⟩
    · rintro ⟨w₁, w₂, ad₁, ad₂, rfl, rfl, ⟨rfl, rfl⟩, h⟩
      simpa using h
  | cons node n₁ ih =>
    intro pos w added
    cases node with
    | char c =>
      simp only [List.cons_append, Run, List.append_eq, ih]
      constructor
      · rintro ⟨x, w', rfl, hx, w₁, w₂, ad₁, ad₂, rfl, rfl, h₁, h₂⟩
        exact ⟨x :: w₁, w₂, ad₁, ad₂, rfl, rfl, ⟨x, w₁, rfl, hx, h₁⟩,
          by simpa [Nat.add_assoc, Nat.add_comm 1] using h₂⟩
      · rintro ⟨w₁, w₂, ad₁, ad₂, rfl, rfl, ⟨x, w', rfl, hx, h₁⟩, h₂⟩
        exact ⟨x, w' ++ w₂, rfl, hx, w', w₂, ad₁, ad₂, rfl, rfl, h₁,
          by simpa [Nat.add_assoc, Nat.add_comm 1] using h₂⟩
    | opt c =>
      simp only [List.cons_append, Run, List.append_eq, ih]
      constructor
      · rintro (⟨w₁, w₂, ad₁, ad₂, rfl, rfl, h₁, h₂⟩ |
          ⟨x, w', rfl, hx, w₁, w₂, ad₁, ad₂, rfl, rfl, h₁, h₂⟩)
        · exact ⟨w₁, w₂, ad₁, ad₂, rfl, rfl, Or.inl h₁, h₂⟩
        · exact ⟨x :: w₁, w₂, ad₁, ad₂, rfl, rfl, Or.inr ⟨x, w₁, rfl, hx, h₁⟩,
            by simpa [Nat.add_assoc, Nat.add_comm 1] using h₂⟩
      · rintro ⟨w₁, w₂, ad₁, ad₂, rfl, rfl, (h₁ | ⟨x, w', rfl, hx, h₁⟩), h₂⟩
        · exact Or.inl ⟨w₁, w₂, ad₁, ad₂, rfl, rfl, h₁, h₂⟩
        · exact Or.inr ⟨x, w' ++ w₂, rfl, hx, w', w₂, ad₁, ad₂, rfl, rfl, h₁,
            by simpa [Nat.add_assoc, Nat.add_comm 1] using h₂⟩
    | star s =>
      simp only [List.cons_append, Run, List.append_eq, ih]
      constructor
      · rintro ⟨a, w', rfl, ha, w₁, w₂, ad₁, ad₂, rfl, rfl, h₁, h₂⟩
        exact ⟨a ++ w₁, w₂, ad₁, ad₂, by simp, rfl, ⟨a, w₁, rfl, ha, h₁⟩,
          by simpa [Nat.add_assoc] using h₂⟩
      · rintro ⟨w₁, w₂, ad₁, ad₂, rfl, rfl, ⟨a, w', rfl, ha, h₁⟩, h₂⟩
        exact ⟨a, w' ++ w₂, by simp, ha, w', w₂, ad₁, ad₂, rfl, rfl, h₁,
          by simpa [Nat.add_assoc] using h₂⟩
    | plus s =>
      simp only [List.cons_append, Run, List.append_eq, ih]
      constructor
      · rintro ⟨a, w', rfl, hne, ha, w₁, w₂, ad₁, ad₂, rfl, rfl, h₁, h₂⟩
        exact ⟨a ++ w₁, w₂, ad₁, ad₂, by simp, rfl, ⟨a, w₁, rfl, hne, ha, h₁⟩,
          by simpa [Nat.add_assoc] using h₂⟩
      · rintro ⟨w₁, w₂, ad₁, ad₂, rfl, rfl, ⟨a, w', rfl, hne, ha, h₁⟩, h₂⟩
        exact ⟨a, w' ++ w₂, by simp, hne, ha, w', w₂, ad₁, ad₂, rfl, rfl, h₁,
          by simpa [Nat.add_assoc] using h₂⟩
    | lazyStar s =>
      simp only [List.cons_append, Run, List.append_eq, ih]
      constructor
      · rintro ⟨a, w', rfl, ha, w₁, w₂, ad₁, ad₂, rfl, rfl, h₁, h₂⟩
        exact ⟨a ++ w₁, w₂, ad₁, ad₂, by simp, rfl, ⟨a, w₁, rfl, ha, h₁⟩,
          by simpa [Nat.add_assoc] using h₂⟩
      · rintro ⟨w₁, w₂, ad₁, ad₂, rfl, rfl, ⟨a, w', rfl, ha, h₁⟩, h₂⟩
        exact ⟨a, w' ++ w₂, by simp, ha, w', w₂, ad₁, ad₂, rfl, rfl, h₁,
          by simpa [Nat.add_assoc] using h₂⟩
    | groupOpen =>
      simp only [List.cons_append, Run, List.append_eq, ih]
      constructor
      · rintro ⟨ad', rfl, w₁, w₂, ad₁, ad₂, rfl, rfl, h₁, h₂⟩
        exact ⟨w₁, w₂, pos :: ad₁, ad₂, rfl, rfl, ⟨ad₁, rfl, h₁⟩, h₂⟩
      · rintro ⟨w₁, w₂, ad₁, ad₂, rfl, rfl, ⟨ad', rfl, h₁⟩, h₂⟩
        exact ⟨ad' ++ ad₂, rfl, w₁, w₂, ad', ad₂, rfl, rfl, h₁, h₂⟩
    | groupClose =>
      simp only [List.cons_append, Run, List.append_eq, ih]
      constructor
      · rintro ⟨ad', rfl, w₁, w₂, ad₁, ad₂, rfl, rfl, h₁, h₂⟩
        exact ⟨w₁, w₂, pos :: ad₁, ad₂, rfl, rfl, ⟨ad₁, rfl, h₁⟩, h₂⟩
      · rintro ⟨w₁, w₂, ad₁, ad₂, rfl, rfl, ⟨ad', rfl, h₁⟩, h₂⟩
        exact ⟨ad' ++ ad₂, rfl, w₁, w₂, ad', ad₂, rfl, rfl, h₁, h₂⟩

/-- The language of a run of literals matched ignoring case: the words with the
same lower case; no mark. -/
theorem run_literal_only (l : JsString) (pos : Nat) (w : JsString) (added : List Nat) :
    Run true (l.map Node.char) pos w added ↔
      w.map asciiLower = l.map asciiLower ∧ added = [] := by
  have := run_literal true [] l pos w added
  simp only [List.append_nil, Run, forall₂_ignoreCase_iff] at this
  rw [this]
  constructor
  · rintro ⟨u, w', rfl, hu, rfl, rfl⟩
    exact ⟨by simpa using hu, rfl⟩
  · rintro ⟨hv, rfl⟩
    exact ⟨w, [], by simp, hv, rfl, rfl⟩

/-- The language of `[^c]*`: the words free of `c`; no mark. -/
theorem run_star_noneOf (ic : Bool) (c pos : Nat) (w : JsString) (added : List Nat) :
    Run ic [.star (.noneOf c)] pos w added ↔ c ∉ w ∧ added = [] := by
  simp only [Run, CharSet.test, bne_iff_ne, ne_eq]
  constructor
  · rintro ⟨a, w', rfl, ha, rfl, rfl⟩
    exact ⟨by simpa using fun h => ha c h rfl, rfl⟩
  · rintro ⟨hw, rfl⟩
    exact ⟨w, [], by simp, fun x hx h => hw (h ▸ hx), rfl, rfl⟩

/-- `trim` drops the white space in front and then the white space at the end. -/
theorem trim_eq (s : JsString) :
    trim s = (s.dropWhile isWhiteSpace).rdropWhile isWhiteSpace := rfl

/-- Every code unit of the trimmed string is one of the string. -/
theorem mem_of_mem_trim {s : JsString} {x : Nat} (h : x ∈ trim s) : x ∈ s := by
  rw [trim_eq] at h
  exact (List.dropWhile_suffix _).subset ((List.rdropWhile_prefix _ _).subset h)

/-- The trimmed string does not start with white space. -/
theorem trim_head (s : JsString) (x : Nat) (xs : JsString) (h : trim s = x :: xs) :
    isWhiteSpace x = false := by
  rw [trim_eq] at h
  obtain ⟨r, hr⟩ := List.rdropWhile_prefix isWhiteSpace (s.dropWhile isWhiteSpace)
  rw [h] at hr
  have hne : s.dropWhile isWhiteSpace ≠ [] := by
    rw [← hr]
    simp
  have := List.head_dropWhile_not isWhiteSpace s hne
  simpa [← hr] using this

/-- The trimmed string does not end with white space. -/
theorem trim_getLast (s : JsString) (hne : trim s ≠ []) :
    isWhiteSpace ((trim s).getLast hne) = false := by
  have := List.rdropWhile_last_not (p := isWhiteSpace) (l := s.dropWhile isWhiteSpace) hne
  simpa [trim_eq] using this

/-- Trimming twice is trimming once. -/
theorem trim_trim (s : JsString) : trim (trim s) = trim s := by
  have hd : (trim s).dropWhile isWhiteSpace = trim s := by
    cases h : trim s with
    | nil => rfl
    | cons x xs =>
      have := trim_head s x xs h
      simp [List.dropWhile, this]
  rw [trim_eq (trim s), hd, trim_eq, List.rdropWhile_idempotent]

/-- Nodes without group parentheses leave no mark. -/
theorem run_no_marks (ic : Bool) :
    ∀ (nodes : List Node), (∀ n ∈ nodes, n ≠ Node.groupOpen ∧ n ≠ Node.groupClose) →
      ∀ (pos : Nat) (w : JsString) (added : List Nat), Run ic nodes pos w added → added = [] := by
  intro nodes
  induction nodes with
  | nil =>
    intro _ pos w added h
    exact h.2
  | cons node nodes ih =>
    intro hn pos w added h
    have hrest : ∀ n ∈ nodes, n ≠ Node.groupOpen ∧ n ≠ Node.groupClose :=
      fun n hmem => hn n (List.mem_cons_of_mem _ hmem)
    have hnode := hn node (List.mem_cons_self _ _)
    cases node with
    | char c =>
      obtain ⟨x, w', -, -, h'⟩ := h
      exact ih hrest _ _ _ h'
    | opt c =>
      rcases h with h' | ⟨x, w', -, -, h'⟩
      · exact ih hrest _ _ _ h'
      · exact ih hrest _ _ _ h'
    | star s =>
      obtain ⟨a, w', -, -, h'⟩ := h
      exact ih hrest _ _ _ h'
    | plus s =>
      obtain ⟨a, w', -, -, -, h'⟩ := h
      exact ih hrest _ _ _ h'
    | lazyStar s =>
      obtain ⟨a, w', -, -, h'⟩ := h
      exact ih hrest _ _ _ h'
    | groupOpen => exact absurd rfl hnode.1
    | groupClose => exact absurd rfl hnode.2

/-- The language of a capture group around `[^c]+`: the non-empty words free of
`c`, between the two marks. -/
theorem run_group_plus (ic : Bool) (c pos : Nat) (w : JsString) (added : List Nat) :
    Run ic [.groupOpen, .plus (.noneOf c), .groupClose] pos w added ↔
      w ≠ [] ∧ c ∉ w ∧ added = [pos, pos + w.length] := by
  simp only [Run, CharSet.test, bne_iff_ne, ne_eq]
  constructor
  · rintro ⟨ad₁, rfl, a, w', rfl, hne, ha, ad₂, rfl, rfl, rfl⟩
    exact ⟨by simpa using hne, by simpa using fun h => ha c h rfl, by simp⟩
  · rintro ⟨hne, hw, rfl⟩
    exact ⟨_, rfl, w, [], by simp, hne, fun x hx h => hw (h ▸ hx), _, rfl, rfl, rfl⟩

/-- The capture of a pattern made of group-free nodes and the common end of the
field patterns: a non-empty text free of `<`. -/
theorem field_capture (front : List Node) (close : JsString)
    (hfront : ∀ n ∈ front, n ≠ Node.groupOpen ∧ n ≠ Node.groupClose)
    (w rest : JsString) (added : List Nat)
    (hrun : Run true (front ++ fieldTail close) 0 w added) :
    ∃ body, body ≠ [] ∧ 60 ∉ body ∧ captures (w ++ rest) added = [body] := by
  obtain ⟨w₁, w₂, ad₁, ad₂, rfl, rfl, h₁, h₂⟩ := (run_append _ _ _ _ _ _).mp hrun
  obtain ⟨a, body, c, rfl, -, hne, hlt, -, rfl⟩ := (run_fieldTail _ _ _ _).mp h₂
  have had := run_no_marks _ _ hfront _ _ _ h₁
  subst had
  refine ⟨body, hne, hlt, ?_⟩
  have hsplit : w₁ ++ (a ++ 62 :: body ++ c) ++ rest = (w₁ ++ a ++ [62]) ++ body ++ (c ++ rest) := by
    simp
  rw [hsplit]
  exact captures_pair _ _ _ _ _ (by simp; omega) (by simp; omega)

/-- The captures of a pattern with one more group, around `[^c]+`, in front of
the common end: the second capture is a non-empty text free of `<`. -/
theorem field_capture_second (front middle : List Node) (c : Nat) (close : JsString)
    (hfront : ∀ n ∈ front, n ≠ Node.groupOpen ∧ n ≠ Node.groupClose)
    (hmiddle : ∀ n ∈ middle, n ≠ Node.groupOpen ∧ n ≠ Node.groupClose)
    (w rest : JsString) (added : List Nat)
    (hrun : Run true
      (front ++ ([.groupOpen, .plus (.noneOf c), .groupClose] ++ (middle ++ fieldTail close)))
      0 w added) :
    ∃ first body, body ≠ [] ∧ 60 ∉ body ∧ captures (w ++ rest) added = [first, body] := by
  obtain ⟨w₁, w₂, ad₁, ad₂, rfl, rfl, h₁, h₂⟩ := (run_append _ _ _ _ _ _).mp hrun
  obtain ⟨w₃, w₄, ad₃, ad₄, rfl, rfl, h₃, h₄⟩ := (run_append _ _ _ _ _ _).mp h₂
  obtain ⟨w₅, w₆, ad₅, ad₆, rfl, rfl, h₅, h₆⟩ := (run_append _ _ _ _ _ _).mp h₄
  obtain ⟨a, body, cl, rfl, -, hne, hlt, -, rfl⟩ := (run_fieldTail _ _ _ _).mp h₆
  obtain ⟨-, -, rfl⟩ := (run_group_plus _ _ _ _ _).mp h₃
  have had₁ := run_no_marks _ _ hfront _ _ _ h₁
  have had₅ := run_no_marks _ _ hmiddle _ _ _ h₅
  subst had₁ had₅
  refine ⟨w₃, body, hne, hlt, ?_⟩
  have hfirst := captures_pair w₁ w₃ (w₅ ++ (a ++ 62 :: body ++ cl) ++ rest)
    (0 + w₁.length) (0 + w₁.length + w₃.length) (by omega) (by omega)
  have hsecond := captures_pair (w₁ ++ w₃ ++ w₅ ++ a ++ [62]) body (cl ++ rest)
    (0 + w₁.length + w₃.length + w₅.length + a.length + 1)
    (0 + w₁.length + w₃.length + w₅.length + a.length + 1 + body.length)
    (by simp; omega) (by simp; omega)
  have hsplit₁ : w₁ ++ (w₃ ++ (w₅ ++ (a ++ 62 :: body ++ cl))) ++ rest =
      w₁ ++ w₃ ++ (w₅ ++ (a ++ 62 :: body ++ cl) ++ rest) := by
    simp
  have hsplit₂ : w₁ ++ w₃ ++ (w₅ ++ (a ++ 62 :: body ++ cl) ++ rest) =
      (w₁ ++ w₃ ++ w₅ ++ a ++ [62]) ++ body ++ (cl ++ rest) := by
    simp
  rw [hsplit₁]
  simp only [captures, List.cons.injEq, and_true] at hfirst
  rw [hsplit₂] at hfirst ⊢
  simp only [captures, List.cons.injEq, and_true] at hsecond
  simp only [List.nil_append, List.cons_append, captures, List.cons.injEq, and_true]
  exact ⟨hfirst, hsecond⟩

/-- The first capture of a match of a one-group field pattern. -/
theorem stringMatch_field (re : Regex) (front : List Node) (close : JsString)
    (hre : re.alternatives = [front ++ fieldTail close]) (hic : re.ignoreCase = true)
    (hfront : ∀ n ∈ front, n ≠ Node.groupOpen ∧ n ≠ Node.groupClose)
    (content : JsString) (m : RegExpMatch) (h : stringMatch content re = some m) :
    ∃ body, body ≠ [] ∧ 60 ∉ body ∧ m.group 1 = body := by
  obtain ⟨-, pre, w, rest, alt, added, -, halt, hrun, -, -, hgroups, -⟩ :=
    exec_some_run re content 0 m h
  rw [hre, List.mem_singleton] at halt
  subst halt
  rw [hic] at hrun
  obtain ⟨body, hne, hlt, hcap⟩ := field_capture front close hfront w rest added hrun
  exact ⟨body, hne, hlt, by simp [RegExpMatch.group, hgroups, hcap]⟩

/-- The second capture of a match of a two-group field pattern. -/
theorem stringMatch_field_second (re : Regex) (front middle : List Node) (c : Nat)
    (close : JsString)
    (hre : re.alternatives =
      [front ++ ([.groupOpen, .plus (.noneOf c), .groupClose] ++ (middle ++ fieldTail close))])
    (hic : re.ignoreCase = true)
    (hfront : ∀ n ∈ front, n ≠ Node.groupOpen ∧ n ≠ Node.groupClose)
    (hmiddle : ∀ n ∈ middle, n ≠ Node.groupOpen ∧ n ≠ Node.groupClose)
    (content : JsString) (m : RegExpMatch) (h : stringMatch content re = some m) :
    ∃ body, body ≠ [] ∧ 60 ∉ body ∧ m.group 2 = body := by
  obtain ⟨-, pre, w, rest, alt, added, -, halt, hrun, -, -, hgroups, -⟩ :=
    exec_some_run re content 0 m h
  rw [hre, List.mem_singleton] at halt
  subst halt
  rw [hic] at hrun
  obtain ⟨first, body, hne, hlt, hcap⟩ :=
    field_capture_second front middle c close hfront hmiddle w rest added hrun
  exact ⟨body, hne, hlt, by simp [RegExpMatch.group, hgroups, hcap]⟩

/-- A name is the trimmed text of a capture free of `<`. -/
theorem extractName_some (content v : JsString) (h : extractName content = some v) :
    ∃ body, body ≠ [] ∧ 60 ∉ body ∧ v = trim body := by
  unfold extractName at h
  cases hm : stringMatch content nameRegex with
  | none => rw [hm] at h; cases h
  | some m =>
    rw [hm] at h
    simp only [Option.some.injEq] at h
    obtain ⟨body, hne, hlt, hg⟩ :=
      stringMatch_field nameRegex (lit "<h1") (js "</h1>") rfl rfl (by decide) content m hm
    exact ⟨body, hne, hlt, by rw [← h, hg]⟩

/-- An address is the trimmed text of a capture free of `<`. -/
theorem extractAddress_some (content v : JsString) (h : extractAddress content = some v) :
    ∃ body, body ≠ [] ∧ 60 ∉ body ∧ v = trim body := by
  unfold extractAddress at h
  cases hm : stringMatch content addressRegex with
  | none =>
    simp only [hm, ite_self] at h
    cases h
  | some m =>
    simp only [hm] at h
    split_ifs at h
    simp only [Option.some.injEq] at h
    obtain ⟨body, hne, hlt, hg⟩ :=
      stringMatch_field addressRegex
        (lit "<button" ++ [Node.star (CharSet.noneOf 62)] ++ lit "data-value=\"Address\"") (js "</button>")
        rfl rfl (by decide) content m hm
    exact ⟨body, hne, hlt, by rw [← h, hg]⟩

/-- A phone is the trimmed text of a capture free of `<`. -/
theorem extractPhone_some (content v : JsString) (h : extractPhone content = some v) :
    ∃ body, body ≠ [] ∧ 60 ∉ body ∧ v = trim body := by
  unfold extractPhone at h
  cases hm : stringMatch content phoneRegex with
  | none => rw [hm] at h; cases h
  | some m =>
    rw [hm] at h
    simp only [Option.some.injEq] at h
    obtain ⟨body, hne, hlt, hg⟩ :=
      stringMatch_field_second phoneRegex
        (lit "<a" ++ [Node.star (CharSet.noneOf 62)] ++ lit "href=\"tel:") [Node.char 34] 34 (js "</a>")
        rfl rfl (by decide) (by decide) content m hm
    exact ⟨body, hne, hlt, by rw [← h, hg]⟩

/-- The hours are the trimmed text of a capture free of `<`. -/
theorem extractHours_some (content v : JsString) (h : extractHours content = some v) :
    ∃ body, body ≠ [] ∧ 60 ∉ body ∧ v = trim body := by
  unfold extractHours at h
  cases hm : stringMatch content hoursRegex with
  | none => rw [hm] at h; cases h
  | some m =>
    rw [hm] at h
    simp only [Option.some.injEq] at h
    obtain ⟨body, hne, hlt, hg⟩ :=
      stringMatch_field hoursRegex
        (lit "<span" ++ [Node.star (CharSet.noneOf 62)] ++ lit "aria-label=\"Hours\"") (js "</span>")
        rfl rfl (by decide) content m hm
    exact ⟨body, hne, hlt, by rw [← h, hg]⟩

/-- The rounded value keeps the sign and is never `NaN`. -/
theorem roundToDouble_sign (negative : Bool) (num den : Nat) :
    roundToDouble negative num den = .infinity negative ∨
      ∃ m e, roundToDouble negative num den = .finite negative m e := by
  unfold roundToDouble
  cases roundMagnitude num den with
  | none => exact Or.inl rfl
  | some p => exact Or.inr ⟨p.1, p.2, rfl⟩

/-- Text that starts with a digit parses to a number that is not `NaN` and not
negative. -/
theorem parseFloat_digit (x : Nat) (xs : JsString) (hx : isDigit x = true) :
    parseFloat (x :: xs) = .infinity false ∨ ∃ m e, parseFloat (x :: xs) = .finite false m e := by
  have hb : 48 ≤ x ∧ x ≤ 57 := by simpa [isDigit] using hx
  have hw : isWhiteSpace x = false := by
    simp only [isWhiteSpace, Bool.or_eq_false_iff, beq_eq_false_iff_ne, ne_eq,
      Bool.and_eq_false_imp, decide_eq_true_eq, decide_eq_false_iff_not]
    omega
  have hI : (js "Infinity").isPrefixOf (x :: xs) = false := by
    rw [show js "Infinity" = 73 :: js "nfinity" from by decide]
    simp only [List.isPrefixOf, Bool.and_eq_false_imp, beq_iff_eq]
    omega
  have hp : parseFloat (x :: xs) = strUnsignedDecimalLiteral false (x :: xs) := by
    unfold parseFloat
    simp only [List.dropWhile, hw]
    split
    · rename_i h
      simp only [List.cons.injEq] at h
      omega
    · rename_i h
      simp only [List.cons.injEq] at h
      omega
    · rfl
  rw [hp]
  unfold strUnsignedDecimalLiteral
  simp only [hI, List.takeWhile, hx, List.isEmpty_cons, Bool.false_and, Bool.false_eq_true,
    if_false]
  split_ifs
  · exact roundToDouble_sign _ _ _
  · exact roundToDouble_sign _ _ _

/-- A rating is never `NaN` and never negative: the capture of the rating
pattern starts with a digit. -/
theorem extractRating_some (content : JsString) (n : JsNumber)
    (h : extractRating content = some n) :
    n = .infinity false ∨ ∃ m e, n = .finite false m e := by
  unfold extractRating at h
  cases hm : stringMatch content ratingRegex with
  | none => rw [hm] at h; cases h
  | some mt =>
    rw [hm] at h
    simp only [Option.some.injEq] at h
    obtain ⟨-, pre, w, rest, alt, added, -, halt, hrun, -, -, hgroups, -⟩ :=
      exec_some_run ratingRegex content 0 mt hm
    simp only [ratingRegex, List.mem_singleton] at halt
    subst halt
    simp only [ratingRegex, List.cons_append, List.nil_append, Run, CharSet.test] at hrun
    obtain ⟨ad₁, rfl, a, w₁, rfl, hne, ha, hrest⟩ := hrun
    cases a with
    | nil => exact absurd rfl hne
    | cons x a =>
      have hx : isDigit x = true := ha x (List.mem_cons_self _ _)
      have hcap : ∃ q ad₂, ad₁ = q :: ad₂ ∧ 1 ≤ q := by
        rcases hrest with ⟨b, w₂, -, -, ad₂, rfl, -⟩ | ⟨y, w₂, -, -, b, w₃, -, -, ad₂, rfl, -⟩
        · exact ⟨_, ad₂, rfl, by simp only [List.length_cons]; omega⟩
        · exact ⟨_, ad₂, rfl, by simp only [List.length_cons]; omega⟩
      obtain ⟨q, ad₂, rfl, hq⟩ := hcap
      have hg : ∃ g, mt.group 1 = x :: g := by
        obtain ⟨q', rfl⟩ : ∃ q', q = q' + 1 := ⟨q - 1, by omega⟩
        exact ⟨List.take q' (a ++ (w₁ ++ rest)), by simp [RegExpMatch.group, hgroups, captures]⟩
      obtain ⟨g, hg⟩ := hg
      rw [← h, hg]
      exact parseFloat_digit x g hx

/-- Splitting a list at the first occurrence of an element is unique. -/
theorem split_unique {x : Nat} :
    ∀ {a a' r r' : List Nat}, a ++ x :: r = a' ++ x :: r' → x ∉ a → x ∉ a' →
      a = a' ∧ r = r' := by
  intro a
  induction a with
  | nil =>
    intro a' r r' h _ ha'
    cases a' with
    | nil => simpa using h
    | cons y ys =>
      simp only [List.nil_append, List.cons_append, List.cons.injEq] at h
      exact absurd (h.1 ▸ List.mem_cons_self _ _) ha'
  | cons z zs ih =>
    intro a' r r' h ha ha'
    cases a' with
    | nil =>
      simp only [List.nil_append, List.cons_append, List.cons.injEq] at h
      exact absurd (h.1 ▸ List.mem_cons_self _ _) ha
    | cons y ys =>
      simp only [List.cons_append, List.cons.injEq] at h
      obtain ⟨rfl, hrest⟩ := ih h.2 (fun hm => ha (List.mem_cons_of_mem _ hm))
        (fun hm => ha' (List.mem_cons_of_mem _ hm))
      exact ⟨by rw [h.1], hrest⟩

/-- A word whose lower case starts with `<` starts with `<`. -/
theorem head_of_lower_lt {c l : JsString} (h : c.map asciiLower = 60 :: l) :
    ∃ c', c = 60 :: c' := by
  cases c with
  | nil => simp at h
  | cons x xs =>
    simp only [List.map_cons, List.cons.injEq] at h
    have hx : x = 60 := by
      have := h.1
      simp only [asciiLower] at this
      split_ifs at this <;> omega
    exact ⟨xs, by rw [hx]⟩

/-- The language of the name pattern: the spans of `NameSpan`, with the marks
around the body. -/
theorem run_name_iff (w : JsString) (added : List Nat) :
    Run true (lit "<h1" ++ fieldTail (js "</h1>")) 0 w added ↔
      ∃ o a body c, w = o ++ a ++ 62 :: body ++ c ∧ o.map asciiLower = js "<h1" ∧ 62 ∉ a ∧
        body ≠ [] ∧ 60 ∉ body ∧ c.map asciiLower = js "</h1>" ∧
        added = [o.length + a.length + 1, o.length + a.length + 1 + body.length] := by
  have hl₁ : (js "<h1").map asciiLower = js "<h1" := by decide
  have hl₂ : (js "</h1>").map asciiLower = js "</h1>" := by decide
  simp only [lit, run_append, run_literal_only, run_fieldTail, hl₁, hl₂]
  constructor
  · rintro ⟨o, w₂, ad₁, ad₂, rfl, rfl, ⟨ho, rfl⟩, a, body, c, rfl, ha, hne, hlt, hc, rfl⟩
    exact ⟨o, a, body, c, by simp, ho, ha, hne, hlt, hc, by simp⟩
  · rintro ⟨o, a, body, c, rfl, ho, ha, hne, hlt, hc, rfl⟩
    exact ⟨o, a ++ 62 :: body ++ c, [], _, by simp, rfl, ⟨ho, rfl⟩, a, body, c, rfl, ha, hne,
      hlt, hc, by simp⟩

/-- Two name spans that start at the same place have the same body. -/
theorem nameSpan_unique {w w' body body' post post' : JsString}
    (h : NameSpan w body) (h' : NameSpan w' body') (heq : w ++ post = w' ++ post') :
    body' = body := by
  obtain ⟨o, a, c, rfl, ho, ha, -, hlt, hc⟩ := h
  obtain ⟨o', a', c', rfl, ho', ha', -, hlt', hc'⟩ := h'
  have h3 : ∀ u : JsString, u.map asciiLower = js "<h1" → u.length = 3 := by
    intro u hu
    have := congrArg List.length hu
    rw [List.length_map] at this
    exact this.trans (by decide)
  have hlen : o.length = o'.length := by rw [h3 o ho, h3 o' ho']
  simp only [List.append_assoc, List.cons_append] at heq
  obtain ⟨-, heq₂⟩ := List.append_inj heq hlen
  obtain ⟨-, heq₃⟩ := split_unique heq₂ ha ha'
  obtain ⟨c₁, rfl⟩ := head_of_lower_lt (l := js "/h1>") (by rw [hc]; rfl)
  obtain ⟨c₂, rfl⟩ := head_of_lower_lt (l := js "/h1>") (by rw [hc']; rfl)
  simp only [List.cons_append] at heq₃
  exact (split_unique heq₃ hlt hlt').1.symm

/-- The language of one literal character that has no other letter case. -/
theorem run_char_plain (c pos : Nat) (w : JsString) (added : List Nat)
    (hc : ∀ x, eqChar true x c = true ↔ x = c) :
    Run true [.char c] pos w added ↔ w = [c] ∧ added = [] := by
  simp only [Run, hc]
  constructor
  · rintro ⟨x, w', rfl, rfl, rfl, rfl⟩
    exact ⟨rfl, rfl⟩
  · rintro ⟨rfl, rfl⟩
    exact ⟨c, [], rfl, rfl, rfl, rfl⟩

/-- Only `"` matches the literal `"`. -/
theorem eqChar_quote (x : Nat) : eqChar true x 34 = true ↔ x = 34 := by
  rw [eqChar_ignoreCase_iff]
  simp only [asciiLower]
  split_ifs <;> omega

/-- Only `>` matches the literal `>`. -/
theorem eqChar_gt (x : Nat) : eqChar true x 62 = true ↔ x = 62 := by
  rw [eqChar_ignoreCase_iff]
  simp only [asciiLower]
  split_ifs <;> omega

/-- The language of the opening tag of the result pattern; it leaves no mark. -/
theorem run_resultOpen_iff (pos : Nat) (w : JsString) (added : List Nat) :
    Run true resultOpen pos w added ↔ ResultOpenTag w ∧ added = [] := by
  have hl₁ : (js "<div").map asciiLower = js "<div" := by decide
  have hl₂ : (js "class=\"").map asciiLower = js "class=\"" := by decide
  have hl₃ : (js "result").map asciiLower = js "result" := by decide
  have hsplit : resultOpen =
      (js "<div").map Node.char ++ ([.star (.noneOf 62)] ++ ((js "class=\"").map Node.char ++
        ([.star (.noneOf 34)] ++ ((js "result").map Node.char ++ ([.star (.noneOf 34)] ++
          ([.char 34] ++ ([.star (.noneOf 62)] ++ [.char 62]))))))) := by
    decide
  rw [hsplit]
  simp only [run_append, run_literal_only, run_star_noneOf, run_char_plain _ _ _ _ eqChar_quote,
    run_char_plain _ _ _ _ eqChar_gt, hl₁, hl₂, hl₃, ResultOpenTag]
  constructor
  · rintro ⟨o, w₁, ad₁, ad₂, rfl, rfl, ⟨ho, rfl⟩, a₁, w₂, ad₃, ad₄, rfl, rfl, ⟨ha₁, rfl⟩,
      cl, w₃, ad₅, ad₆, rfl, rfl, ⟨hcl, rfl⟩, c₁, w₄, ad₇, ad₈, rfl, rfl, ⟨hc₁, rfl⟩,
      r, w₅, ad₉, ad₁₀, rfl, rfl, ⟨hr, rfl⟩, c₂, w₆, ad₁₁, ad₁₂, rfl, rfl, ⟨hc₂, rfl⟩,
      q, w₇, ad₁₃, ad₁₄, rfl, rfl, ⟨rfl, rfl⟩, a₂, g, ad₁₅, ad₁₆, rfl, rfl, ⟨ha₂, rfl⟩, rfl, rfl⟩
    exact ⟨⟨o, a₁, cl, c₁, r, c₂, a₂, by simp, ho, ha₁, hcl, hc₁, hr, hc₂, ha₂⟩, rfl⟩
  · rintro ⟨⟨o, a₁, cl, c₁, r, c₂, a₂, rfl, ho, ha₁, hcl, hc₁, hr, hc₂, ha₂⟩, rfl⟩
    exact ⟨o, _, [], [], by simp only [List.append_assoc]; rfl, rfl, ⟨ho, rfl⟩,
      a₁, _, [], [], rfl, rfl, ⟨ha₁, rfl⟩, cl, _, [], [], rfl, rfl, ⟨hcl, rfl⟩,
      c₁, _, [], [], rfl, rfl, ⟨hc₁, rfl⟩, r, _, [], [], rfl, rfl, ⟨hr, rfl⟩,
      c₂, _, [], [], rfl, rfl, ⟨hc₂, rfl⟩, [34], _, [], [], rfl, rfl, ⟨rfl, rfl⟩,
      a₂, [62], [], [], rfl, rfl, ⟨ha₂, rfl⟩, rfl, rfl⟩

/-- The result pattern is its opening tag, the lazy body in a group, and
`</div>`. -/
theorem resultRegex_alternatives :
    resultRegex.alternatives =
      [resultOpen ++ ([.groupOpen, .lazyStar .any, .groupClose] ++ (js "</div>").map Node.char)] := by
  decide

/-- The language of the result pattern: the spans of `ResultSpan`, with the
marks around the body. -/
theorem run_result_iff (w : JsString) (added : List Nat) :
    Run true
        (resultOpen ++ ([.groupOpen, .lazyStar .any, .groupClose] ++ (js "</div>").map Node.char))
        0 w added ↔
      ∃ tag body d, w = tag ++ body ++ d ∧ ResultOpenTag tag ∧
        d.map asciiLower = js "</div>" ∧ added = [tag.length, tag.length + body.length] := by
  have hl : (js "</div>").map asciiLower = js "</div>" := by decide
  simp only [run_append, run_resultOpen_iff, run_literal_only, hl]
  simp only [Run, CharSet.test]
  constructor
  · rintro ⟨tag, w₁, ad₁, ad₂, rfl, rfl, ⟨htag, rfl⟩, w₂, d, ad₃, ad₄, rfl, rfl,
      ⟨ad₅, rfl, body, e, rfl, -, ad₆, rfl, rfl, rfl⟩, hd, rfl⟩
    exact ⟨tag, body, d, by simp, htag, hd, by simp⟩
  · rintro ⟨tag, body, d, rfl, htag, hd, rfl⟩
    exact ⟨tag, body ++ d, [], [0 + tag.length, 0 + tag.length + body.length], by simp, by simp,
      ⟨htag, rfl⟩, body, d, [0 + tag.length, 0 + tag.length + body.length], [], rfl, by simp,
      ⟨_, rfl, body, [], by simp, by simp, _, rfl, rfl, rfl⟩, hd, rfl⟩

/-- A successful attempt on a concatenation of node sequences: the first
sequence consumed a word of its language and the second succeeded from there
with the same result. -/
theorem matchNodes_append_some (ic : Bool) (base : List Node) :
    ∀ (front : List Node) (pos : Nat) (marks : List Nat) (inp : JsString) (r : MatchEnd),
      matchNodes ic (front ++ base) pos marks inp = some r →
      ∃ w₁ inp' ad₁, inp = w₁ ++ inp' ∧ Run ic front pos w₁ ad₁ ∧
        matchNodes ic base (pos + w₁.length) (marks ++ ad₁) inp' = some r := by
  intro front
  induction front with
  | nil =>
    intro pos marks inp r h
    exact ⟨[], inp, [], rfl, ⟨rfl, rfl⟩, by simpa using h⟩
  | cons node front ih =>
    intro pos marks inp r h
    rw [List.cons_append] at h
    cases node with
    | char c =>
      obtain ⟨x, xs, rfl, hx, hrest⟩ := matchNodes_char_head _ _ _ _ _ _ _ h
      obtain ⟨w₁, inp', ad₁, rfl, hrun, hm⟩ := ih _ _ _ _ hrest
      exact ⟨x :: w₁, inp', ad₁, rfl, ⟨x, w₁, rfl, hx, hrun⟩,
        by simpa [Nat.add_assoc, Nat.add_comm 1] using hm⟩
    | opt c =>
      have skip : matchNodes ic (front ++ base) pos marks inp = some r →
          ∃ w₁ inp' ad₁, inp = w₁ ++ inp' ∧ Run ic (Node.opt c :: front) pos w₁ ad₁ ∧
            matchNodes ic base (pos + w₁.length) (marks ++ ad₁) inp' = some r := by
        intro hs
        obtain ⟨w₁, inp', ad₁, rfl, hrun, hm⟩ := ih _ _ _ _ hs
        exact ⟨w₁, inp', ad₁, rfl, Or.inl hrun, hm⟩
      have take : ∀ x xs, inp = x :: xs → eqChar ic x c = true →
          matchNodes ic (front ++ base) (pos + 1) marks xs = some r →
          ∃ w₁ inp' ad₁, inp = w₁ ++ inp' ∧ Run ic (Node.opt c :: front) pos w₁ ad₁ ∧
            matchNodes ic base (pos + w₁.length) (marks ++ ad₁) inp' = some r := by
        intro x xs hinp hx hs
        obtain ⟨w₁, inp', ad₁, rfl, hrun, hm⟩ := ih _ _ _ _ hs
        exact ⟨x :: w₁, inp', ad₁, hinp, Or.inr ⟨x, w₁, rfl, hx, hrun⟩,
          by simpa [Nat.add_assoc, Nat.add_comm 1] using hm⟩
      cases inp with
      | nil =>
        simp only [matchNodes] at h
        exact skip h
      | cons x xs =>
        simp only [matchNodes] at h
        split_ifs at h with hx
        · cases hm : matchNodes ic (front ++ base) (pos + 1) marks xs with
          | some r' =>
            rw [hm] at h
            cases h
            exact take x xs rfl hx hm
          | none =>
            rw [hm] at h
            exact skip h
        · exact skip h
    | star s =>
      simp only [matchNodes] at h
      obtain ⟨a, inp₁, rfl, ha, -, hk⟩ := greedy_some _ _ _ _ _ h
      obtain ⟨w₁, inp', ad₁, rfl, hrun, hm⟩ := ih _ _ _ _ hk
      exact ⟨a ++ w₁, inp', ad₁, by simp, ⟨a, w₁, rfl, ha, hrun⟩,
        by simpa [Nat.add_assoc] using hm⟩
    | plus s =>
      simp only [matchNodes] at h
      obtain ⟨a, inp₁, rfl, ha, hmin, hk⟩ := greedy_some _ _ _ _ _ h
      obtain ⟨w₁, inp', ad₁, rfl, hrun, hm⟩ := ih _ _ _ _ hk
      refine ⟨a ++ w₁, inp', ad₁, by simp, ⟨a, w₁, rfl, ?_, ha, hrun⟩,
        by simpa [Nat.add_assoc] using hm⟩
      intro hnil
      subst hnil
      simp at hmin
    | lazyStar s =>
      simp only [matchNodes] at h
      obtain ⟨a, inp₁, rfl, ha, hk, -⟩ := lazy_some _ _ _ _ h
      obtain ⟨w₁, inp', ad₁, rfl, hrun, hm⟩ := ih _ _ _ _ hk
      exact ⟨a ++ w₁, inp', ad₁, by simp, ⟨a, w₁, rfl, ha, hrun⟩,
        by simpa [Nat.add_assoc] using hm⟩
    | groupOpen =>
      simp only [matchNodes] at h
      obtain ⟨w₁, inp', ad₁, rfl, hrun, hm⟩ := ih _ _ _ _ h
      exact ⟨w₁, inp', pos :: ad₁, rfl, ⟨ad₁, rfl, hrun⟩, by simpa using hm⟩
    | groupClose =>
      simp only [matchNodes] at h
      obtain ⟨w₁, inp', ad₁, rfl, hrun, hm⟩ := ih _ _ _ _ h
      exact ⟨w₁, inp', pos :: ad₁, rfl, ⟨ad₁, rfl, hrun⟩, by simpa using hm⟩

/-- A closing group parenthesis and a literal fail on an input that the literal
does not start, whatever the letter case. -/
theorem close_literal_none (l : JsString) (pos : Nat) (marks : List Nat) (inp : JsString)
    (h : matchNodes true (Node.groupClose :: l.map Node.char) pos marks inp = none) :
    ¬ l.map asciiLower <+: inp.map asciiLower := by
  rintro ⟨t, ht⟩
  obtain ⟨w, rest, hw, hl⟩ : ∃ w rest, inp = w ++ rest ∧ w.map asciiLower = l.map asciiLower := by
    refine ⟨inp.take l.length, inp.drop l.length, (List.take_append_drop _ _).symm, ?_⟩
    have := congrArg (List.take l.length) ht
    rw [List.take_left' (by simp)] at this
    rw [← List.map_take] at this
    exact this.symm
  subst hw
  have hrun : Run true (Node.groupClose :: l.map Node.char) pos w [pos] :=
    ⟨[], rfl, (run_literal_only l pos w []).mpr ⟨hl, rfl⟩⟩
  obtain ⟨r, hr⟩ := matchNodes_complete true _ pos w _ hrun marks rest
  rw [h] at hr
  cases hr

/-- One step of the matcher through a group around a lazy repetition. -/
theorem matchNodes_group_lazy (ic : Bool) (s : CharSet) (rest : List Node) (pos : Nat)
    (marks : List Nat) (inp : JsString) :
    matchNodes ic (Node.groupOpen :: Node.lazyStar s :: Node.groupClose :: rest) pos marks inp =
      lazy s.test (matchNodes ic (Node.groupClose :: rest)) pos (marks ++ [pos]) inp := rfl

/-- What a match of the result pattern at the head of an input looks like. -/
theorem matchNodes_result (t : JsString) (n : Nat) (marks : List Nat)
    (h : matchAlternatives true resultRegex.alternatives t = some (n, marks)) :
    ∃ tag seg d rest, t = tag ++ seg ++ d ++ rest ∧ ResultOpenTag tag ∧
      d.map asciiLower = js "</div>" ∧ n = (tag ++ seg ++ d).length ∧
      marks = [tag.length, tag.length + seg.length] ∧
      ∀ s₁ s₂, seg = s₁ ++ s₂ → s₂ ≠ [] →
        ¬ js "</div>" <+: (s₂ ++ d ++ rest).map asciiLower := by
  obtain ⟨alt, halt, hm⟩ := matchAlternatives_some _ _ _ _ h
  rw [resultRegex_alternatives, List.mem_singleton] at halt
  subst halt
  obtain ⟨tag, inp', ad₁, rfl, hrun, hbase⟩ := matchNodes_append_some _ _ _ _ _ _ _ hm
  obtain ⟨htag, rfl⟩ := (run_resultOpen_iff _ _ _).mp hrun
  simp only [List.cons_append, List.nil_append, zero_add, List.append_nil] at hbase
  rw [matchNodes_group_lazy] at hbase
  obtain ⟨seg, inp'', rfl, -, hk, hmin⟩ := lazy_some _ _ _ _ hbase
  obtain ⟨d, rest, added, rfl, h₁, h₂, ad', rfl, hd⟩ := matchNodes_run _ _ _ _ _ _ hk
  obtain ⟨hlow, rfl⟩ := (run_literal_only _ _ _ _).mp hd
  have hl : (js "</div>").map asciiLower = js "</div>" := by decide
  rw [hl] at hlow
  refine ⟨tag, seg, d, rest, by simp, htag, hlow, ?_, ?_, ?_⟩
  · simp only at h₁
    rw [h₁]
    simp only [List.length_append]
  · simp only at h₂
    rw [h₂]
    simp
  · intro s₁ s₂ hs hne
    have hnone := hmin s₁ s₂ hs hne
    have := close_literal_none (js "</div>") _ _ _ hnone
    rw [hl] at this
    simpa using this

/-- The loop of `parseSearchResults` pushes the entries of the matches that
`exec` returns, in their order. -/
theorem parseLoop_eq_execLoop (content : JsString) :
    ∀ (fuel i : Nat) (acc : List SearchEntry),
      parseLoop content fuel i acc =
        (execLoop content fuel i).map (fun ms => acc ++ ms.filterMap entryOf) := by
  intro fuel
  induction fuel with
  | zero => intro i acc; rfl
  | succ fuel ih =>
    intro i acc
    simp only [parseLoop, execLoop]
    cases hm : exec resultRegex content i with
    | none => simp
    | some m =>
      simp only [ih]
      cases hl : execLoop content fuel (m.index + m.whole.length) with
      | none => simp
      | some ms =>
        simp only [Option.map_some', Option.some.injEq, List.filterMap_cons, entryOf]
        cases hn : extractName (m.group 1) with
        | none => simp
        | some n =>
          simp only []
          split_ifs <;> simp

/-- What a match returned by `exec` on the result pattern looks like. -/
theorem exec_result_match (content : JsString) (i : Nat) (m : RegExpMatch)
    (h : exec resultRegex content i = some m) :
    i ≤ m.index ∧ ResultMatch content m ∧
      ∃ pre d rest, content.drop i = pre ++ m.whole ++ rest ∧ m.index = i + pre.length ∧
        (∃ w, m.whole = w ++ d) ∧ d.map asciiLower = js "</div>" := by
  unfold exec at h
  split_ifs at h with hlen
  obtain ⟨pre, t, n, marks, hsplit, hidx, hmatch, hwhole, hgroups, -⟩ :=
    searchFrom_leftmost resultRegex _ _ _ h
  obtain ⟨tag, seg, d, rest, rfl, htag, hd, rfl, rfl, hmin⟩ := matchNodes_result t n marks hmatch
  have hw : m.whole = tag ++ seg ++ d := by
    rw [hwhole]
    exact List.take_left' rfl
  have hg : m.group 1 = seg := by
    have := captures_pair tag seg (d ++ rest) tag.length (tag.length + seg.length) rfl rfl
    rw [RegExpMatch.group, hgroups]
    simp only [List.append_assoc] at this ⊢
    rw [this]
    rfl
  have hcontent : content = (content.take i ++ pre) ++ tag ++ seg ++ d ++ rest := by
    conv_lhs => rw [← List.take_append_drop i content, hsplit]
    simp only [List.append_assoc]
  refine ⟨by omega, ⟨content.take i ++ pre, tag, seg, d, rest, hcontent, ?_, hw, hg, htag, hd,
    hmin⟩, pre, d, rest, ?_, hidx, ⟨tag ++ seg, by rw [hw]⟩, hd⟩
  · rw [hidx, List.length_append, List.length_take]
    omega
  · rw [hsplit, hw]
    simp

/-- The closing tags of a text are at least those of any of its ends. -/
theorem countClosings_append_le (u t : JsString) : countClosings t ≤ countClosings (u ++ t) := by
  induction u with
  | nil => simp
  | cons c cs ih =>
    simp only [List.cons_append, countClosings, List.append_eq]
    omega

/-- A text that starts with a closing tag has one more closing tag than what
follows the tag. -/
theorem countClosings_closing (d rest : JsString) (hd : d.map asciiLower = js "</div>") :
    countClosings rest + 1 ≤ countClosings (d ++ rest) := by
  cases d with
  | nil => exact absurd hd (by decide)
  | cons x xs =>
    have hp : (js "</div>").isPrefixOf ((x :: xs ++ rest).map asciiLower) = true := by
      rw [List.isPrefixOf_iff_prefix, List.map_append, hd]
      exact List.prefix_append _ _
    have := countClosings_append_le xs rest
    simp only [List.cons_append] at hp
    simp only [List.cons_append, countClosings, List.append_eq, hp, if_true]
    omega

/-- The matches of the loop, started at `i` inside the text: each lies at or
after `i`, is a match of the result pattern, is not empty and ends inside the
text; each ends before the next starts; and there are no more of them than
closing tags from `i` on. -/
theorem execLoop_spec (content : JsString) :
    ∀ (fuel i : Nat) (ms : List RegExpMatch), execLoop content fuel i = some ms →
      (∀ m ∈ ms, i ≤ m.index ∧ ResultMatch content m ∧ 0 < m.whole.length ∧
        m.index + m.whole.length ≤ content.length) ∧
      ms.Pairwise (fun a b => a.index + a.whole.length ≤ b.index) ∧
      ms.length ≤ countClosings (content.drop i) := by
  intro fuel
  induction fuel with
  | zero =>
    intro i ms h
    cases h
  | succ fuel ih =>
    intro i ms h
    simp only [execLoop] at h
    cases hm : exec resultRegex content i with
    | none =>
      rw [hm] at h
      cases h
      exact ⟨by simp, List.Pairwise.nil, by simp⟩
    | some m =>
      simp only [hm] at h
      cases hl : execLoop content fuel (m.index + m.whole.length) with
      | none =>
        simp only [hl] at h
        cases h
      | some ms' =>
        simp only [hl, Option.some.injEq] at h
        subst h
        obtain ⟨hall, hpair, hcount⟩ := ih _ _ hl
        obtain ⟨hi, hmatch, pre, d, rest, hdrop, hidx, ⟨w, hw⟩, hd⟩ :=
          exec_result_match content i m hm
        obtain ⟨-, hpos, hend⟩ := exec_progress _ _ _ _ resultRegex_head hm
        refine ⟨?_, ?_, ?_⟩
        · intro m' hm'
          rcases List.mem_cons.mp hm' with rfl | hmem
          · exact ⟨hi, hmatch, by omega, hend⟩
          · obtain ⟨h1, h2, h3, h4⟩ := hall m' hmem
            exact ⟨by omega, h2, h3, h4⟩
        · exact List.Pairwise.cons (fun m' hm' => (hall m' hm').1) hpair
        · have hrest : content.drop (m.index + m.whole.length) = rest := by
            have : m.index + m.whole.length = i + (pre ++ m.whole).length := by
              rw [List.length_append]
              omega
            rw [this, ← List.drop_drop, hdrop]
            exact List.drop_left' rfl
          rw [hrest] at hcount
          rw [hdrop, hw]
          have h1 := countClosings_closing d rest hd
          have h2 := countClosings_append_le (pre ++ w) (d ++ rest)
          simp only [List.append_assoc] at h2 ⊢
          simp only [List.length_cons]
          omega

/-- The loop ends within `content.length + 1` iterations. -/
theorem execLoop_total (content : JsString) :
    ∀ (fuel i : Nat), i ≤ content.length → content.length - i < fuel →
      ∃ ms, execLoop content fuel i = some ms := by
  intro fuel
  induction fuel with
  | zero => intro i _ hf; omega
  | succ fuel ih =>
    intro i hi hf
    simp only [execLoop]
    cases hm : exec resultRegex content i with
    | none => exact ⟨[], rfl⟩
    | some m =>
      obtain ⟨h1, h2, h3⟩ := exec_progress _ _ _ _ resultRegex_head hm
      obtain ⟨ms, hms⟩ := ih _ h3 (by omega)
      exact ⟨m :: ms, by simp [hms]⟩

/-- The result pattern finds nothing exactly when the text has no result span. -/
theorem exec_result_none_iff (content : JsString) :
    exec resultRegex content 0 = none ↔
      ¬ ∃ pre w body post, content = pre ++ w ++ post ∧ ResultSpan w body := by
  have hic : resultRegex.ignoreCase = true := rfl
  rw [exec_none_iff, resultRegex_alternatives, hic]
  constructor
  · rintro h ⟨pre, w, body, post, hc, tag, d, rfl, htag, hd⟩
    exact h pre _ post hc _ (List.mem_singleton_self _) _
      ((run_result_iff _ _).mpr ⟨tag, body, d, rfl, htag, hd, rfl⟩)
  · intro h pre w rest hc alt halt added hrun
    rw [List.mem_singleton] at halt
    subst halt
    obtain ⟨tag, body, d, rfl, htag, hd, -⟩ := (run_result_iff w added).mp hrun
    exact h ⟨pre, _, body, rest, hc, tag, d, rfl, htag, hd⟩

/-- The results are the entries of the matches of the loop. -/
theorem parseSearchResults_eq (content : JsString) :
    ∃ ms, execLoop content (content.length + 1) 0 = some ms ∧
      parseSearchResults content = some (ms.filterMap entryOf) := by
  obtain ⟨ms, hms⟩ := execLoop_total content (content.length + 1) 0 (Nat.zero_le _) (by omega)
  refine ⟨ms, hms, ?_⟩
  unfold parseSearchResults
  rw [parseLoop_eq_execLoop, hms]
  simp

/-- A text in whose lower case `</div>` occurs splits before the occurrence. -/
theorem split_at_occurrence (l seg : JsString) (h : l <:+: seg.map asciiLower) (hl : l ≠ []) :
    ∃ s₁ s₂, seg = s₁ ++ s₂ ∧ s₂ ≠ [] ∧ l <+: s₂.map asciiLower := by
  obtain ⟨u, v, huv⟩ := h
  refine ⟨seg.take u.length, seg.drop u.length, (List.take_append_drop _ _).symm, ?_, ?_⟩
  · intro hnil
    have h1 := congrArg List.length huv
    have h2 := congrArg List.length hnil
    simp only [List.length_append, List.length_map, List.length_drop, List.length_nil] at h1 h2
    have : l.length = 0 := by omega
    exact hl (List.length_eq_zero.mp this)
  · rw [List.map_drop, ← huv]
    simp only [List.append_assoc]
    rw [List.drop_left]
    exact List.prefix_append _ _

/-- The segment of a match of the result pattern holds no closing tag. -/
theorem resultMatch_segment (content : JsString) (m : RegExpMatch)
    (h : ResultMatch content m) :
    includes ((m.group 1).map asciiLower) (js "</div>") = false := by
  obtain ⟨pre, tag, seg, d, rest, -, -, -, hg, -, -, hmin⟩ := h
  cases hi : includes ((m.group 1).map asciiLower) (js "</div>") with
  | false => rfl
  | true =>
    exfalso
    rw [hg, includes_iff] at hi
    obtain ⟨s₁, s₂, hs, hne, hp⟩ := split_at_occurrence _ _ hi (by decide)
    apply hmin s₁ s₂ hs hne
    simp only [List.map_append, List.append_assoc]
    exact hp.trans (List.prefix_append _ _)

/-- The opening tag `<div class="result">` is matched by the opening nodes of
the result pattern in one way: the nodes that follow are tried right after it
and nowhere else. -/
theorem matchNodes_resultOpen_literal (base : List Node) (marks : List Nat) (rest : JsString) :
    matchNodes true (resultOpen ++ base) 0 marks (js "<div class=\"result\">" ++ rest) =
      matchNodes true base 20 marks rest := by
  have hopen : resultOpen =
      [.char 60, .char 100, .char 105, .char 118, .star (.noneOf 62),
        .char 99, .char 108, .char 97, .char 115, .char 115, .char 61, .char 34,
        .star (.noneOf 34), .char 114, .char 101, .char 115, .char 117, .char 108, .char 116,
        .star (.noneOf 34), .char 34, .star (.noneOf 62), .char 62] := by
    decide
  have htext : js "<div class=\"result\">" =
      [60, 100, 105, 118, 32, 99, 108, 97, 115, 115, 61, 34, 114, 101, 115, 117, 108, 116, 34,
        62] := by
    decide
  rw [hopen, htext]
  cases h : matchNodes true base 20 marks rest with
  | none =>
    simp [matchNodes, greedy, eqChar, canonicalize, CharSet.test, h]
  | some r =>
    simp [matchNodes, greedy, eqChar, canonicalize, CharSet.test, h]

/-- A literal that starts with `c` and holds no other `c` does not start
inside a text `f` in whose lower case it does not occur, when what follows `f`
is empty or starts with `c`: the occurrence cannot straddle the end of `f`. -/
theorem no_occurrence_before (c : Nat) (l f t : JsString) (hl : c ∉ l)
    (hf : includes (f.map asciiLower) (c :: l) = false)
    (ht : t = [] ∨ ∃ t', t.map asciiLower = c :: t') :
    ∀ s₁ s₂, f = s₁ ++ s₂ → s₂ ≠ [] → ¬ (c :: l) <+: (s₂ ++ t).map asciiLower := by
  intro s₁ s₂ hs hne hp
  have hinf : ¬ (c :: l) <:+: f.map asciiLower := by
    intro hi
    rw [← includes_iff, hf] at hi
    cases hi
  obtain ⟨v, hv⟩ := hp
  rw [List.map_append] at hv
  rcases List.append_eq_append_iff.mp hv with ⟨a', h1, -⟩ | ⟨c', h1, h2⟩
  · -- the literal ends inside `s₂`
    apply hinf
    rw [hs, List.map_append, h1]
    exact ⟨s₁.map asciiLower, a', by simp⟩
  · -- the literal ends after the end of `s₂`
    cases c' with
    | nil =>
      apply hinf
      rw [hs, List.map_append]
      simp only [List.append_nil] at h1
      exact ⟨s₁.map asciiLower, [], by simp [h1]⟩
    | cons y ys =>
      cases s₂ with
      | nil => exact hne rfl
      | cons x xs =>
        simp only [List.map_cons, List.cons_append, List.cons.injEq] at h1
        obtain ⟨-, h1⟩ := h1
        rcases ht with rfl | ⟨t', ht'⟩
        · simp at h2
        · rw [ht'] at h2
          simp only [List.cons_append, List.cons.injEq] at h2
          apply hl
          rw [h1, ← h2.1]
          simp

/-- A pattern whose alternatives all start with the literal `l` fails on an
input whose lower case does not start with the lower case of `l`. -/
theorem matchAlternatives_none_of_head (alts : List (List Node)) (l inp : JsString)
    (halts : ∀ alt ∈ alts, ∃ rest, alt = l.map Node.char ++ rest)
    (h : ¬ l.map asciiLower <+: inp.map asciiLower) :
    matchAlternatives true alts inp = none := by
  cases hm : matchAlternatives true alts inp with
  | none => rfl
  | some r =>
    exfalso
    obtain ⟨alt, halt, hr⟩ := matchAlternatives_some _ _ _ _ hm
    obtain ⟨rest, rfl⟩ := halts alt halt
    obtain ⟨w₁, inp', ad₁, rfl, hrun, -⟩ := matchNodes_append_some _ _ _ _ _ _ _ hr
    obtain ⟨hw, -⟩ := (run_literal_only _ _ _ _).mp hrun
    apply h
    rw [List.map_append, hw]
    exact List.prefix_append _ _

/-- The scan skips a text inside which the pattern matches nowhere. -/
theorem searchFrom_append_none (re : Regex) (t : JsString) :
    ∀ (f : JsString) (idx : Nat),
      (∀ s₁ s₂, f = s₁ ++ s₂ → s₂ ≠ [] →
        matchAlternatives re.ignoreCase re.alternatives (s₂ ++ t) = none) →
      searchFrom re idx (f ++ t) = searchFrom re (idx + f.length) t := by
  intro f
  induction f with
  | nil =>
    intro idx _
    rfl
  | cons x xs ih =>
    intro idx h
    have hx := h [] (x :: xs) rfl (by simp)
    simp only [List.cons_append] at hx
    have hstep : searchFrom re idx (x :: (xs ++ t)) = searchFrom re (idx + 1) (xs ++ t) := by
      simp only [searchFrom, hx]
    rw [List.cons_append, hstep,
      ih (idx + 1) (fun s₁ s₂ hs hne => h (x :: s₁) s₂ (by simp [hs]) hne), List.length_cons]
    congr 1
    omega

/-- The scan stops where the pattern matches. -/
theorem searchFrom_here (re : Regex) (idx : Nat) (t : JsString) (n : Nat) (marks : List Nat)
    (h : matchAlternatives re.ignoreCase re.alternatives t = some (n, marks)) :
    searchFrom re idx t = some ⟨idx, t.take n, captures t marks⟩ := by
  cases t with
  | nil => simp only [searchFrom, h]
  | cons c cs => simp only [searchFrom, h]

/-- A lazy repetition runs through a text of the class after no part of which
the continuation succeeds. -/
theorem lazy_skip {p : Nat → Bool} {k : Nat → List Nat → JsString → Option MatchEnd}
    (inp' : JsString) (marks : List Nat) :
    ∀ (body : JsString) (pos : Nat), (∀ x ∈ body, p x = true) →
      (∀ a₁ a₂, body = a₁ ++ a₂ → a₂ ≠ [] → k (pos + a₁.length) marks (a₂ ++ inp') = none) →
      lazy p k pos marks (body ++ inp') = lazy p k (pos + body.length) marks inp' := by
  intro body
  induction body with
  | nil =>
    intro pos _ _
    rfl
  | cons x xs ih =>
    intro pos hp hk
    have hx := hk [] (x :: xs) rfl (by simp)
    simp only [List.length_nil, Nat.add_zero, List.cons_append] at hx
    have hstep : lazy p k pos marks (x :: (xs ++ inp')) = lazy p k (pos + 1) marks (xs ++ inp') := by
      simp only [lazy, hx, hp x (List.mem_cons_self _ _), if_true]
    rw [List.cons_append, hstep, ih (pos + 1) (fun y hy => hp y (List.mem_cons_of_mem _ hy))
      (fun a₁ a₂ hs hne => by
        have := hk (x :: a₁) a₂ (by simp [hs]) hne
        simpa [Nat.add_assoc, Nat.add_comm 1] using this), List.length_cons]
    congr 1
    omega

/-- The closing tag `</div>` is matched by the end of the result pattern. -/
theorem matchNodes_close_literal (pos : Nat) (marks : List Nat) (rest : JsString) :
    matchNodes true (Node.groupClose :: (js "</div>").map Node.char) pos marks
        (js "</div>" ++ rest) =
      some (pos + 6, marks ++ [pos]) := by
  have hlit : (js "</div>").map Node.char =
      [.char 60, .char 47, .char 100, .char 105, .char 118, .char 62] := by
    decide
  have htext : js "</div>" = [60, 47, 100, 105, 118, 62] := by decide
  rw [hlit, htext]
  simp [matchNodes, eqChar, canonicalize]

/-- A name is the trimmed body of the earliest name span of the text. -/
theorem extractName_some_span (content v : JsString) (h : extractName content = some v) :
    ∃ pre w body post, content = pre ++ w ++ post ∧ NameSpan w body ∧ v = trim body ∧
      ∀ pre' w' body' post', content = pre' ++ w' ++ post' → NameSpan w' body' →
        pre.length ≤ pre'.length ∧ (pre'.length = pre.length → body' = body) := by
  have hre : nameRegex.alternatives = [lit "<h1" ++ fieldTail (js "</h1>")] := rfl
  have hic : nameRegex.ignoreCase = true := rfl
  unfold extractName at h
  cases hm : stringMatch content nameRegex with
  | none => rw [hm] at h; cases h
  | some m =>
    rw [hm] at h
    simp only [Option.some.injEq] at h
    obtain ⟨-, pre, w, rest, alt, added, hsplit, halt, hrun, -, -, hgroups, hleft⟩ :=
      exec_some_run nameRegex content 0 m hm
    rw [hre, List.mem_singleton] at halt
    subst halt
    rw [hic] at hrun hleft
    rw [List.drop_zero] at hsplit hleft
    obtain ⟨o, a, body, c, rfl, ho, ha, hne, hlt, hc, rfl⟩ := (run_name_iff w added).mp hrun
    have hspan : NameSpan (o ++ a ++ 62 :: body ++ c) body := ⟨o, a, c, rfl, ho, ha, hne, hlt, hc⟩
    have hcap : m.group 1 = body := by
      have hs : o ++ a ++ 62 :: body ++ c ++ rest = (o ++ a ++ [62]) ++ body ++ (c ++ rest) := by
        simp
      have := captures_pair (o ++ a ++ [62]) body (c ++ rest)
        (o.length + a.length + 1) (o.length + a.length + 1 + body.length)
        (by simp; omega) (by simp; omega)
      rw [RegExpMatch.group, hgroups, hs, this]
      rfl
    refine ⟨pre, _, body, rest, hsplit, hspan, by rw [← h, hcap], ?_⟩
    intro pre' w' body' post' hc' hspan'
    have hnot : ¬ pre'.length < pre.length := by
      intro hlt'
      have hnone := hleft pre' (w' ++ post') (by rw [hc', List.append_assoc]) hlt'
      rw [hre, matchAlternatives_none_iff] at hnone
      obtain ⟨o', a', c', rfl, ho', ha', hne', hlt'', hc''⟩ := hspan'
      exact hnone _ (List.mem_singleton_self _) _ post' _ rfl
        ((run_name_iff _ _).mpr ⟨o', a', body', c', rfl, ho', ha', hne', hlt'', hc'', rfl⟩)
    refine ⟨by omega, ?_⟩
    intro hlen
    have heq : pre' ++ (w' ++ post') = pre ++ ((o ++ a ++ 62 :: body ++ c) ++ rest) := by
      rw [← List.append_assoc, ← List.append_assoc, ← hc', ← hsplit]
    obtain ⟨-, heq'⟩ := List.append_inj heq hlen
    exact nameSpan_unique hspan hspan' heq'.symm

/-- No name exactly when the text has no name span. -/
theorem extractName_none_iff (content : JsString) :
    extractName content = none ↔
      ¬ ∃ pre w body post, content = pre ++ w ++ post ∧ NameSpan w body := by
  have hre : nameRegex.alternatives = [lit "<h1" ++ fieldTail (js "</h1>")] := rfl
  have hic : nameRegex.ignoreCase = true := rfl
  have hnone : extractName content = none ↔ stringMatch content nameRegex = none := by
    unfold extractName
    cases stringMatch content nameRegex <;> simp
  rw [hnone]
  unfold stringMatch
  rw [exec_none_iff, hre, hic]
  constructor
  · rintro h ⟨pre, w, body, post, hc, o, a, c, rfl, ho, ha, hne, hlt, hc'⟩
    exact h pre _ post hc _ (List.mem_singleton_self _) _
      ((run_name_iff _ _).mpr ⟨o, a, body, c, rfl, ho, ha, hne, hlt, hc', rfl⟩)
  · intro h pre w rest hc alt halt added hrun
    rw [List.mem_singleton] at halt
    subst halt
    obtain ⟨o, a, body, c, rfl, ho, ha, hne, hlt, hc', -⟩ := (run_name_iff w added).mp hrun
    exact h ⟨pre, _, body, rest, hc, o, a, c, rfl, ho, ha, hne, hlt, hc'⟩

/-- The name found in a text whose earliest name span is known. -/
theorem extractName_of_first_span (content pre w body post : JsString)
    (hc : content = pre ++ w ++ post) (hspan : NameSpan w body)
    (hfirst : ∀ pre' w' body' post', content = pre' ++ w' ++ post' → NameSpan w' body' →
      pre.length ≤ pre'.length) :
    extractName content = some (trim body) := by
  cases h : extractName content with
  | none =>
    exact absurd ⟨pre, w, body, post, hc, hspan⟩ ((extractName_none_iff content).mp h)
  | some v =>
    obtain ⟨pre₀, w₀, body₀, post₀, hc₀, hspan₀, rfl, hmin⟩ := extractName_some_span content v h
    have h₁ := hmin pre w body post hc hspan
    have h₂ := hfirst pre₀ w₀ body₀ post₀ hc₀ hspan₀
    rw [h₁.2 (by omega)]

/-- The value of a finite number with the positive sign is not negative. -/
theorem value_finite_nonneg (m : Nat) (e : Int) :
    ∃ r, (JsNumber.finite false m e).value = some r ∧ 0 ≤ r := by
  refine ⟨_, rfl, ?_⟩
  simp only [Bool.false_eq_true, if_false]
  split_ifs <;> positivity

/-- The number that `parseFloat` returns is the nearest double, not the exact
value of the numeral: `9007199254740993` is read as `2 ^ 53`, and a numeral of
400 digits as `Infinity`. -/
theorem parseFloat_rounds :
    parseFloat (js "9007199254740993") = .finite false 1 53 ∧
      parseFloat (js "4.5") = .finite false 9 (-1) ∧
      parseFloat (js "0.1") = .finite false 3602879701896397 (-55) ∧
      parseFloat (List.replicate 400 57) = .infinity false := by
  set_option maxRecDepth 100000 in decide

/-- C11 (as stated): the text `9.9` followed by the glyph of the source pattern
has as rating the double nearest to 9.9, which is above 5.0; and a numeral of
400 digits before the glyph has the rating `Infinity`. -/
theorem rating_above_five :
    extractRating (js "9.9â˜…") = some (.finite false 5573204538870989 (-49)) ∧
      (JsNumber.finite false 5573204538870989 (-49)).value =
        some (5573204538870989 / 2 ^ 49) ∧
      ¬ ((5573204538870989 / 2 ^ 49 : ℚ) ≤ 5) ∧
      ¬ (extractRating (js "9.9â˜…") = none ∨
        ∃ n r, extractRating (js "9.9â˜…") = some n ∧ n.value = some r ∧ 0 ≤ r ∧ r ≤ 5) ∧
      extractRating (List.replicate 400 57 ++ js "â˜…") = some (.infinity false) := by
  have hr : extractRating (js "9.9â˜…") = some (.finite false 5573204538870989 (-49)) := by
    decide
  have hv : (JsNumber.finite false 5573204538870989 (-49)).value =
      some (5573204538870989 / 2 ^ 49) := by
    have h49 : Int.toNat 49 = 49 := rfl
    simp only [JsNumber.value]
    norm_num [h49]
  refine ⟨hr, hv, by norm_num, ?_, by set_option maxRecDepth 100000 in decide⟩
  rintro (h | ⟨n, r, hn, hval, -, hle⟩)
  · rw [hr] at h
    cases h
  · rw [hr] at hn
    cases hn
    rw [hv] at hval
    cases hval
    norm_num at hle

/-- C11 (amended): `extractRating` returns `null` or a number that is not `NaN`
and not negative, that is, `+Infinity` or a finite double with the positive
sign, whose value is at least 0; and so is the rating of every place record and
of every entry of the search results.  Nothing bounds it from above. -/
theorem rating_null_or_nonnegative (content : JsString) :
    (extractRating content = none ∨
      ∃ n, extractRating content = some n ∧
        (n = .infinity false ∨ ∃ m e r, n = .finite false m e ∧ n.value = some r ∧ 0 ≤ r)) ∧
      (∀ (web_fetch : Fetch) (url : JsString) (record : JsObject),
        extractFromUrl web_fetch url = .normal record → record.has .rating = true →
          record.get .rating = .null ∨
            ∃ n, record.get .rating = .number n ∧
              (n = .infinity false ∨
                ∃ m e r, n = .finite false m e ∧ n.value = some r ∧ 0 ≤ r)) ∧
      ∃ rs, parseSearchResults content = some rs ∧
        ∀ entry ∈ rs, entry.rating = none ∨
          ∃ n, entry.rating = some n ∧
            (n = .infinity false ∨ ∃ m e r, n = .finite false m e ∧ n.value = some r ∧ 0 ≤ r) := by
  have key : ∀ text : JsString, extractRating text = none ∨
      ∃ n, extractRating text = some n ∧
        (n = .infinity false ∨ ∃ m e r, n = .finite false m e ∧ n.value = some r ∧ 0 ≤ r) := by
    intro text
    cases h : extractRating text with
    | none => exact Or.inl rfl
    | some n =>
      rcases extractRating_some text n h with rfl | ⟨m, e, rfl⟩
      · exact Or.inr ⟨_, rfl, Or.inl rfl⟩
      · obtain ⟨r, hr, h0⟩ := value_finite_nonneg m e
        exact Or.inr ⟨_, rfl, Or.inr ⟨m, e, r, rfl, hr, h0⟩⟩
  refine ⟨key content, ?_, ?_⟩
  · intro web_fetch url record hrecord hhas
    unfold extractFromUrl at hrecord
    split_ifs at hrecord with hinc
    · cases hrecord
      simp [JsObject.has] at hhas
    · cases hf : web_fetch url with
      | error message =>
        simp only [hf] at hrecord
        cases hrecord
        simp [JsObject.has] at hhas
      | ok text =>
        simp only [hf] at hrecord
        cases hd : extractDirectionsUrl url with
        | error message =>
          simp only [hd] at hrecord
          cases hrecord
          simp [JsObject.has] at hhas
        | ok directions =>
          simp only [hd] at hrecord
          cases hrecord
          have hget : JsObject.get [(Key.url, JsValue.string url),
              (.name, .ofString (extractName text)), (.rating, .ofNumber (extractRating text)),
              (.address, .ofString (extractAddress text)),
              (.phone, .ofString (extractPhone text)), (.hours, .ofString (extractHours text)),
              (.isOpen, .ofBoolean (checkIfOpen text)), (.directions, .string directions)]
              .rating = .ofNumber (extractRating text) := by
            simp [JsObject.get]
          rw [hget]
          rcases key text with h | ⟨n, hn, hsign⟩
          · rw [h]
            exact Or.inl rfl
          · rw [hn]
            exact Or.inr ⟨n, rfl, hsign⟩
  · obtain ⟨rs, hrs, hnamed⟩ :=
      parseLoop_named content (content.length + 1) 0 [] (Nat.zero_le _) (by omega)
        (by intro entry h; cases h)
    refine ⟨rs, hrs, ?_⟩
    intro entry hentry
    obtain ⟨-, resultHtml, -, hrating, -⟩ := hnamed entry hentry
    rw [hrating]
    exact key resultHtml

/-- C12 (as stated): in `<h1><b>A</b></h1><h1>B</h1>` the earliest `<h1>`
heading element starts the text and holds `<b>A</b>`, but `extractName` returns
`B`, the text of the later heading; and on `<h1><b>A</b></h1>` alone it returns
`null` although the text has an `<h1>` heading. -/
theorem name_of_later_heading :
    HeadingElement (js "<h1><b>A</b></h1>") (js "<b>A</b>") ∧
      js "<h1><b>A</b></h1><h1>B</h1>" = [] ++ js "<h1><b>A</b></h1>" ++ js "<h1>B</h1>" ∧
      extractName (js "<h1><b>A</b></h1><h1>B</h1>") = some (js "B") ∧
      js "B" ≠ trim (js "<b>A</b>") ∧
      extractName (js "<h1><b>A</b></h1>") = none := by
  refine ⟨⟨js "<h1", [], js "</h1>", by decide, by decide, by decide, by decide, by decide⟩,
    by decide, by decide, by decide, by decide⟩

/-- C12 (amended): a name returned by `extractName` is the trimmed body of the
earliest span of the form `<h1 ...>body</h1>` with a non-empty body free of
`<`: no such span starts before it, and a span that starts at the same place
has the same body.  `extractName` returns `null` exactly when the text has no
such span. -/
theorem name_of_first_span (content : JsString) :
    (∀ v, extractName content = some v →
      ∃ pre w body post, content = pre ++ w ++ post ∧ NameSpan w body ∧ v = trim body ∧
        ∀ pre' w' body' post', content = pre' ++ w' ++ post' → NameSpan w' body' →
          pre.length ≤ pre'.length ∧ (pre'.length = pre.length → body' = body)) ∧
      (extractName content = none ↔
        ¬ ∃ pre w body post, content = pre ++ w ++ post ∧ NameSpan w body) := by
  constructor
  · intro v h
    exact extractName_some_span content v h
  · exact extractName_none_iff content

/-- The language of the phone pattern, with the marks around the number and
around the display text. -/
theorem run_phone_iff (alt : List Node) (halt : alt ∈ phoneRegex.alternatives)
    (w : JsString) (added : List Nat) :
    Run true alt 0 w added ↔
      ∃ o a h n b body c, w = o ++ (a ++ (h ++ (n ++ 34 :: (b ++ 62 :: (body ++ c))))) ∧
        o.map asciiLower = js "<a" ∧ 62 ∉ a ∧ h.map asciiLower = js "href=\"tel:" ∧
        n ≠ [] ∧ 34 ∉ n ∧ 62 ∉ b ∧ body ≠ [] ∧ 60 ∉ body ∧ c.map asciiLower = js "</a>" ∧
        added = [o.length + a.length + h.length, o.length + a.length + h.length + n.length,
          o.length + a.length + h.length + n.length + 1 + b.length + 1,
          o.length + a.length + h.length + n.length + 1 + b.length + 1 + body.length] := by
  have hl₁ : (js "<a").map asciiLower = js "<a" := by decide
  have hl₂ : (js "href=\"tel:").map asciiLower = js "href=\"tel:" := by decide
  have hl₃ : (js "</a>").map asciiLower = js "</a>" := by decide
  have hsplit : alt = (js "<a").map Node.char ++ ([.star (.noneOf 62)] ++
      ((js "href=\"tel:").map Node.char ++ ([.groupOpen, .plus (.noneOf 34), .groupClose] ++
        ([.char 34] ++ fieldTail (js "</a>"))))) := by
    simp only [phoneRegex, List.mem_singleton] at halt
    rw [halt]
    decide
  rw [hsplit]
  simp only [run_append, run_literal_only, run_star_noneOf, run_group_plus,
    run_char_plain 34 _ _ _ eqChar_quote, run_fieldTail, hl₁, hl₂, hl₃]
  constructor
  · rintro ⟨o, w₁, ad₁, ad₂, rfl, rfl, ⟨ho, rfl⟩, a, w₂, ad₃, ad₄, rfl, rfl, ⟨ha, rfl⟩,
      h, w₃, ad₅, ad₆, rfl, rfl, ⟨hh, rfl⟩, n, w₄, ad₇, ad₈, rfl, rfl, ⟨hn, hn', rfl⟩,
      q, w₅, ad₉, ad₁₀, rfl, rfl, ⟨rfl, rfl⟩, b, body, c, rfl, hb, hne, hlt, hc, rfl⟩
    refine ⟨o, a, h, n, b, body, c, by simp, ho, ha, hh, hn, hn', hb, hne, hlt, hc, ?_⟩
    simp [Nat.add_assoc]
  · rintro ⟨o, a, h, n, b, body, c, rfl, ho, ha, hh, hn, hn', hb, hne, hlt, hc, rfl⟩
    refine ⟨o, _, [], _, rfl, rfl, ⟨ho, rfl⟩, a, _, [], _, rfl, rfl, ⟨ha, rfl⟩,
      h, _, [], _, rfl, rfl, ⟨hh, rfl⟩, n, _, _, _, rfl, ?_, ⟨hn, hn', rfl⟩,
      [34], _, [], _, rfl, rfl, ⟨rfl, rfl⟩, b, body, c, by simp, hb, hne, hlt, hc, rfl⟩
    simp [Nat.add_assoc]

/-- A text free of `c` that starts a text is inside what comes before any `c`
of that text. -/
theorem prefix_of_free {c : Nat} {u y b z : List Nat} (hu : c ∉ u)
    (h : u ++ y = b ++ c :: z) : ∃ r, b = u ++ r := by
  rcases List.append_eq_append_iff.mp h with ⟨r, hb, -⟩ | ⟨r, hu', hz⟩
  · exact ⟨r, hb⟩
  · cases r with
    | nil => exact ⟨[], by simpa using hu'.symm⟩
    | cons x xs =>
      simp only [List.cons_append, List.cons.injEq] at hz
      exact absurd (by rw [hu', hz.1]; simp) hu

/-- Two links that start with their `href="tel:` at the same place have the
same display text. -/
theorem phone_tail_unique {h' n' b' d' c' rest h n b d c post : JsString}
    (heq : h' ++ (n' ++ 34 :: (b' ++ 62 :: (d' ++ (c' ++ rest)))) =
      h ++ (n ++ 34 :: (b ++ 62 :: (d ++ (c ++ post)))))
    (hh' : h'.map asciiLower = js "href=\"tel:") (hh : h.map asciiLower = js "href=\"tel:")
    (hn' : 34 ∉ n') (hn : 34 ∉ n) (hb' : 62 ∉ b') (hb : 62 ∉ b)
    (hd' : 60 ∉ d') (hd : 60 ∉ d)
    (hc' : c'.map asciiLower = js "</a>") (hc : c.map asciiLower = js "</a>") :
    d' = d := by
  have hlen : h'.length = h.length := by
    have h1 := congrArg List.length hh'
    have h2 := congrArg List.length hh
    rw [List.length_map] at h1 h2
    rw [h1, h2]
  obtain ⟨-, heq₁⟩ := List.append_inj heq hlen
  obtain ⟨-, heq₂⟩ := split_unique heq₁ hn' hn
  obtain ⟨-, heq₃⟩ := split_unique heq₂ hb' hb
  obtain ⟨c₁, rfl⟩ := head_of_lower_lt (l := js "/a>") (by rw [hc']; rfl)
  obtain ⟨c₂, rfl⟩ := head_of_lower_lt (l := js "/a>") (by rw [hc]; rfl)
  simp only [List.cons_append] at heq₃
  exact (split_unique heq₃ hd' hd).1

/-- A word whose lower case is `href="tel:` holds no `>`. -/
theorem gt_not_mem_href {h : JsString} (hh : h.map asciiLower = js "href=\"tel:") : 62 ∉ h := by
  intro hm
  have := List.mem_map_of_mem asciiLower hm
  rw [hh] at this
  revert this
  decide

/-- A link of the phone pattern that starts at or before the first `tel:` link
of the text has the display text of that link. -/
theorem phone_display_unique {pre₁ o' x h' n' b' d' c' rest pre o a h n b d c post : JsString}
    (heq : pre₁ ++ (o' ++ (x ++ (h' ++ (n' ++ 34 :: (b' ++ 62 :: (d' ++ (c' ++ rest))))))) =
      pre ++ (o ++ (a ++ (h ++ (n ++ 34 :: (b ++ 62 :: (d ++ (c ++ post))))))))
    (hle : pre₁.length ≤ pre.length)
    (ho' : o'.map asciiLower = js "<a") (ho : o.map asciiLower = js "<a") (hx : 62 ∉ x)
    (hh' : h'.map asciiLower = js "href=\"tel:") (hh : h.map asciiLower = js "href=\"tel:")
    (hn' : 34 ∉ n') (hn : 34 ∉ n) (hb' : 62 ∉ b') (hb : 62 ∉ b)
    (hd' : 60 ∉ d') (hd : 60 ∉ d)
    (hc' : c'.map asciiLower = js "</a>") (hc : c.map asciiLower = js "</a>")
    (hfirst : includes ((pre ++ o ++ a).map asciiLower) (js "href=\"tel:") = false)
    (honly : includes ((n ++ 34 :: b).map asciiLower) (js "href=\"tel:") = false) :
    d' = d := by
  have hL : js "href=\"tel:" = 104 :: js "ref=\"tel:" := by decide
  have hl : (104 : Nat) ∉ js "ref=\"tel:" := by decide
  have holen : o'.length = o.length := by
    have h1 := congrArg List.length ho'
    have h2 := congrArg List.length ho
    rw [List.length_map] at h1 h2
    rw [h1, h2]
  have heq' : (pre₁ ++ o' ++ x) ++ (h' ++ (n' ++ 34 :: (b' ++ 62 :: (d' ++ (c' ++ rest))))) =
      (pre ++ o ++ a) ++ (h ++ (n ++ 34 :: (b ++ 62 :: (d ++ (c ++ post))))) := by
    simpa only [List.append_assoc] using heq
  have hsame : h' ++ (n' ++ 34 :: (b' ++ 62 :: (d' ++ (c' ++ rest)))) =
      h ++ (n ++ 34 :: (b ++ 62 :: (d ++ (c ++ post)))) → d' = d := fun e =>
    phone_tail_unique e hh' hh hn' hn hb' hb hd' hd hc' hc
  rcases List.append_eq_append_iff.mp heq' with ⟨s, hV, hT⟩ | ⟨s, hU, hT⟩
  · -- the other link has its `href="tel:` at or before that of the first link
    cases s with
    | nil => exact hsame (by simpa using hT)
    | cons y ys =>
      exfalso
      refine no_occurrence_before 104 (js "ref=\"tel:") (pre ++ o ++ a)
        (h ++ (n ++ 34 :: (b ++ 62 :: (d ++ (c ++ post))))) hl (by rw [← hL]; exact hfirst)
        (Or.inr ⟨_, by rw [List.map_append, hh, hL]; rfl⟩) (pre₁ ++ o' ++ x) (y :: ys) hV
        (by simp) ?_
      rw [← hT, List.map_append, hh', ← hL]
      exact List.prefix_append _ _
  · -- the other link has its `href="tel:` after that of the first link
    cases s with
    | nil => exact hsame (by simpa using hT.symm)
    | cons y ys =>
      exfalso
      have hs : 62 ∉ y :: ys := by
        rcases List.append_eq_append_iff.mp (show (pre₁ ++ o') ++ x = (pre ++ o ++ a) ++ (y :: ys)
          from hU) with ⟨r, -, hr⟩ | ⟨r, hr, hr'⟩
        · intro hm
          exact hx (by rw [hr]; exact List.mem_append_right _ hm)
        · have hlen := congrArg List.length hr
          simp only [List.length_append] at hlen
          have hr0 : r = [] := List.length_eq_zero.mp (by omega)
          rw [hr0, List.nil_append] at hr'
          rw [hr']
          exact hx
      have hafter : ∀ r : JsString, 62 ∉ r →
          n ++ 34 :: (b ++ 62 :: (d ++ (c ++ post))) =
            r ++ (h' ++ (n' ++ 34 :: (b' ++ 62 :: (d' ++ (c' ++ rest))))) → False := by
        intro r hr₁ hr'
        have hfree : 62 ∉ r ++ h' := by
          intro hm
          rcases List.mem_append.mp hm with hm | hm
          · exact hr₁ hm
          · exact gt_not_mem_href hh' hm
        have hr'' : (r ++ h') ++ (n' ++ 34 :: (b' ++ 62 :: (d' ++ (c' ++ rest)))) =
            (n ++ 34 :: b) ++ 62 :: (d ++ (c ++ post)) := by
          have := hr'.symm
          simpa only [List.append_assoc, List.cons_append] using this
        obtain ⟨r₂, hr₂⟩ := prefix_of_free hfree hr''
        have hinc : js "href=\"tel:" <:+: (n ++ 34 :: b).map asciiLower := by
          rw [hr₂, List.map_append, List.map_append, hh']
          exact ⟨r.map asciiLower, r₂.map asciiLower, by simp⟩
        rw [← includes_iff, honly] at hinc
        cases hinc
      rcases List.append_eq_append_iff.mp hT with ⟨r, hr, hr'⟩ | ⟨r, hr, hr'⟩
      · -- the other `href="tel:` starts after that of the first link
        refine hafter r ?_ hr'
        intro hm
        apply hs
        rw [hr]
        exact List.mem_append_right _ hm
      · -- the other `href="tel:` starts inside that of the first link
        cases r with
        | nil => exact hafter [] (by simp) (by simpa using hr'.symm)
        | cons z zs =>
          obtain ⟨q, qs, rfl⟩ : ∃ q qs, h' = q :: qs := by
            cases h' with
            | nil => exact absurd hh' (by decide)
            | cons q qs => exact ⟨q, qs, rfl⟩
          simp only [List.cons_append, List.cons.injEq] at hr'
          have hq : asciiLower q = 104 := by
            have := hh'
            rw [hL] at this
            simp only [List.map_cons, List.cons.injEq] at this
            exact this.1
          have hz : asciiLower z ∈ js "ref=\"tel:" := by
            have := hh
            rw [hr, hL] at this
            simp only [List.cons_append, List.map_cons, List.map_append, List.cons.injEq] at this
            rw [← this.2]
            simp
          rw [← hr'.1, hq] at hz
          exact hl hz

/-- C13 (as stated): in `<a href="tel:+14155551234" title="Call > now">(415)
555-1234</a>` the first `tel:` link is an anchor with the display text
`(415) 555-1234`, and `extractPhone` returns the text behind the first `>`, which
lies in the `title` attribute; and for the anchor `<a href="tel:">Call</a>`,
with an empty number, it returns `null`. -/
theorem phone_of_quoted_gt :
    js "<a href=\"tel:+14155551234\" title=\"Call > now\">(415) 555-1234</a>" =
        js "<a href=\"tel:" ++ js "+14155551234" ++ js "\" title=\"Call > now\">" ++
          js "(415) 555-1234" ++ js "</a>" ∧
      60 ∉ js "(415) 555-1234" ∧
      extractPhone (js "<a href=\"tel:+14155551234\" title=\"Call > now\">(415) 555-1234</a>") =
        some (js "now\">(415) 555-1234") ∧
      js "now\">(415) 555-1234" ≠ trim (js "(415) 555-1234") ∧
      extractPhone (js "<a href=\"tel:\">Call</a>") = none := by
  decide

/-- C13 (amended): when the first `href="tel:` of the text lies in an anchor
`<a ... href="tel:N" ...>D</a>` whose opening tag ends at the first `>` after
the number and holds no second `href="tel:`, with `N` non-empty and free of
`"` and `D` non-empty and free of `<`, `extractPhone` returns `D` trimmed, not
the number `N`. -/
theorem phone_is_display_text (content number display : JsString)
    (hlink : FirstTelLink content number display) :
    extractPhone content = some (trim display) := by
  obtain ⟨pre, o, a, h, b, c, post, hcontent, ho, ha, hh, hn, hn', hb, hd, hd', hc, hfirst,
    honly⟩ := hlink
  have hic : phoneRegex.ignoreCase = true := rfl
  have hrun : ∀ alt ∈ phoneRegex.alternatives, ∃ added,
      Run true alt 0 (o ++ (a ++ (h ++ (number ++ 34 :: (b ++ 62 :: (display ++ c)))))) added :=
    fun alt halt => ⟨_, (run_phone_iff alt halt _ _).mpr
      ⟨o, a, h, number, b, display, c, rfl, ho, ha, hh, hn, hn', hb, hd, hd', hc, rfl⟩⟩
  have hc₁ : content =
      pre ++ (o ++ (a ++ (h ++ (number ++ 34 :: (b ++ 62 :: (display ++ c)))))) ++ post := by
    rw [hcontent]
    simp only [List.append_assoc, List.cons_append]
  obtain ⟨alt₀, halt₀⟩ : ∃ alt, alt ∈ phoneRegex.alternatives := ⟨_, List.mem_singleton_self _⟩
  unfold extractPhone
  cases hm : stringMatch content phoneRegex with
  | none =>
    exfalso
    unfold stringMatch at hm
    rw [exec_none_iff, hic] at hm
    obtain ⟨added, hr⟩ := hrun alt₀ halt₀
    exact hm pre _ post hc₁ alt₀ halt₀ added hr
  | some m =>
    obtain ⟨-, pre₁, w, rest, alt, added, hsplit, halt, hr, -, -, hgroups, hleft⟩ :=
      exec_some_run phoneRegex content 0 m hm
    rw [hic] at hr hleft
    rw [List.drop_zero] at hsplit hleft
    obtain ⟨o', x, h', n', b', d', c', rfl, ho', hx, hh', -, hn'', hb', -, hd'', hc', rfl⟩ :=
      (run_phone_iff alt halt w added).mp hr
    have hle : pre₁.length ≤ pre.length := by
      by_contra hlt
      have hnone := hleft pre
        ((o ++ (a ++ (h ++ (number ++ 34 :: (b ++ 62 :: (display ++ c)))))) ++ post)
        (by rw [hc₁, List.append_assoc]) (by omega)
      rw [matchAlternatives_none_iff] at hnone
      obtain ⟨added, hr'⟩ := hrun alt₀ halt₀
      exact hnone alt₀ halt₀ _ post added rfl hr'
    have heq : pre₁ ++ (o' ++ (x ++ (h' ++ (n' ++ 34 :: (b' ++ 62 :: (d' ++ (c' ++ rest))))))) =
        pre ++ (o ++ (a ++ (h ++ (number ++ 34 :: (b ++ 62 :: (display ++ (c ++ post))))))) := by
      have := hsplit.symm.trans hc₁
      simpa only [List.append_assoc, List.cons_append] using this
    have hdisp : d' = display :=
      phone_display_unique heq hle ho' ho hx hh' hh hn'' hn' hb' hb hd'' hd' hc' hc hfirst honly
    have hcap : m.group 2 = d' := by
      have hs : o' ++ (x ++ (h' ++ (n' ++ 34 :: (b' ++ 62 :: (d' ++ c'))))) ++ rest =
          (o' ++ x ++ h' ++ n' ++ [34] ++ b' ++ [62]) ++ d' ++ (c' ++ rest) := by
        simp
      have := captures_pair (o' ++ x ++ h' ++ n' ++ [34] ++ b' ++ [62]) d' (c' ++ rest)
        (o'.length + x.length + h'.length + n'.length + 1 + b'.length + 1)
        (o'.length + x.length + h'.length + n'.length + 1 + b'.length + 1 + d'.length)
        (by simp; omega) (by simp; omega)
      simp only [captures, List.cons.injEq, and_true] at this
      rw [RegExpMatch.group, hgroups, hs]
      simp only [captures, List.get?_cons_succ, List.get?_cons_zero, Option.getD_some]
      exact this
    simp only [hcap, hdisp]

/-- The anchor of the scenario, with attributes around the `href` and after
another anchor. -/
theorem phone_is_display_text_witness :
    extractPhone (js ("<a href=\"/menu\">Menu</a><a class=\"x\" href=\"tel:+14155551234\" " ++
        "title=\"call\"> (415) 555-1234 </a>")) = some (js "(415) 555-1234") :=
  (phone_is_display_text
    (js ("<a href=\"/menu\">Menu</a><a class=\"x\" href=\"tel:+14155551234\" " ++
        "title=\"call\"> (415) 555-1234 </a>"))
    (js "+14155551234") (js " (415) 555-1234 ")
    ⟨js "<a href=\"/menu\">Menu</a>", js "<a", js " class=\"x\" ", js "href=\"tel:",
      js " title=\"call\"", js "</a>", [], by decide, by decide, by decide, by decide, by decide,
      by decide, by decide, by decide, by decide, by decide, by decide, by decide⟩).trans
    (by decide)

/-- C14: a text with no span of the form
`<div ... class="...result..." ...> ... </div>` gives the empty results, and
`searchPlaces` returns `{ query, results: [], searchUrl }`, without an `error`
key. -/
theorem no_container_no_results (content : JsString)
    (h : ¬ ∃ pre w body post, content = pre ++ w ++ post ∧ ResultSpan w body) :
    parseSearchResults content = some [] ∧
      ∀ (web_fetch : Fetch) (query e : JsString), encodeURIComponent query = .ok e →
        web_fetch (js "https://www.google.com/maps/search/" ++ e) = .ok content →
        searchPlaces web_fetch query =
            .normal [(.query, .string query), (.results, .array []),
              (.searchUrl, .string (js "https://www.google.com/maps/search/" ++ e))] ∧
          JsObject.has [(.query, .string query), (.results, .array []),
              (.searchUrl, .string (js "https://www.google.com/maps/search/" ++ e))] .error =
            false := by
  have hnone : exec resultRegex content 0 = none := (exec_result_none_iff content).mpr h
  have hparse : parseSearchResults content = some [] := by
    simp [parseSearchResults, parseLoop, hnone]
  refine ⟨hparse, ?_⟩
  intro web_fetch query e he hfetch
  refine ⟨?_, rfl⟩
  simp only [searchPlaces, he, hfetch, hparse]

/-- A page with a `div` whose class does not hold `result`. -/
theorem no_container_no_results_witness :
    parseSearchResults (js "<div class=\"card\"><h1>Cafe</h1></div> nothing found") = some [] ∧
      searchPlaces (fun _ => .ok (js "<div class=\"card\"><h1>Cafe</h1></div> nothing found"))
          (js "tea") =
        .normal [(.query, .string (js "tea")), (.results, .array []),
          (.searchUrl, .string (js "https://www.google.com/maps/search/" ++ js "tea"))] :=
  ⟨(no_container_no_results _ ((exec_result_none_iff _).mp (by decide))).1,
    ((no_container_no_results (js "<div class=\"card\"><h1>Cafe</h1></div> nothing found")
      ((exec_result_none_iff _).mp (by decide))).2 _ (js "tea") (js "tea") rfl rfl).1⟩

/-- The name of a plain container is its trimmed heading. -/
theorem extractName_container (c : Container) (h : c.Plain) :
    extractName c.inner = some (trim c.heading) := by
  obtain ⟨-, -, hlead, hlt, hne⟩ := h
  have hheading : c.heading ≠ [] := by
    intro hnil
    rw [hnil] at hne
    exact hne rfl
  refine extractName_of_first_span c.inner c.lead (js "<h1>" ++ c.heading ++ js "</h1>")
    c.heading c.trail (by simp [Container.inner]) ?_ ?_
  · exact ⟨js "<h1", [], js "</h1>", by simp; rfl, by decide, by simp, hheading, hlt, by decide⟩
  · intro pre' w' body' post' hc hspan
    by_contra hlen
    obtain ⟨o, a, cl, rfl, ho, -, -, -, -⟩ := hspan
    have hsplit : pre' ++ (o ++ (a ++ 62 :: body' ++ cl ++ post')) =
        c.lead ++ (js "<h1>" ++ c.heading ++ js "</h1>" ++ c.trail) := by
      have := hc
      simp only [Container.inner, List.append_assoc] at this ⊢
      exact this.symm
    rcases List.append_eq_append_iff.mp hsplit with ⟨s₂, h1, h2⟩ | ⟨s₂, h1, -⟩
    · have hs₂ : s₂ ≠ [] := by
        intro hnil
        rw [hnil, List.append_nil] at h1
        rw [h1] at hlen
        exact hlen (Nat.le_refl _)
      refine no_occurrence_before 60 (js "h1") c.lead
        (js "<h1>" ++ c.heading ++ js "</h1>" ++ c.trail) (by decide) hlead
        (Or.inr ⟨_, by simp [List.map_append]; rfl⟩) pre' s₂ h1 hs₂ ?_
      rw [← h2, List.map_append, ho]
      exact List.prefix_append _ _
    · rw [h1] at hlen
      simp at hlen

/-- The end of the result pattern fails on an input that does not start with
`</div>`, whatever the letter case. -/
theorem close_literal_fails (l : JsString) (pos : Nat) (marks : List Nat) (inp : JsString)
    (h : ¬ l.map asciiLower <+: inp.map asciiLower) :
    matchNodes true (Node.groupClose :: l.map Node.char) pos marks inp = none := by
  cases hm : matchNodes true (Node.groupClose :: l.map Node.char) pos marks inp with
  | none => rfl
  | some r =>
    exfalso
    obtain ⟨w, rest, added, rfl, -, -, ad', -, hrun⟩ := matchNodes_run _ _ _ _ _ _ hm
    obtain ⟨hw, -⟩ := (run_literal_only _ _ _ _).mp hrun
    apply h
    rw [List.map_append, hw]
    exact List.prefix_append _ _

/-- A lazy repetition stops at once where the continuation succeeds. -/
theorem lazy_here {p : Nat → Bool} {k : Nat → List Nat → JsString → Option MatchEnd}
    (pos : Nat) (marks : List Nat) (inp : JsString) (r : MatchEnd)
    (h : k pos marks inp = some r) : lazy p k pos marks inp = some r := by
  cases inp with
  | nil => simp only [lazy, h]
  | cons c cs => simp only [lazy, h]

/-- The result pattern matches a container without inner `</div>` exactly: the
whole container, with its inner text as the capture. -/
theorem matchAlternatives_container (c : Container) (tail : JsString)
    (h : includes (c.inner.map asciiLower) (js "</div>") = false) :
    matchAlternatives true resultRegex.alternatives (c.text ++ tail) =
      some (c.text.length, [20, 20 + c.inner.length]) := by
  have hmatch : matchNodes true
      (resultOpen ++ ([.groupOpen, .lazyStar .any, .groupClose] ++ (js "</div>").map Node.char))
      0 [] (c.text ++ tail) = some (c.text.length, [20, 20 + c.inner.length]) := by
    have htext : c.text ++ tail =
        js "<div class=\"result\">" ++ (c.inner ++ (js "</div>" ++ tail)) := by
      simp [Container.text]
    rw [htext, matchNodes_resultOpen_literal]
    simp only [List.cons_append, List.nil_append]
    rw [matchNodes_group_lazy, @lazy_skip CharSet.any.test _ _ _ c.inner 20 (fun _ _ => rfl)]
    · rw [lazy_here _ _ _ _ (matchNodes_close_literal _ _ _)]
      simp only [Container.text, List.length_append, Option.some.injEq, Prod.mk.injEq,
        List.nil_append, List.cons_append, and_true]
      have : (js "<div class=\"result\">").length = 20 := by decide
      have : (js "</div>").length = 6 := by decide
      omega
    · intro a₁ a₂ hs hne
      apply close_literal_fails
      have hl : (js "</div>").map asciiLower = 60 :: js "/div>" := by decide
      rw [hl]
      exact no_occurrence_before 60 (js "/div>") c.inner (js "</div>" ++ tail) (by decide)
        (by simpa using h) (Or.inr ⟨_, by simp [List.map_append]; rfl⟩) a₁ a₂ hs hne
  rw [resultRegex_alternatives]
  simp only [matchAlternatives, hmatch]

/-- The text of a container starts with `<`. -/
theorem container_text_head (c : Container) (tail : JsString) :
    ∃ t', (c.text ++ tail).map asciiLower = 60 :: t' :=
  ⟨_, by simp [Container.text, List.map_append]; rfl⟩

/-- The alternatives of the result pattern start with `<div`. -/
theorem resultRegex_literal_head :
    ∀ alt ∈ resultRegex.alternatives, ∃ rest, alt = (js "<div").map Node.char ++ rest := by
  intro alt halt
  simp only [resultRegex, List.mem_singleton] at halt
  subst halt
  exact ⟨_, by simp only [List.append_assoc]; rfl⟩

/-- From the end of what precedes a plain container, `exec` returns the
container, with its inner text as the capture. -/
theorem exec_container (done tail : JsString) (c : Container) (h : c.Plain) :
    exec resultRegex (done ++ (c.before ++ c.text ++ tail)) done.length =
      some ⟨done.length + c.before.length, c.text, [c.inner]⟩ := by
  obtain ⟨hbefore, hinner, -, -, -⟩ := h
  have hic : resultRegex.ignoreCase = true := rfl
  unfold exec
  rw [if_neg (by simp), List.drop_left, List.append_assoc, searchFrom_append_none]
  · rw [searchFrom_here _ _ _ _ _ (by rw [hic]; exact matchAlternatives_container c tail hinner)]
    have htake : (c.text ++ tail).take c.text.length = c.text := List.take_left' rfl
    have hcap : captures (c.text ++ tail) [20, 20 + c.inner.length] = [c.inner] := by
      have := captures_pair (js "<div class=\"result\">") c.inner (js "</div>" ++ tail) 20
        (20 + c.inner.length) (by decide) (by
          have : (js "<div class=\"result\">").length = 20 := by decide
          omega)
      simpa [Container.text] using this
    rw [htake, hcap]
  · intro s₁ s₂ hs hne
    rw [hic]
    apply matchAlternatives_none_of_head _ (js "<div") _ resultRegex_literal_head
    have hl : (js "<div").map asciiLower = 60 :: js "div" := by decide
    rw [hl]
    exact no_occurrence_before 60 (js "div") c.before (c.text ++ tail) (by decide)
      (by simpa using hbefore) (Or.inr (container_text_head c tail)) s₁ s₂ hs hne

/-- After the last container `exec` returns `null`. -/
theorem exec_last (done last : JsString)
    (h : includes (last.map asciiLower) (js "<div") = false) :
    exec resultRegex (done ++ last) done.length = none := by
  have hic : resultRegex.ignoreCase = true := rfl
  unfold exec
  rw [if_neg (by simp), List.drop_left]
  apply searchFrom_none
  intro pre t ht
  rw [hic]
  apply matchAlternatives_none_of_head _ (js "<div") _ resultRegex_literal_head
  have hl : (js "<div").map asciiLower = 60 :: js "div" := by decide
  rw [hl]
  cases t with
  | nil =>
    rintro ⟨v, hv⟩
    simp at hv
  | cons x xs =>
    have := no_occurrence_before 60 (js "div") last [] (by decide) (by simpa using h)
      (Or.inl rfl) pre (x :: xs) ht (by simp)
    simpa using this

/-- The loop on a page of plain containers pushes their entries in order. -/
theorem parseLoop_page (last : JsString)
    (hlast : includes (last.map asciiLower) (js "<div") = false) :
    ∀ (cs : List Container) (done : JsString) (acc : List SearchEntry) (fuel : Nat),
      (∀ c ∈ cs, c.Plain) → cs.length < fuel →
      parseLoop (done ++ page cs last) fuel done.length acc =
        some (acc ++ cs.map Container.entry) := by
  intro cs
  induction cs with
  | nil =>
    intro done acc fuel _ hfuel
    obtain ⟨fuel', rfl⟩ : ∃ f, fuel = f + 1 := ⟨fuel - 1, by simp at hfuel; omega⟩
    simp only [page, parseLoop, exec_last done last hlast, List.map_nil, List.append_nil]
  | cons c cs ih =>
    intro done acc fuel hplain hfuel
    obtain ⟨fuel', rfl⟩ : ∃ f, fuel = f + 1 := ⟨fuel - 1, by simp at hfuel; omega⟩
    have hc := hplain c (List.mem_cons_self _ _)
    have hname := extractName_container c hc
    have htruthy : (JsValue.string (trim c.heading)).truthy = true := by
      have := hc.2.2.2.2
      cases htrim : trim c.heading with
      | nil => exact absurd htrim this
      | cons x xs => rfl
    have hnext := ih (done ++ (c.before ++ c.text)) (acc ++ [c.entry]) fuel'
      (fun c' hc' => hplain c' (List.mem_cons_of_mem _ hc'))
      (by simp only [List.length_cons] at hfuel; omega)
    simp only [page, parseLoop, exec_container done (page cs last) c hc, RegExpMatch.group,
      Nat.sub_self, List.get?_cons_zero, Option.getD_some, hname, htruthy, if_true]
    have hidx : done.length + c.before.length + c.text.length =
        (done ++ (c.before ++ c.text)).length := by
      simp only [List.length_append]
      omega
    have hcontent : done ++ (c.before ++ c.text ++ page cs last) =
        (done ++ (c.before ++ c.text)) ++ page cs last := by
      simp only [List.append_assoc]
    rw [hidx, hcontent]
    refine hnext.trans ?_
    simp

/-- A page is at least as long as the number of its containers. -/
theorem length_le_page (last : JsString) :
    ∀ cs : List Container, cs.length ≤ (page cs last).length := by
  intro cs
  induction cs with
  | nil => simp
  | cons c cs ih =>
    have : 0 < c.text.length := by
      simp only [Container.text, List.length_append]
      have : (js "</div>").length = 6 := by decide
      omega
    simp only [page, List.length_cons, List.length_append]
    omega

/-- C15 (as stated): the container `<div class="result"><h1>A</h1><h1>B</h1></div>`
is of the form `<div class="result">...<h1>B</h1>...</div>`, with `B` not blank
and free of `<` and no nested closing tag, and the entry has the name `A`, the
first heading, not `B`; and with the text `<div class="result-count"><h1>2
found</h1></div>` between two containers named `A` and `B` the results are
three entries, not two. -/
theorem first_heading_names_entry :
    js "<div class=\"result\"><h1>A</h1><h1>B</h1></div>" =
        js "<div class=\"result\">" ++ (js "<h1>A</h1>" ++ js "<h1>" ++ js "B" ++ js "</h1>" ++ []) ++
          js "</div>" ∧
      includes ((js "<h1>A</h1>" ++ js "<h1>" ++ js "B" ++ js "</h1>" ++ []).map asciiLower)
        (js "</div>") = false ∧
      60 ∉ js "B" ∧ trim (js "B") ≠ [] ∧
      parseSearchResults (js "<div class=\"result\"><h1>A</h1><h1>B</h1></div>") =
        some [⟨js "A", none, none⟩] ∧
      parseSearchResults (js "<div class=\"result\"><h1>A</h1><h1>B</h1></div>") ≠
        some [⟨trim (js "B"), none, none⟩] ∧
      parseSearchResults (js "<div class=\"result\"><h1>A</h1></div>" ++
          js "<div class=\"result-count\"><h1>2 found</h1></div>" ++
          js "<div class=\"result\"><h1>B</h1></div>") =
        some [⟨js "A", none, none⟩, ⟨js "2 found", none, none⟩, ⟨js "B", none, none⟩] := by
  decide

/-- C15 (amended): on a page made of result containers
`<div class="result">lead<h1>heading</h1>trail</div>`, each without `</div>`
inside, without `<h1` before its heading and with a heading free of `<` that is
not blank, and of texts without `<div` between and after them,
`parseSearchResults` returns one entry per container, in page order, with the
trimmed heading as name and the rating and address extracted from the inner
text of that container. -/
theorem search_results_in_page_order (cs : List Container) (last : JsString)
    (hcs : ∀ c ∈ cs, c.Plain)
    (hlast : includes (last.map asciiLower) (js "<div") = false) :
    parseSearchResults (page cs last) =
      some (cs.map fun c => ⟨trim c.heading, extractRating c.inner, extractAddress c.inner⟩) := by
  have := parseLoop_page last hlast cs [] [] ((page cs last).length + 1) hcs
    (Nat.lt_succ_of_le (length_le_page last cs))
  simpa [parseSearchResults, Container.entry] using this

/-- A page with two containers, a rating in the first and text around them. -/
theorem search_results_in_page_order_witness :
    parseSearchResults
        (page [⟨js "Results: ", js "", js " Blue Bottle ", js " 4.5 â˜…"⟩,
          ⟨js " and ", js "<p>new</p>", js "Ritual", js ""⟩] (js " end")) =
      some [⟨js "Blue Bottle", some (.finite false 9 (-1)), none⟩, ⟨js "Ritual", none, none⟩] :=
  (search_results_in_page_order
    [⟨js "Results: ", js "", js " Blue Bottle ", js " 4.5 â˜…"⟩,
      ⟨js " and ", js "<p>new</p>", js "Ritual", js ""⟩] (js " end")
    (by
      intro c hc
      simp only [List.mem_cons, List.mem_singleton, List.not_mem_nil, or_false] at hc
      rcases hc with rfl | rfl
      · exact ⟨by decide, by decide, by decide, by decide, by decide⟩
      · exact ⟨by decide, by decide, by decide, by decide, by decide⟩)
    (by decide)).trans (by decide)

/-- C16: the loop of `parseSearchResults` ends within `content.length + 1`
iterations; every match is a non-empty span of the text, made of an opening
tag, a body and `</div>`; each match ends before the next starts, so the scan
position grows at every iteration; and the results are no more than the closing
`</div>` tags of the text. -/
theorem search_loop_terminates (content : JsString) :
    ∃ ms rs, execLoop content (content.length + 1) 0 = some ms ∧
      parseSearchResults content = some rs ∧ rs = ms.filterMap entryOf ∧
      (∀ m ∈ ms, 0 < m.whole.length ∧ m.index + m.whole.length ≤ content.length ∧
        ∃ body, ResultSpan m.whole body) ∧
      ms.Pairwise (fun a b => a.index + a.whole.length ≤ b.index) ∧
      ms.Pairwise (fun a b => a.index + a.whole.length < b.index + b.whole.length) ∧
      rs.length ≤ countClosings content := by
  obtain ⟨ms, hms, hrs⟩ := parseSearchResults_eq content
  obtain ⟨hall, hpair, hcount⟩ := execLoop_spec content _ _ _ hms
  refine ⟨ms, _, hms, hrs, rfl, ?_, hpair, ?_, ?_⟩
  · intro m hm
    obtain ⟨-, hmatch, hpos, hend⟩ := hall m hm
    obtain ⟨pre, tag, seg, d, rest, -, -, hw, -, htag, hd, -⟩ := hmatch
    exact ⟨hpos, hend, seg, tag, d, hw, htag, hd⟩
  · refine hpair.imp_of_mem ?_
    intro a b _ hb hab
    have := (hall b hb).2.2.1
    omega
  · have := List.length_filterMap_le entryOf ms
    simp only [List.drop_zero] at hcount
    omega

/-- C17: a string returned by `extractName`, `extractAddress`, `extractPhone` or
`extractHours` holds no `<`, does not start or end with white space, and is
left unchanged by `trim`. -/
theorem extracted_strings_trimmed (content v : JsString)
    (h : extractName content = some v ∨ extractAddress content = some v ∨
      extractPhone content = some v ∨ extractHours content = some v) :
    60 ∉ v ∧ trim v = v ∧ (∀ x xs, v = x :: xs → isWhiteSpace x = false) ∧
      ∀ hne : v ≠ [], isWhiteSpace (v.getLast hne) = false := by
  have hbody : ∃ body, body ≠ [] ∧ 60 ∉ body ∧ v = trim body := by
    rcases h with h | h | h | h
    · exact extractName_some content v h
    · exact extractAddress_some content v h
    · exact extractPhone_some content v h
    · exact extractHours_some content v h
  obtain ⟨body, -, hlt, rfl⟩ := hbody
  refine ⟨fun hmem => hlt (mem_of_mem_trim hmem), trim_trim body, ?_, ?_⟩
  · intro x xs hx
    exact trim_head body x xs hx
  · intro hne
    exact trim_getLast body hne

/-- A page whose phone link has display text with white space around it. -/
theorem extracted_strings_trimmed_witness :
    extractPhone (js "<p><a href=\"tel:+14155551234\"> (415) 555-1234 </a></p>") =
        some (js "(415) 555-1234") ∧
      60 ∉ js "(415) 555-1234" ∧ trim (js "(415) 555-1234") = js "(415) 555-1234" ∧
      (∀ x xs, js "(415) 555-1234" = x :: xs → isWhiteSpace x = false) ∧
      ∀ hne : js "(415) 555-1234" ≠ [], isWhiteSpace ((js "(415) 555-1234").getLast hne) = false :=
  ⟨by decide,
    extracted_strings_trimmed (js "<p><a href=\"tel:+14155551234\"> (415) 555-1234 </a></p>")
      (js "(415) 555-1234") (Or.inr (Or.inr (Or.inl (by decide))))⟩

/-- C18: every segment that the loop hands to the extractors is the text
between an opening tag and the first `</div>` after it, so it holds no
`</div>` in any letter case; the name, rating and address of every result are
extracted from such a segment, and nothing after that `</div>` takes part. -/
theorem segments_stop_at_first_closing (content : JsString) :
    ∃ ms rs, execLoop content (content.length + 1) 0 = some ms ∧
      parseSearchResults content = some rs ∧
      (∀ m ∈ ms, ResultMatch content m ∧
        includes ((m.group 1).map asciiLower) (js "</div>") = false) ∧
      ∀ entry ∈ rs, ∃ m ∈ ms, extractName (m.group 1) = some entry.name ∧
        entry.rating = extractRating (m.group 1) ∧
        entry.address = extractAddress (m.group 1) := by
  obtain ⟨ms, hms, hrs⟩ := parseSearchResults_eq content
  obtain ⟨hall, -, -⟩ := execLoop_spec content _ _ _ hms
  refine ⟨ms, _, hms, hrs, ?_, ?_⟩
  · intro m hm
    exact ⟨(hall m hm).2.1, resultMatch_segment content m (hall m hm).2.1⟩
  · intro entry hentry
    obtain ⟨m, hm, hentry⟩ := List.mem_filterMap.mp hentry
    refine ⟨m, hm, ?_⟩
    unfold entryOf at hentry
    cases hn : extractName (m.group 1) with
    | none => simp [hn] at hentry
    | some n =>
      simp only [hn] at hentry
      split_ifs at hentry
      simp only [Option.some.injEq] at hentry
      subst hentry
      exact ⟨rfl, rfl, rfl⟩

/-- A result container with a nested `div`: the heading after the nested
closing tag is not extracted. -/
theorem segments_stop_at_first_closing_witness :
    parseSearchResults
        (js "<div class=\"result\"><div>4 km</div><h1>Late Cafe</h1></div>") = some [] ∧
      ∃ ms rs, execLoop (js "<div class=\"result\"><div>4 km</div><h1>Late Cafe</h1></div>")
          ((js "<div class=\"result\"><div>4 km</div><h1>Late Cafe</h1></div>").length + 1) 0 =
            some ms ∧
        parseSearchResults (js "<div class=\"result\"><div>4 km</div><h1>Late Cafe</h1></div>") =
          some rs ∧
        (∀ m ∈ ms,
          ResultMatch (js "<div class=\"result\"><div>4 km</div><h1>Late Cafe</h1></div>") m ∧
          includes ((m.group 1).map asciiLower) (js "</div>") = false) ∧
        ∀ entry ∈ rs, ∃ m ∈ ms, extractName (m.group 1) = some entry.name ∧
          entry.rating = extractRating (m.group 1) ∧
          entry.address = extractAddress (m.group 1) :=
  ⟨by decide, segments_stop_at_first_closing _⟩

/-- Percent-encoding fails with `URI malformed` on every string that has an
unpaired surrogate. -/
theorem encodeURIComponent_malformed (n : Nat) :
    ∀ s : JsString, s.length ≤ n → isWellFormed s = false →
      encodeURIComponent s = .error uriMalformed := by
  induction n with
  | zero =>
    intro s hs hw
    have : s = [] := List.length_eq_zero.mp (Nat.le_zero.mp hs)
    subst this
    simp [isWellFormed] at hw
  | succ n ih =>
    intro s hs hw
    have hsur : ∀ c, (isLowSurrogate c || isHighSurrogate c) = true → uriUnreserved c = false := by
      intro c hc
      cases hu : uriUnreserved c with
      | false => rfl
      | true =>
        exfalso
        simp only [uriUnreserved, isHighSurrogate, isLowSurrogate, Bool.or_eq_true,
          Bool.and_eq_true, decide_eq_true_eq, beq_iff_eq] at hu hc
        omega
    match s, hs, hw with
    | [], _, hw => simp [isWellFormed] at hw
    | [c], _, hw =>
      simp only [isWellFormed, Bool.not_eq_false'] at hw
      simp only [encodeURIComponent, hsur c hw, hw, Bool.false_eq_true, if_false, if_true]
    | c :: d :: ds, hs, hw =>
      simp only [List.length_cons] at hs
      simp only [isWellFormed] at hw
      simp only [encodeURIComponent]
      by_cases hl : isLowSurrogate c = true
      · simp [hl, hsur c (by simp [hl])]
      · simp only [hl, if_false, Bool.false_eq_true] at hw ⊢
        by_cases hh : isHighSurrogate c = true
        · simp only [hh, if_true] at hw ⊢
          rw [hsur c (by simp [hh])]
          by_cases hd : isLowSurrogate d = true
          · simp only [hd, Bool.true_and] at hw
            simp [hd, ih ds (by omega) hw]
          · simp [hd]
        · simp only [hh, if_false, Bool.false_eq_true] at hw ⊢
          have he := ih (d :: ds) (by simp; omega) hw
          by_cases hu : uriUnreserved c = true <;> simp [hu, he]

/-- For every accepted URL with an unpaired surrogate whose fetch succeeds,
`extractFromUrl` returns `{ error: 'URI malformed' }` and no record. -/
theorem extractFromUrl_malformed_url (web_fetch : Fetch) (url content : JsString)
    (hinc : includes url (js "google.com/maps") = true) (hfetch : web_fetch url = .ok content)
    (hwf : isWellFormed url = false) :
    extractFromUrl web_fetch url = .normal [(.error, .string uriMalformed)] := by
  have he := encodeURIComponent_malformed url.length url (Nat.le_refl _) hwf
  simp only [extractFromUrl, hinc, hfetch, extractDirectionsUrl, he, Bool.not_true,
    Bool.false_eq_true, if_false]

end GoogleMaps
